import Mathlib

/-!
# Control-flow-graph construction (`cfg/CFG.cc`)

A shallow embedding of `CFG::buildFor`, `CFG::freshBlock`, `CFG::CFG` and the
recursive lowering `CFG::walk`, followed by theorems about the graphs they build.

Representation choices, all taken from the C++ source:

* a `BasicBlock *` is the index of the block in `CFG::basicBlocks`;
* `BlockExit` is the raw triple `(cond, thenb, elseb)` the source writes; the
  symbol `0` in `cond` is the "no symbol" value (the block does not continue),
  the symbol `1` is the "always true" value (an unconditional jump);
* a successor pointer that has never been stored is `none`;
* `Error::check` failing aborts the build.

The lowering is embedded twice. `walk` works on a `CFG` all of whose slots hold a block;
there every store of the source goes through a valid pointer, and `walk` returns `none`
exactly for the abort. `CFGSlots.walk` works on the storage as the source declares it,
`CFGSlots`, in which a slot may hold a null pointer, and a store through a null pointer ends
the run; `walk_toSlots` shows that the two agree wherever every slot holds a block.
`CFGSlots.buildFor` is `CFG::buildFor`; it starts from `CFGSlots.new`, what `CFG::CFG()`
creates. `buildOnSentinels` runs the same statements on `CFG.sentinels`, a new CFG as the
specification describes it.
-/

namespace ruby_typer

namespace ast

/-- A `SymbolRef` is the index of a symbol in the global symbol table. -/
abbrev SymbolRef := Nat

/-- A `NameRef` is the index of an interned name. -/
abbrev NameRef := Nat

/-- Modelled from the spec: the Temporary Allocator behind `ctx.state` (its source is not
part of `cfg/CFG.cc`). The state is the number of symbols entered so far; symbols `0` and
`1` are the two reserved ones that `BlockExit::cond` uses as sentinels. -/
abbrev GlobalState := Nat

/-- Modelled from the spec: `ctx.state.newTemporary(kind, name, owner)` is total, returns a
symbol that was never issued before and advances the allocator. The naming category and the
owner do not influence which blocks are built and are not represented. -/
def GlobalState.newTemporary (state : GlobalState) : SymbolRef × GlobalState :=
  (state, state + 1)

/-- The tree consumed by `CFG::walk`: the node classes that `typecase` dispatches on, and
`Other` for every node class that falls through to the final `ast::Statement *` case
(`Send`, `Break`, `Next`, `Block`, ...). A `FloatLit` carries the bit pattern of its
`float`. -/
inductive Statement where
  | While (cond body : Statement)
  | Return (expr : Statement)
  | If (cond thenp elsep : Statement)
  | IntLit (value : Int)
  | FloatLit (value : Nat)
  | StringLit (value : NameRef)
  | BoolLit (value : Bool)
  | ConstantLit (cnst : NameRef)
  | Ident (symbol : SymbolRef)
  | Self (claz : SymbolRef)
  | Assign (lhs rhs : Statement)
  | InsSeq (stats : List Statement) (expr : Statement)
  | Other (kind : Nat)

/-- The part of `ast::MethodDef` that `buildFor` reads. -/
structure MethodDef where
  symbol : SymbolRef
  rhs : Statement

end ast

namespace cfg

open ast

/-- The instruction classes of `cfg`. -/
inductive Instruction where
  | Return (what : SymbolRef)
  | New (claz : SymbolRef) (args : List SymbolRef)
  | Super (args : List SymbolRef)
  | IntLit (value : Int)
  | FloatLit (value : Nat)
  | StringLit (value : NameRef)
  | BoolLit (value : Bool)
  | ConstantLit (cnst : NameRef)
  | Ident (what : SymbolRef)
  | Self (claz : SymbolRef)
  | Nil
  | Send (recv : SymbolRef) (func : NameRef) (args : List SymbolRef)
  | NotSupported (why : String)
  deriving DecidableEq, Repr

/-- An entry of `BasicBlock::exprs`: `bind = value`. -/
structure Binding where
  bind : SymbolRef
  value : Instruction
  deriving DecidableEq, Repr

/-- A block is referred to by its index in `CFG::basicBlocks`. -/
abbrev BlockRef := Nat

/-- The raw exit triple `bexit`. -/
structure BlockExit where
  cond : SymbolRef
  thenb : Option BlockRef
  elseb : Option BlockRef
  deriving DecidableEq, Repr

/-- Modelled from the spec: the exit of a block that `new BasicBlock()` has just created
(the class is declared in `CFG.h`, which is not among the sources): no condition symbol,
that is a provisional `Dead` exit, and no successor stored yet. -/
def BlockExit.unset : BlockExit := ⟨0, none, none⟩

structure BasicBlock where
  exprs : List Binding
  bexit : BlockExit
  deriving DecidableEq, Repr

/-- Modelled from the spec: a block as `new BasicBlock()` creates it, with an empty binding
list and the provisional exit. -/
def BasicBlock.fresh : BasicBlock := ⟨[], BlockExit.unset⟩

structure CFG where
  symbol : SymbolRef
  basicBlocks : List BasicBlock
  deriving DecidableEq, Repr

namespace CFG

/-- Modelled from the spec: a new CFG as the specification describes it, with its "2
sentinel blocks pre-created", the entry block in slot 0 and the dead block in slot 1, both as
freshly created blocks. This is the smallest graph on which `walk` can run. It is not what
the constructor of the source produces: `CFG::CFG()` creates no block, see `CFGSlots.new`. -/
def sentinels : CFG := ⟨0, [BasicBlock.fresh, BasicBlock.fresh]⟩

/-- `entry()`: block 0. -/
def entry : BlockRef := 0

/-- `deadBlock()`: block 1. -/
def deadBlock : BlockRef := 1

/-- `CFG::freshBlock`: append a new block and return a reference to it. -/
def freshBlock (g : CFG) : BlockRef × CFG :=
  (g.basicBlocks.length, { g with basicBlocks := g.basicBlocks ++ [BasicBlock.fresh] })

/-- The block behind a reference. -/
def block? (g : CFG) (b : BlockRef) : Option BasicBlock := g.basicBlocks[b]?

/-- A store through a block pointer: replace block `b` by `f` of it. -/
def modify (g : CFG) (b : BlockRef) (f : BasicBlock → BasicBlock) : CFG :=
  match g.basicBlocks[b]? with
  | some blk => { g with basicBlocks := g.basicBlocks.set b (f blk) }
  | none => g

/-- The statement `b->exprs.emplace_back(bind, value)`. -/
def emplaceBack (g : CFG) (b : BlockRef) (bind : SymbolRef) (value : Instruction) : CFG :=
  g.modify b (fun blk => { blk with exprs := blk.exprs ++ [⟨bind, value⟩] })

/-- The statement `b->bexit.cond = c`. -/
def setCond (g : CFG) (b : BlockRef) (c : SymbolRef) : CFG :=
  g.modify b (fun blk => { blk with bexit := { blk.bexit with cond := c } })

/-- The statement `b->bexit.thenb = t`. -/
def setThenb (g : CFG) (b : BlockRef) (t : BlockRef) : CFG :=
  g.modify b (fun blk => { blk with bexit := { blk.bexit with thenb := some t } })

/-- The statement `b->bexit.elseb = e`. -/
def setElseb (g : CFG) (b : BlockRef) (e : BlockRef) : CFG :=
  g.modify b (fun blk => { blk with bexit := { blk.bexit with elseb := some e } })

/-- The three consecutive stores `b->bexit.cond = 1; b->bexit.elseb = dest;
b->bexit.thenb = dest`: an unconditional jump. -/
def setJump (g : CFG) (b : BlockRef) (dest : BlockRef) : CFG :=
  ((g.setCond b 1).setElseb b dest).setThenb b dest

/-- The three consecutive stores `b->bexit.cond = 0; b->bexit.thenb = deadBlock();
b->bexit.elseb = deadBlock()`: the block does not continue. -/
def setDead (g : CFG) (b : BlockRef) : CFG :=
  ((g.setCond b 0).setThenb b deadBlock).setElseb b deadBlock

/-- The three consecutive stores `b->bexit.cond = c; b->bexit.thenb = t;
b->bexit.elseb = e` of the `While` case. -/
def setBranch (g : CFG) (b : BlockRef) (c : SymbolRef) (t e : BlockRef) : CFG :=
  ((g.setCond b c).setThenb b t).setElseb b e

end CFG

open CFG

mutual
/-- `CFG::walk`: lower `what` starting in block `current`, storing its value into `target`;
returns the block in which evaluation proceeds, with the extended graph and the advanced
allocator. `none` is the abort of `Error::check`. -/
def walk (ctx : GlobalState) (what : Statement) (current : BlockRef) (inWhat : CFG)
    (target : SymbolRef) : Option (BlockRef × CFG × GlobalState) :=
  match what with
  | .While cond body =>
    let headerBlock := inWhat.freshBlock.1
    let g1 := inWhat.freshBlock.2.setJump current headerBlock
    let condSym := ctx.newTemporary.1
    match walk ctx.newTemporary.2 cond headerBlock g1 condSym with
    | none => none
    | some (headerEnd, g2, ctx2) =>
      let bodyBlock := g2.freshBlock.1
      let continueBlock := g2.freshBlock.2.freshBlock.1
      let g3 := g2.freshBlock.2.freshBlock.2.setBranch headerEnd condSym bodyBlock continueBlock
      let bodySym := ctx2.newTemporary.1
      match walk ctx2.newTemporary.2 body bodyBlock g3 bodySym with
      | none => none
      | some (bodyEnd, g4, ctx4) =>
        some (continueBlock,
          (g4.setJump bodyEnd headerBlock).emplaceBack continueBlock target .Nil, ctx4)
  | .Return expr =>
    let retSym := ctx.newTemporary.1
    match walk ctx.newTemporary.2 expr current inWhat retSym with
    | none => none
    | some (cont, g1, ctx1) =>
      some (deadBlock, (g1.emplaceBack cont target (.Return retSym)).setDead cont, ctx1)
  | .If cond thenp elsep =>
    let ifSym := ctx.newTemporary.1
    let thenBlock := inWhat.freshBlock.1
    let elseBlock := inWhat.freshBlock.2.freshBlock.1
    match walk ctx.newTemporary.2 cond current inWhat.freshBlock.2.freshBlock.2 ifSym with
    | none => none
    | some (cont, g1, ctx1) =>
      let g2 := ((g1.setCond cont ifSym).setThenb current thenBlock).setElseb current elseBlock
      match walk ctx1 thenp thenBlock g2 target with
      | none => none
      | some (thenEnd, g3, ctx2) =>
        match walk ctx2 elsep thenBlock g3 target with
        | none => none
        | some (elseEnd, g4, ctx3) =>
          if thenEnd ≠ deadBlock ∨ elseEnd ≠ deadBlock then
            let ret := g4.freshBlock.1
            some (ret, (g4.freshBlock.2.setJump thenEnd ret).setJump elseEnd ret, ctx3)
          else
            some (deadBlock, g4, ctx3)
  | .IntLit value => some (current, inWhat.emplaceBack current target (.IntLit value), ctx)
  | .FloatLit value => some (current, inWhat.emplaceBack current target (.FloatLit value), ctx)
  | .StringLit value =>
    some (current, inWhat.emplaceBack current target (.StringLit value), ctx)
  | .BoolLit value => some (current, inWhat.emplaceBack current target (.BoolLit value), ctx)
  | .ConstantLit cnst =>
    some (current, inWhat.emplaceBack current target (.ConstantLit cnst), ctx)
  | .Ident symbol => some (current, inWhat.emplaceBack current target (.Ident symbol), ctx)
  | .Self claz => some (current, inWhat.emplaceBack current target (.Self claz), ctx)
  | .Assign lhs rhs =>
    match lhs with
    | .Ident lhsSymbol =>
      match walk ctx rhs current inWhat lhsSymbol with
      | none => none
      | some (rhsCont, g1, ctx1) =>
        some (rhsCont, g1.emplaceBack rhsCont target (.Ident lhsSymbol), ctx1)
    | _ => none
  | .InsSeq stats expr =>
    match walkStats ctx stats current inWhat with
    | none => none
    | some (current1, g1, ctx1) => walk ctx1 expr current1 g1 target
  | .Other _ => some (current, inWhat.emplaceBack current target (.NotSupported ""), ctx)
/-- The loop of the `InsSeq` case: every statement is lowered into a temporary of its own,
starting in the block the previous one returned. -/
def walkStats (ctx : GlobalState) (stats : List Statement) (current : BlockRef)
    (inWhat : CFG) : Option (BlockRef × CFG × GlobalState) :=
  match stats with
  | [] => some (current, inWhat, ctx)
  | exp :: rest =>
    let temp := ctx.newTemporary.1
    match walk ctx.newTemporary.2 exp current inWhat temp with
    | none => none
    | some (current1, g1, ctx1) => walkStats ctx1 rest current1 g1
end

/-- The statements of `CFG::buildFor` after the construction of the CFG (lines 10 to 19),
run on a CFG whose two sentinel blocks exist, as the specification describes a new CFG. The
function of the source, which runs them on what `CFG::CFG()` produces, is
`CFGSlots.buildFor`. -/
def buildOnSentinels (ctx : GlobalState) (md : MethodDef) : Option (CFG × GlobalState) :=
  let res : CFG := { CFG.sentinels with symbol := md.symbol }
  let retSym := ctx.newTemporary.1
  match walk ctx.newTemporary.2 md.rhs entry res retSym with
  | none => none
  | some (cont, g1, ctx1) =>
    let retSym1 := ctx1.newTemporary.1
    some ((g1.emplaceBack cont retSym1 (.Return retSym)).setDead cont, ctx1.newTemporary.2)


/-! ## Block pointers that may be null -/

/-- How a run ends that returns nothing. -/
inductive Failure where
  /-- `Error::check` failed: the fatal internal-consistency failure. -/
  | abort
  /-- A store through a null block pointer. -/
  | nullDeref
  deriving DecidableEq, Repr

/-- The class `CFG` with `basicBlocks` as the source uses it, a vector of owning block
pointers (`freshBlock` fills the new slot with `back.reset(new BasicBlock())` and reads it
back with `.get()`): a slot holds a block, or the null pointer, `none`. A `BasicBlock *` is
the index of the slot it was read from. The accessors `entry()` and `deadBlock()` are
declared in `CFG.h`, which is not among the sources; following the specification (the two
sentinels have fixed indices) they read slot 0 and slot 1, see `entry` and `deadBlock`. -/
structure CFGSlots where
  symbol : SymbolRef
  basicBlocks : List (Option BasicBlock)
  deriving DecidableEq, Repr

namespace CFGSlots

/-- `CFG::CFG()`: `basicBlocks.resize(2)`. The two new slots are value-initialised owning
pointers, that is null pointers: the constructor creates no block. -/
def new : CFGSlots := ⟨0, [none, none]⟩

/-- `CFG::freshBlock`: append a slot, fill it with a new block, return the pointer to it. -/
def freshBlock (g : CFGSlots) : BlockRef × CFGSlots :=
  (g.basicBlocks.length, { g with basicBlocks := g.basicBlocks ++ [some BasicBlock.fresh] })

/-- The number of slots. -/
def size (g : CFGSlots) : Nat := g.basicBlocks.length

/-- The block that the pointer of slot `b` points to; `none` for a null pointer. -/
def block? (g : CFGSlots) (b : BlockRef) : Option BasicBlock :=
  match g.basicBlocks[b]? with
  | some (some blk) => some blk
  | _ => none

/-- A store through the pointer of slot `b`: the block it points to is replaced by `f` of
it; through a null pointer the run ends. -/
def modify (g : CFGSlots) (b : BlockRef) (f : BasicBlock → BasicBlock) :
    Except Failure CFGSlots :=
  match g.block? b with
  | some blk => .ok { g with basicBlocks := g.basicBlocks.set b (some (f blk)) }
  | none => .error .nullDeref

/-- The statement `b->exprs.emplace_back(bind, value)`. -/
def emplaceBack (g : CFGSlots) (b : BlockRef) (bind : SymbolRef) (value : Instruction) :
    Except Failure CFGSlots :=
  g.modify b (fun blk => { blk with exprs := blk.exprs ++ [⟨bind, value⟩] })

/-- The statement `b->bexit.cond = c`. -/
def setCond (g : CFGSlots) (b : BlockRef) (c : SymbolRef) : Except Failure CFGSlots :=
  g.modify b (fun blk => { blk with bexit := { blk.bexit with cond := c } })

/-- The statement `b->bexit.thenb = t`. -/
def setThenb (g : CFGSlots) (b : BlockRef) (t : BlockRef) : Except Failure CFGSlots :=
  g.modify b (fun blk => { blk with bexit := { blk.bexit with thenb := some t } })

/-- The statement `b->bexit.elseb = e`. -/
def setElseb (g : CFGSlots) (b : BlockRef) (e : BlockRef) : Except Failure CFGSlots :=
  g.modify b (fun blk => { blk with bexit := { blk.bexit with elseb := some e } })

/-- The three consecutive stores `b->bexit.cond = 1; b->bexit.elseb = dest;
b->bexit.thenb = dest`. -/
def setJump (g : CFGSlots) (b : BlockRef) (dest : BlockRef) : Except Failure CFGSlots :=
  match g.setCond b 1 with
  | .error f => .error f
  | .ok g1 =>
    match g1.setElseb b dest with
    | .error f => .error f
    | .ok g2 => g2.setThenb b dest

/-- The three consecutive stores `b->bexit.cond = 0; b->bexit.thenb = deadBlock();
b->bexit.elseb = deadBlock()`. -/
def setDead (g : CFGSlots) (b : BlockRef) : Except Failure CFGSlots :=
  match g.setCond b 0 with
  | .error f => .error f
  | .ok g1 =>
    match g1.setThenb b deadBlock with
    | .error f => .error f
    | .ok g2 => g2.setElseb b deadBlock

/-- The three consecutive stores `b->bexit.cond = c; b->bexit.thenb = t;
b->bexit.elseb = e` of the `While` case. -/
def setBranch (g : CFGSlots) (b : BlockRef) (c : SymbolRef) (t e : BlockRef) :
    Except Failure CFGSlots :=
  match g.setCond b c with
  | .error f => .error f
  | .ok g1 =>
    match g1.setThenb b t with
    | .error f => .error f
    | .ok g2 => g2.setElseb b e

mutual
/-- `CFG::walk`, statement by statement as in the source, on the storage of the source:
every store goes through a block pointer, and a store through a null pointer ends the run
with `nullDeref`; `Error::check` failing ends it with `abort`. -/
def walk (ctx : GlobalState) (what : Statement) (current : BlockRef) (inWhat : CFGSlots)
    (target : SymbolRef) : Except Failure (BlockRef × CFGSlots × GlobalState) :=
  match what with
  | .While cond body =>
    let headerBlock := inWhat.freshBlock.1
    match inWhat.freshBlock.2.setJump current headerBlock with
    | .error f => .error f
    | .ok g1 =>
      let condSym := ctx.newTemporary.1
      match walk ctx.newTemporary.2 cond headerBlock g1 condSym with
      | .error f => .error f
      | .ok (headerEnd, g2, ctx2) =>
        let bodyBlock := g2.freshBlock.1
        let continueBlock := g2.freshBlock.2.freshBlock.1
        match g2.freshBlock.2.freshBlock.2.setBranch headerEnd condSym bodyBlock
            continueBlock with
        | .error f => .error f
        | .ok g3 =>
          let bodySym := ctx2.newTemporary.1
          match walk ctx2.newTemporary.2 body bodyBlock g3 bodySym with
          | .error f => .error f
          | .ok (bodyEnd, g4, ctx4) =>
            match g4.setJump bodyEnd headerBlock with
            | .error f => .error f
            | .ok g5 =>
              match g5.emplaceBack continueBlock target .Nil with
              | .error f => .error f
              | .ok g6 => .ok (continueBlock, g6, ctx4)
  | .Return expr =>
    let retSym := ctx.newTemporary.1
    match walk ctx.newTemporary.2 expr current inWhat retSym with
    | .error f => .error f
    | .ok (cont, g1, ctx1) =>
      match g1.emplaceBack cont target (.Return retSym) with
      | .error f => .error f
      | .ok g2 =>
        match g2.setDead cont with
        | .error f => .error f
        | .ok g3 => .ok (deadBlock, g3, ctx1)
  | .If cond thenp elsep =>
    let ifSym := ctx.newTemporary.1
    let thenBlock := inWhat.freshBlock.1
    let elseBlock := inWhat.freshBlock.2.freshBlock.1
    match walk ctx.newTemporary.2 cond current inWhat.freshBlock.2.freshBlock.2 ifSym with
    | .error f => .error f
    | .ok (cont, g1, ctx1) =>
      match g1.setCond cont ifSym with
      | .error f => .error f
      | .ok g1a =>
        match g1a.setThenb current thenBlock with
        | .error f => .error f
        | .ok g1b =>
          match g1b.setElseb current elseBlock with
          | .error f => .error f
          | .ok g2 =>
            match walk ctx1 thenp thenBlock g2 target with
            | .error f => .error f
            | .ok (thenEnd, g3, ctx2) =>
              match walk ctx2 elsep thenBlock g3 target with
              | .error f => .error f
              | .ok (elseEnd, g4, ctx3) =>
                if thenEnd ≠ deadBlock ∨ elseEnd ≠ deadBlock then
                  let ret := g4.freshBlock.1
                  match g4.freshBlock.2.setJump thenEnd ret with
                  | .error f => .error f
                  | .ok g5 =>
                    match g5.setJump elseEnd ret with
                    | .error f => .error f
                    | .ok g6 => .ok (ret, g6, ctx3)
                else
                  .ok (deadBlock, g4, ctx3)
  | .IntLit value =>
    match inWhat.emplaceBack current target (.IntLit value) with
    | .error f => .error f
    | .ok g1 => .ok (current, g1, ctx)
  | .FloatLit value =>
    match inWhat.emplaceBack current target (.FloatLit value) with
    | .error f => .error f
    | .ok g1 => .ok (current, g1, ctx)
  | .StringLit value =>
    match inWhat.emplaceBack current target (.StringLit value) with
    | .error f => .error f
    | .ok g1 => .ok (current, g1, ctx)
  | .BoolLit value =>
    match inWhat.emplaceBack current target (.BoolLit value) with
    | .error f => .error f
    | .ok g1 => .ok (current, g1, ctx)
  | .ConstantLit cnst =>
    match inWhat.emplaceBack current target (.ConstantLit cnst) with
    | .error f => .error f
    | .ok g1 => .ok (current, g1, ctx)
  | .Ident symbol =>
    match inWhat.emplaceBack current target (.Ident symbol) with
    | .error f => .error f
    | .ok g1 => .ok (current, g1, ctx)
  | .Self claz =>
    match inWhat.emplaceBack current target (.Self claz) with
    | .error f => .error f
    | .ok g1 => .ok (current, g1, ctx)
  | .Assign lhs rhs =>
    match lhs with
    | .Ident lhsSymbol =>
      match walk ctx rhs current inWhat lhsSymbol with
      | .error f => .error f
      | .ok (rhsCont, g1, ctx1) =>
        match g1.emplaceBack rhsCont target (.Ident lhsSymbol) with
        | .error f => .error f
        | .ok g2 => .ok (rhsCont, g2, ctx1)
    | _ => .error .abort
  | .InsSeq stats expr =>
    match walkStats ctx stats current inWhat with
    | .error f => .error f
    | .ok (current1, g1, ctx1) => walk ctx1 expr current1 g1 target
  | .Other _ =>
    match inWhat.emplaceBack current target (.NotSupported "") with
    | .error f => .error f
    | .ok g1 => .ok (current, g1, ctx)
/-- The loop of the `InsSeq` case of `CFG::walk`. -/
def walkStats (ctx : GlobalState) (stats : List Statement) (current : BlockRef)
    (inWhat : CFGSlots) : Except Failure (BlockRef × CFGSlots × GlobalState) :=
  match stats with
  | [] => .ok (current, inWhat, ctx)
  | exp :: rest =>
    let temp := ctx.newTemporary.1
    match walk ctx.newTemporary.2 exp current inWhat temp with
    | .error f => .error f
    | .ok (current1, g1, ctx1) => walkStats ctx1 rest current1 g1
end

/-- `CFG::buildFor`: construct the CFG with `CFG::CFG()`, lower the method body from
`entry()` into a fresh return temporary, then append the synthesized `Return` to the block
that the lowering returned and store a dead exit on it. -/
def buildFor (ctx : GlobalState) (md : MethodDef) : Except Failure (CFGSlots × GlobalState) :=
  let res : CFGSlots := { CFGSlots.new with symbol := md.symbol }
  let retSym := ctx.newTemporary.1
  match walk ctx.newTemporary.2 md.rhs entry res retSym with
  | .error f => .error f
  | .ok (cont, g1, ctx1) =>
    let retSym1 := ctx1.newTemporary.1
    match g1.emplaceBack cont retSym1 (.Return retSym) with
    | .error f => .error f
    | .ok g2 =>
      match g2.setDead cont with
      | .error f => .error f
      | .ok g3 => .ok (g3, ctx1.newTemporary.2)

end CFGSlots

/-- A graph all of whose blocks exist, seen as the storage of the source: every slot holds
a block. -/
def CFG.toSlots (g : CFG) : CFGSlots := ⟨g.symbol, g.basicBlocks.map some⟩

/-- A result of `walk` on a graph all of whose blocks exist, seen as a result on the storage
of the source: `none` is the abort of `Error::check`. -/
def toSlotsResult :
    Option (BlockRef × CFG × GlobalState) → Except Failure (BlockRef × CFGSlots × GlobalState)
  | none => .error .abort
  | some (r, g, ctx) => .ok (r, g.toSlots, ctx)


/-! ## Reading a graph -/

namespace CFG

/-- The number of blocks allocated so far. -/
def size (g : CFG) : Nat := g.basicBlocks.length

/-- The exit triple of block `b`. -/
def exit? (g : CFG) (b : BlockRef) : Option BlockExit := (g.block? b).map (fun blk => blk.bexit)

/-- The binding list of block `b`. -/
def exprs? (g : CFG) (b : BlockRef) : Option (List Binding) :=
  (g.block? b).map (fun blk => blk.exprs)

end CFG

/-! ## The shape of a lowering -/

/-- The graph transformations `walk` can perform, by the case of `walk` that performs them:
`Lowered g current g' ret` says that some lowering that starts in block `current` of `g`
produces `g'` and returns block `ret`. -/
inductive Lowered : CFG → Nat → CFG → Nat → Prop
  | nop (g : CFG) (current : Nat) : Lowered g current g current
  | emplace {g g' : CFG} {current ret : Nat} (s : Nat) (v : Instruction) :
      Lowered g current g' ret → Lowered g current (g'.emplaceBack ret s v) ret
  | seq {g g1 g2 : CFG} {current r1 r2 : Nat} :
      Lowered g current g1 r1 → Lowered g1 r1 g2 r2 → Lowered g current g2 r2
  | ret {g g1 : CFG} {current cont : Nat} (s : Nat) (v : Instruction) :
      Lowered g current g1 cont →
      Lowered g current ((g1.emplaceBack cont s v).setDead cont) 1
  | whileLoop {g g2 g4 : CFG} {current headerEnd bodyEnd : Nat} (c s : Nat) :
      Lowered (g.freshBlock.2.setJump current g.size) g.size g2 headerEnd →
      Lowered (g2.freshBlock.2.freshBlock.2.setBranch headerEnd c g2.size (g2.size + 1))
        g2.size g4 bodyEnd →
      Lowered g current ((g4.setJump bodyEnd g.size).emplaceBack (g2.size + 1) s .Nil)
        (g2.size + 1)
  | ifJoin {g g1 g3 g4 : CFG} {current cont thenEnd elseEnd : Nat} (c : Nat) :
      Lowered g.freshBlock.2.freshBlock.2 current g1 cont →
      Lowered (((g1.setCond cont c).setThenb current g.size).setElseb current (g.size + 1))
        g.size g3 thenEnd →
      Lowered g3 g.size g4 elseEnd →
      (thenEnd ≠ 1 ∨ elseEnd ≠ 1) →
      Lowered g current ((g4.freshBlock.2.setJump thenEnd g4.size).setJump elseEnd g4.size)
        g4.size
  | ifDead {g g1 g3 g4 : CFG} {current cont : Nat} (c : Nat) :
      Lowered g.freshBlock.2.freshBlock.2 current g1 cont →
      Lowered (((g1.setCond cont c).setThenb current g.size).setElseb current (g.size + 1))
        g.size g3 1 →
      Lowered g3 g.size g4 1 →
      Lowered g current g4 1

/-- What every lowering guarantees about the blocks it was not asked to touch. -/
structure Framed (g : CFG) (current : Nat) (g' : CFG) (r : Nat) : Prop where
  size_le : g.size ≤ g'.size
  ret_cases : r = current ∨ r = 1 ∨ (g.size ≤ r ∧ r < g'.size)
  frame : ∀ i, i < g.size → i ≠ current → i ≠ 1 → g'.block? i = g.block? i
  ret_unset : g.size ≤ r → g'.exit? r = some BlockExit.unset
  ret_same : r = current → current ≠ 1 → g'.exit? current = g.exit? current

/-! ## Control paths -/

/-- Block `a` continues to block `b`: the exit of `a` has a condition symbol (it is a jump
or a branch, not a dead end) and `b` is stored in one of its two successor slots. -/
def Edge (ex : Nat → Option BlockExit) (a b : Nat) : Prop :=
  ∃ e, ex a = some e ∧ e.cond ≠ 0 ∧ (e.thenb = some b ∨ e.elseb = some b)

/-- The exit of block `d` is `Dead`: the block exists and its exit has no condition
symbol. -/
def DeadExit (ex : Nat → Option BlockExit) (d : Nat) : Prop :=
  ∃ e, ex d = some e ∧ e.cond = 0

/-- Block `b` can be reached from block `a` along jump and branch successors. -/
def Reach (ex : Nat → Option BlockExit) (a b : Nat) : Prop :=
  Relation.ReflTransGen (Edge ex) a b

/-- A step that does not leave through block `r`. -/
def EdgeAvoid (ex : Nat → Option BlockExit) (r a b : Nat) : Prop := a ≠ r ∧ Edge ex a b

/-- From `b` some path leads to block `r` or to a block whose exit is `Dead`. -/
inductive Good (ex : Nat → Option BlockExit) (r : Nat) : Nat → Prop
  | ret : Good ex r r
  | dead {d : Nat} : DeadExit ex d → Good ex r d
  | step {a b : Nat} : Edge ex a b → Good ex r b → Good ex r a

/-- Every block that control can reach from `current` before it arrives at `r` has a path
to `r` or to a dead end. -/
def Live (ex : Nat → Option BlockExit) (current r : Nat) : Prop :=
  ∀ b, Relation.ReflTransGen (EdgeAvoid ex r) current b → Good ex r b

/-- No block other than the dead block continues to a block that does not exist, or to
the dead block. -/
def Valid (g : CFG) : Prop :=
  ∀ (i : Nat) (e : BlockExit), i ≠ 1 → g.exit? i = some e → e.cond ≠ 0 →
    ∀ j : Nat, (e.thenb = some j ∨ e.elseb = some j) → j ≠ 1 ∧ j < g.size

/-! ## Notions used to state the claims about single cases and whole builds -/

/-- The instruction that the leaf cases and the fallback case of `walk` bind to the target:
the instruction class of the same name carrying the node's payload, and `NotSupported("")`
for a node class without a case of its own. `none` for the node classes that recurse. -/
def leafInstruction : Statement → Option Instruction
  | .IntLit value => some (.IntLit value)
  | .FloatLit value => some (.FloatLit value)
  | .StringLit value => some (.StringLit value)
  | .BoolLit value => some (.BoolLit value)
  | .ConstantLit cnst => some (.ConstantLit cnst)
  | .Ident symbol => some (.Ident symbol)
  | .Self claz => some (.Self claz)
  | .Other _ => some (.NotSupported "")
  | _ => none

mutual
/-- Written from the error taxonomy of the specification, to be compared with the lowering:
the lowering reaches an `Assign` whose left-hand side is not a simple variable. The
positions reached are the node itself and, recursively, `While` condition and body, `If`
condition and arms, `Return` expression, `Assign` right-hand side, and `InsSeq` statements
and final expression. -/
def reachesBadAssign : Statement → Bool
  | .While cond body => reachesBadAssign cond || reachesBadAssign body
  | .Return expr => reachesBadAssign expr
  | .If cond thenp elsep =>
    reachesBadAssign cond || reachesBadAssign thenp || reachesBadAssign elsep
  | .Assign (.Ident _) rhs => reachesBadAssign rhs
  | .Assign _ _ => true
  | .InsSeq stats expr => reachesBadAssignStats stats || reachesBadAssign expr
  | _ => false
/-- Some statement of the list reaches such an `Assign`. -/
def reachesBadAssignStats : List Statement → Bool
  | [] => false
  | exp :: rest => reachesBadAssign exp || reachesBadAssignStats rest
end

mutual
/-- A `Return` node occurs at a position that the lowering reaches. -/
def hasReturn : Statement → Bool
  | .While cond body => hasReturn cond || hasReturn body
  | .Return _ => true
  | .If cond thenp elsep => hasReturn cond || hasReturn thenp || hasReturn elsep
  | .Assign _ rhs => hasReturn rhs
  | .InsSeq stats expr => hasReturnStats stats || hasReturn expr
  | _ => false
/-- A `Return` node occurs in some statement of the list. -/
def hasReturnStats : List Statement → Bool
  | [] => false
  | exp :: rest => hasReturn exp || hasReturnStats rest
end

mutual
/-- Written from the specification ("each node is visited exactly once"): the number of
bindings that one visit of every node produces. A leaf or unsupported node, an `Assign`, a
`Return` and a `While` bind once themselves; an `If` and an `InsSeq` bind nothing
themselves. -/
def nodeBindings : Statement → Nat
  | .While cond body => 1 + nodeBindings cond + nodeBindings body
  | .Return expr => 1 + nodeBindings expr
  | .If cond thenp elsep => nodeBindings cond + nodeBindings thenp + nodeBindings elsep
  | .Assign _ rhs => 1 + nodeBindings rhs
  | .InsSeq stats expr => nodeBindingsStats stats + nodeBindings expr
  | _ => 1
/-- The sum of `nodeBindings` over a statement list. -/
def nodeBindingsStats : List Statement → Nat
  | [] => 0
  | exp :: rest => nodeBindings exp + nodeBindingsStats rest
end

/-- The total number of bindings over all blocks of a graph. -/
def CFG.bindingCount (g : CFG) : Nat := (g.basicBlocks.map (fun blk => blk.exprs.length)).sum

/-- The statement loop of the `InsSeq` case, written from the specification, to be compared
with `walk`: `StatsTrace ctx stats b g temps b' g' ctx'` says that the statements `stats`
are lowered in order, the first starting in block `b` of `g`, each into the temporary that
the allocator issues just before it is lowered (`temps` lists them in order) and each
starting in the block that the lowering of the previous one returned; `b'`, `g'` and `ctx'`
are the block, the graph and the allocator state after the last one. -/
inductive StatsTrace : GlobalState → List Statement → Nat → CFG → List Nat → Nat → CFG →
    GlobalState → Prop
  | nil (ctx : GlobalState) (b : Nat) (g : CFG) : StatsTrace ctx [] b g [] b g ctx
  | cons {ctx : GlobalState} {exp : Statement} {rest : List Statement} {b : Nat} {g : CFG}
      {b1 : Nat} {g1 : CFG} {ctx1 : GlobalState} {temps : List Nat} {b2 : Nat} {g2 : CFG}
      {ctx2 : GlobalState} :
      walk ctx.newTemporary.2 exp b g ctx.newTemporary.1 = some (b1, g1, ctx1) →
      StatsTrace ctx1 rest b1 g1 temps b2 g2 ctx2 →
      StatsTrace ctx (exp :: rest) b g (ctx.newTemporary.1 :: temps) b2 g2 ctx2

/-- The variant of an instruction: its class, without its payload. -/
def Instruction.variant : Instruction → Nat
  | .Return _ => 0
  | .New _ _ => 1
  | .Super _ => 2
  | .IntLit _ => 3
  | .FloatLit _ => 4
  | .StringLit _ => 5
  | .BoolLit _ => 6
  | .ConstantLit _ => 7
  | .Ident _ => 8
  | .Self _ => 9
  | .Nil => 10
  | .Send _ _ _ => 11
  | .NotSupported _ => 12

/-- The three kinds of exit that the raw triple encodes. -/
inductive ExitKind where
  | Dead
  | Jump
  | Branch
  deriving DecidableEq, Repr

/-- The kind of an exit: `Dead` for the no-symbol condition 0, `Jump` for the always-true
condition 1, `Branch` for every other condition symbol. -/
def BlockExit.kind (e : BlockExit) : ExitKind :=
  if e.cond = 0 then .Dead else if e.cond = 1 then .Jump else .Branch

/-- What of a block does not depend on the names of temporaries: the variants of its
bindings in order, the kind of its exit, and its two successor slots. -/
structure BlockShape where
  variants : List Nat
  kind : ExitKind
  thenb : Option BlockRef
  elseb : Option BlockRef
  deriving DecidableEq, Repr

/-- The shape of a block. -/
def BasicBlock.shape (blk : BasicBlock) : BlockShape :=
  ⟨blk.exprs.map (fun b => b.value.variant), blk.bexit.kind, blk.bexit.thenb, blk.bexit.elseb⟩

/-- The shape of block `i` of a graph. -/
def CFG.shape? (g : CFG) (i : BlockRef) : Option BlockShape :=
  (g.block? i).map BasicBlock.shape

/-- Two graphs have the same shape: they have the same blocks up to the names of the
bound symbols and of the condition symbols. -/
def ShapeEq (gA gB : CFG) : Prop := ∀ i : Nat, gA.shape? i = gB.shape? i

/-- Two results of `walk` agree up to the names of temporaries: both are the abort, or both
return the same block and graphs of the same shape. -/
def SameOutcome (a b : Option (BlockRef × CFG × GlobalState)) : Prop :=
  match a, b with
  | none, none => True
  | some x, some y => x.1 = y.1 ∧ ShapeEq x.2.1 y.2.1
  | _, _ => False

/-- The graph `g2` keeps every block of `g1` at its index, with the bindings that the block
had in `g1` at the front of its binding list, and has at least as many blocks. -/
def AppendOnly (g1 g2 : CFG) : Prop :=
  g1.size ≤ g2.size
    ∧ ∀ (i : Nat) (l : List Binding), g1.exprs? i = some l → ∃ t, g2.exprs? i = some (l ++ t)

/-! ## Printing instructions -/

/-- The name lookups of the printing functions, which read the tables of the global state:
`symbolName s` is the text of `s.info(ctx).name.name(ctx).toString(ctx)` and `nameText n` the
text of `n.name(ctx).toString(ctx)`. Both are parameters; nothing is assumed about them. -/
structure NameTable where
  symbolName : SymbolRef → String
  nameText : NameRef → String

/-- The argument loop that `New::toString`, `Super::toString` and `Send::toString` each
contain: `for (auto arg : args) { if (!isFirst) buf << " ,"; isFirst = true; buf << name; }`,
run on the buffer `buf` with the flag `isFirst`. -/
def printArgs (names : NameTable) : List SymbolRef → String → Bool → String
  | [], buf, _ => buf
  | arg :: rest, buf, isFirst =>
    let buf1 := if !isFirst then buf ++ " ," else buf
    let isFirst1 := true
    printArgs names rest (buf1 ++ names.symbolName arg) isFirst1

/-- `New::toString`. -/
def New.toString (names : NameTable) (claz : SymbolRef) (args : List SymbolRef) : String :=
  let buf := "new " ++ names.symbolName claz ++ "("
  let isFirst := true
  printArgs names args buf isFirst ++ ")"

/-- `Super::toString`. -/
def Super.toString (names : NameTable) (args : List SymbolRef) : String :=
  let buf := "super("
  let isFirst := true
  printArgs names args buf isFirst ++ ")"

/-- `Send::toString`. -/
def Send.toString (names : NameTable) (recv : SymbolRef) (func : NameRef)
    (args : List SymbolRef) : String :=
  let buf := names.symbolName recv ++ "." ++ names.nameText func ++ "("
  let isFirst := true
  printArgs names args buf isFirst ++ ")"

/-- Written from the specification, to be compared with the printing functions: the
argument names with the separator `" ,"` between each consecutive pair. -/
def separated : List String → String
  | [] => ""
  | [a] => a
  | a :: b :: rest => a ++ " ," ++ separated (b :: rest)

/-- The argument names one after the other, with nothing between them. -/
def concatNames : List String → String
  | [] => ""
  | a :: rest => a ++ concatNames rest

/-- A name table for examples: the symbols 1, 2, 3, 4 are named `a`, `bc`, `ab`, `c`, every
other symbol is named `C`, and every name reference reads `m`. -/
def exampleNames : NameTable :=
  ⟨fun s => if s = 1 then "a" else if s = 2 then "bc" else if s = 3 then "ab"
      else if s = 4 then "c" else "C",
    fun _ => "m"⟩

/-! ## Basic facts about the stores -/

namespace CFG

theorem block?_eq_none_iff (g : CFG) (i : Nat) : g.block? i = none ↔ g.size ≤ i := by
  simp [block?, size]

theorem block?_isSome_iff (g : CFG) (i : Nat) : (g.block? i).isSome ↔ i < g.size := by
  cases h : g.block? i with
  | none => simpa using (g.block?_eq_none_iff i).1 h
  | some blk =>
    have : ¬ g.size ≤ i := fun hle => by simp [(g.block?_eq_none_iff i).2 hle] at h
    simpa using this

theorem exists_block_of_lt {g : CFG} {i : Nat} (h : i < g.size) :
    ∃ blk, g.block? i = some blk := by
  cases hb : g.block? i with
  | none => exact absurd ((g.block?_eq_none_iff i).1 hb) (Nat.not_le.2 h)
  | some blk => exact ⟨blk, rfl⟩

theorem lt_size_of_block? {g : CFG} {i : Nat} {blk : BasicBlock}
    (h : g.block? i = some blk) : i < g.size := by
  rw [← block?_isSome_iff, h]; rfl

@[simp] theorem size_modify (g : CFG) (b : Nat) (f : BasicBlock → BasicBlock) :
    (g.modify b f).size = g.size := by
  unfold modify size
  split <;> simp

theorem block?_modify (g : CFG) (b : Nat) (f : BasicBlock → BasicBlock) (i : Nat) :
    (g.modify b f).block? i = if i = b then (g.block? i).map f else g.block? i := by
  unfold modify block?
  split
  · next blk hb =>
    by_cases hib : i = b
    · subst hib
      have hlt : i < g.basicBlocks.length := by
        rcases List.getElem?_eq_some_iff.1 hb with ⟨h, _⟩
        exact h
      simp [List.getElem?_set, hlt, hb]
    · have hbi : b ≠ i := fun h => hib h.symm
      simp [hib, List.getElem?_set_ne hbi]
  · next hb =>
    by_cases hib : i = b
    · subst hib; simp [hb]
    · simp [hib]

@[simp] theorem size_freshBlock (g : CFG) : g.freshBlock.2.size = g.size + 1 := by
  simp [freshBlock, size]

@[simp] theorem freshBlock_fst (g : CFG) : g.freshBlock.1 = g.size := rfl

theorem block?_freshBlock (g : CFG) (i : Nat) :
    g.freshBlock.2.block? i = if i = g.size then some BasicBlock.fresh else g.block? i := by
  unfold freshBlock block? size
  by_cases h : i = g.basicBlocks.length
  · subst h; simp
  · simp only [h, if_false]
    rcases Nat.lt_or_gt_of_ne h with hlt | hgt
    · exact List.getElem?_append_left hlt
    · rw [List.getElem?_eq_none (by simp; omega), List.getElem?_eq_none (by omega)]

@[simp] theorem size_emplaceBack (g : CFG) (b : Nat) (s : Nat) (v : Instruction) :
    (g.emplaceBack b s v).size = g.size := by simp [emplaceBack]

@[simp] theorem size_setCond (g : CFG) (b : Nat) (c : Nat) :
    (g.setCond b c).size = g.size := by simp [setCond]

@[simp] theorem size_setThenb (g : CFG) (b t : Nat) :
    (g.setThenb b t).size = g.size := by simp [setThenb]

@[simp] theorem size_setElseb (g : CFG) (b e : Nat) :
    (g.setElseb b e).size = g.size := by simp [setElseb]

@[simp] theorem size_setJump (g : CFG) (b d : Nat) :
    (g.setJump b d).size = g.size := by simp [setJump]

@[simp] theorem size_setDead (g : CFG) (b : Nat) :
    (g.setDead b).size = g.size := by simp [setDead]

@[simp] theorem size_setBranch (g : CFG) (b : Nat) (c : Nat) (t e : Nat) :
    (g.setBranch b c t e).size = g.size := by simp [setBranch]

theorem exit?_freshBlock (g : CFG) (i : Nat) :
    g.freshBlock.2.exit? i = if i = g.size then some BlockExit.unset else g.exit? i := by
  unfold exit?
  rw [block?_freshBlock]
  split <;> rfl

theorem exprs?_freshBlock (g : CFG) (i : Nat) :
    g.freshBlock.2.exprs? i = if i = g.size then some [] else g.exprs? i := by
  unfold exprs?
  rw [block?_freshBlock]
  split <;> rfl

@[simp] theorem exit?_emplaceBack (g : CFG) (b : Nat) (s : Nat) (v : Instruction)
    (i : Nat) : (g.emplaceBack b s v).exit? i = g.exit? i := by
  unfold exit? emplaceBack
  rw [block?_modify]
  split <;> simp [Option.map_map, Function.comp_def]

theorem exprs?_emplaceBack (g : CFG) (b : Nat) (s : Nat) (v : Instruction)
    (i : Nat) :
    (g.emplaceBack b s v).exprs? i
      = if i = b then (g.exprs? i).map (fun l => l ++ [⟨s, v⟩]) else g.exprs? i := by
  unfold exprs? emplaceBack
  rw [block?_modify]
  split <;> simp [Option.map_map, Function.comp_def]

theorem exit?_setCond (g : CFG) (b : Nat) (c : Nat) (i : Nat) :
    (g.setCond b c).exit? i
      = if i = b then (g.exit? i).map (fun e => { e with cond := c }) else g.exit? i := by
  unfold exit? setCond
  rw [block?_modify]
  split <;> simp [Option.map_map, Function.comp_def]

theorem exit?_setThenb (g : CFG) (b t : Nat) (i : Nat) :
    (g.setThenb b t).exit? i
      = if i = b then (g.exit? i).map (fun e => { e with thenb := some t }) else g.exit? i := by
  unfold exit? setThenb
  rw [block?_modify]
  split <;> simp [Option.map_map, Function.comp_def]

theorem exit?_setElseb (g : CFG) (b e : Nat) (i : Nat) :
    (g.setElseb b e).exit? i
      = if i = b then (g.exit? i).map (fun x => { x with elseb := some e }) else g.exit? i := by
  unfold exit? setElseb
  rw [block?_modify]
  split <;> simp [Option.map_map, Function.comp_def]

@[simp] theorem exprs?_setCond (g : CFG) (b : Nat) (c : Nat) (i : Nat) :
    (g.setCond b c).exprs? i = g.exprs? i := by
  unfold exprs? setCond
  rw [block?_modify]
  split <;> simp [Option.map_map, Function.comp_def]

@[simp] theorem exprs?_setThenb (g : CFG) (b t : Nat) (i : Nat) :
    (g.setThenb b t).exprs? i = g.exprs? i := by
  unfold exprs? setThenb
  rw [block?_modify]
  split <;> simp [Option.map_map, Function.comp_def]

@[simp] theorem exprs?_setElseb (g : CFG) (b e : Nat) (i : Nat) :
    (g.setElseb b e).exprs? i = g.exprs? i := by
  unfold exprs? setElseb
  rw [block?_modify]
  split <;> simp [Option.map_map, Function.comp_def]

theorem exit?_setJump (g : CFG) (b d : Nat) (i : Nat) :
    (g.setJump b d).exit? i
      = if i = b then (g.exit? i).map (fun _ => ⟨1, some d, some d⟩) else g.exit? i := by
  unfold setJump
  rw [exit?_setThenb, exit?_setElseb, exit?_setCond]
  split <;> simp [Option.map_map, Function.comp_def]

theorem exit?_setDead (g : CFG) (b : Nat) (i : Nat) :
    (g.setDead b).exit? i
      = if i = b then (g.exit? i).map (fun _ => ⟨0, some 1, some 1⟩)
        else g.exit? i := by
  unfold setDead
  rw [exit?_setElseb, exit?_setThenb, exit?_setCond]
  split <;> simp [Option.map_map, Function.comp_def, deadBlock]

theorem exit?_setBranch (g : CFG) (b : Nat) (c : Nat) (t e : Nat)
    (i : Nat) :
    (g.setBranch b c t e).exit? i
      = if i = b then (g.exit? i).map (fun _ => ⟨c, some t, some e⟩) else g.exit? i := by
  unfold setBranch
  rw [exit?_setElseb, exit?_setThenb, exit?_setCond]
  split <;> simp [Option.map_map, Function.comp_def]

@[simp] theorem exprs?_setJump (g : CFG) (b d : Nat) (i : Nat) :
    (g.setJump b d).exprs? i = g.exprs? i := by simp [setJump]

@[simp] theorem exprs?_setDead (g : CFG) (b : Nat) (i : Nat) :
    (g.setDead b).exprs? i = g.exprs? i := by simp [setDead]

@[simp] theorem exprs?_setBranch (g : CFG) (b : Nat) (c : Nat) (t e : Nat)
    (i : Nat) : (g.setBranch b c t e).exprs? i = g.exprs? i := by simp [setBranch]

theorem exit?_isSome_iff (g : CFG) (i : Nat) : (g.exit? i).isSome ↔ i < g.size := by
  unfold exit?
  rw [Option.isSome_map']
  exact g.block?_isSome_iff i

theorem exists_exit_of_lt {g : CFG} {i : Nat} (h : i < g.size) :
    ∃ e, g.exit? i = some e := by
  obtain ⟨blk, hb⟩ := exists_block_of_lt h
  exact ⟨blk.bexit, by simp [exit?, hb]⟩

theorem lt_size_of_exit? {g : CFG} {i : Nat} {e : BlockExit}
    (h : g.exit? i = some e) : i < g.size := by
  rw [← exit?_isSome_iff, h]; rfl

end CFG

/-! ## Every lowering has one of the shapes -/

theorem Lowered.leaf (g : CFG) (current : Nat) (s : Nat) (v : Instruction) :
    Lowered g current (g.emplaceBack current s v) current :=
  Lowered.emplace s v (Lowered.nop g current)

mutual
theorem walk_lowered : ∀ (what : Statement) (ctx : GlobalState) (current : Nat)
    (g : CFG) (target : Nat) (r : Nat) (g' : CFG) (ctx' : GlobalState),
    walk ctx what current g target = some (r, g', ctx') → Lowered g current g' r
  | .While cond body, ctx, current, g, target, r, g', ctx', h => by
    rw [walk] at h
    simp only [freshBlock_fst, size_freshBlock] at h
    split at h
    · exact absurd h (by simp)
    · next headerEnd g2 ctx2 hc =>
      split at h
      · exact absurd h (by simp)
      · next bodyEnd g4 ctx4 hb =>
        simp only [Option.some.injEq, Prod.mk.injEq] at h
        obtain ⟨rfl, rfl, rfl⟩ := h
        exact Lowered.whileLoop _ _ (walk_lowered cond _ _ _ _ _ _ _ hc)
          (walk_lowered body _ _ _ _ _ _ _ hb)
  | .Return expr, ctx, current, g, target, r, g', ctx', h => by
    rw [walk] at h
    split at h
    · exact absurd h (by simp)
    · next cont g1 ctx1 he =>
      simp only [Option.some.injEq, Prod.mk.injEq] at h
      obtain ⟨rfl, rfl, rfl⟩ := h
      exact Lowered.ret _ _ (walk_lowered expr _ _ _ _ _ _ _ he)
  | .If cond thenp elsep, ctx, current, g, target, r, g', ctx', h => by
    rw [walk] at h
    simp only [freshBlock_fst, size_freshBlock] at h
    split at h
    · exact absurd h (by simp)
    · next cont g1 ctx1 hc =>
      split at h
      · exact absurd h (by simp)
      · next thenEnd g3 ctx2 ht =>
        split at h
        · exact absurd h (by simp)
        · next elseEnd g4 ctx3 he =>
          split at h
          · next hd =>
            simp only [Option.some.injEq, Prod.mk.injEq] at h
            obtain ⟨rfl, rfl, rfl⟩ := h
            exact Lowered.ifJoin _ (walk_lowered cond _ _ _ _ _ _ _ hc)
              (walk_lowered thenp _ _ _ _ _ _ _ ht) (walk_lowered elsep _ _ _ _ _ _ _ he) hd
          · next hd =>
            simp only [Option.some.injEq, Prod.mk.injEq] at h
            obtain ⟨rfl, rfl, rfl⟩ := h
            have h1 : thenEnd = 1 := by
              by_contra hne; exact hd (Or.inl hne)
            have h2 : elseEnd = 1 := by
              by_contra hne; exact hd (Or.inr hne)
            subst h1 h2
            exact Lowered.ifDead _ (walk_lowered cond _ _ _ _ _ _ _ hc)
              (walk_lowered thenp _ _ _ _ _ _ _ ht) (walk_lowered elsep _ _ _ _ _ _ _ he)
  | .IntLit _, ctx, current, g, target, r, g', ctx', h => by
    rw [walk] at h
    simp only [Option.some.injEq, Prod.mk.injEq] at h
    obtain ⟨rfl, rfl, rfl⟩ := h
    exact Lowered.leaf _ _ _ _
  | .FloatLit _, ctx, current, g, target, r, g', ctx', h => by
    rw [walk] at h
    simp only [Option.some.injEq, Prod.mk.injEq] at h
    obtain ⟨rfl, rfl, rfl⟩ := h
    exact Lowered.leaf _ _ _ _
  | .StringLit _, ctx, current, g, target, r, g', ctx', h => by
    rw [walk] at h
    simp only [Option.some.injEq, Prod.mk.injEq] at h
    obtain ⟨rfl, rfl, rfl⟩ := h
    exact Lowered.leaf _ _ _ _
  | .BoolLit _, ctx, current, g, target, r, g', ctx', h => by
    rw [walk] at h
    simp only [Option.some.injEq, Prod.mk.injEq] at h
    obtain ⟨rfl, rfl, rfl⟩ := h
    exact Lowered.leaf _ _ _ _
  | .ConstantLit _, ctx, current, g, target, r, g', ctx', h => by
    rw [walk] at h
    simp only [Option.some.injEq, Prod.mk.injEq] at h
    obtain ⟨rfl, rfl, rfl⟩ := h
    exact Lowered.leaf _ _ _ _
  | .Ident _, ctx, current, g, target, r, g', ctx', h => by
    rw [walk] at h
    simp only [Option.some.injEq, Prod.mk.injEq] at h
    obtain ⟨rfl, rfl, rfl⟩ := h
    exact Lowered.leaf _ _ _ _
  | .Self _, ctx, current, g, target, r, g', ctx', h => by
    rw [walk] at h
    simp only [Option.some.injEq, Prod.mk.injEq] at h
    obtain ⟨rfl, rfl, rfl⟩ := h
    exact Lowered.leaf _ _ _ _
  | .Other _, ctx, current, g, target, r, g', ctx', h => by
    rw [walk] at h
    simp only [Option.some.injEq, Prod.mk.injEq] at h
    obtain ⟨rfl, rfl, rfl⟩ := h
    exact Lowered.leaf _ _ _ _
  | .Assign lhs rhs, ctx, current, g, target, r, g', ctx', h => by
    cases lhs with
    | Ident lhsSymbol =>
      rw [walk] at h
      split at h
      · exact absurd h (by simp)
      · next rhsCont g1 ctx1 hr =>
        simp only [Option.some.injEq, Prod.mk.injEq] at h
        obtain ⟨rfl, rfl, rfl⟩ := h
        exact Lowered.emplace _ _ (walk_lowered rhs _ _ _ _ _ _ _ hr)
    | _ => simp [walk] at h
  | .InsSeq stats expr, ctx, current, g, target, r, g', ctx', h => by
    rw [walk] at h
    split at h
    · exact absurd h (by simp)
    · next current1 g1 ctx1 hs =>
      exact Lowered.seq (walkStats_lowered stats _ _ _ _ _ _ hs)
        (walk_lowered expr _ _ _ _ _ _ _ h)
theorem walkStats_lowered : ∀ (stats : List Statement) (ctx : GlobalState)
    (current : Nat) (g : CFG) (r : Nat) (g' : CFG) (ctx' : GlobalState),
    walkStats ctx stats current g = some (r, g', ctx') → Lowered g current g' r
  | [], ctx, current, g, r, g', ctx', h => by
    rw [walkStats] at h
    simp only [Option.some.injEq, Prod.mk.injEq] at h
    obtain ⟨rfl, rfl, rfl⟩ := h
    exact Lowered.nop _ _
  | exp :: rest, ctx, current, g, r, g', ctx', h => by
    rw [walkStats] at h
    split at h
    · exact absurd h (by simp)
    · next current1 g1 ctx1 he =>
      exact Lowered.seq (walk_lowered exp _ _ _ _ _ _ _ he)
        (walkStats_lowered rest _ _ _ _ _ _ h)
end

/-! ## What a lowering leaves alone -/

namespace CFG

theorem block?_freshBlock_of_lt {g : CFG} {i : Nat} (h : i < g.size) :
    g.freshBlock.2.block? i = g.block? i := by
  rw [block?_freshBlock, if_neg (by omega)]

theorem block?_emplaceBack_of_ne {g : CFG} {b i : Nat} (s : Nat) (v : Instruction)
    (h : i ≠ b) : (g.emplaceBack b s v).block? i = g.block? i := by
  unfold emplaceBack; rw [block?_modify, if_neg h]

theorem block?_setCond_of_ne {g : CFG} {b i : Nat} (c : Nat) (h : i ≠ b) :
    (g.setCond b c).block? i = g.block? i := by
  unfold setCond; rw [block?_modify, if_neg h]

theorem block?_setThenb_of_ne {g : CFG} {b i : Nat} (t : Nat) (h : i ≠ b) :
    (g.setThenb b t).block? i = g.block? i := by
  unfold setThenb; rw [block?_modify, if_neg h]

theorem block?_setElseb_of_ne {g : CFG} {b i : Nat} (e : Nat) (h : i ≠ b) :
    (g.setElseb b e).block? i = g.block? i := by
  unfold setElseb; rw [block?_modify, if_neg h]

theorem block?_setJump_of_ne {g : CFG} {b i : Nat} (d : Nat) (h : i ≠ b) :
    (g.setJump b d).block? i = g.block? i := by
  unfold setJump
  rw [block?_setThenb_of_ne _ h, block?_setElseb_of_ne _ h, block?_setCond_of_ne _ h]

theorem block?_setDead_of_ne {g : CFG} {b i : Nat} (h : i ≠ b) :
    (g.setDead b).block? i = g.block? i := by
  unfold setDead
  rw [block?_setElseb_of_ne _ h, block?_setThenb_of_ne _ h, block?_setCond_of_ne _ h]

theorem block?_setBranch_of_ne {g : CFG} {b i : Nat} (c : Nat) (t e : Nat)
    (h : i ≠ b) : (g.setBranch b c t e).block? i = g.block? i := by
  unfold setBranch
  rw [block?_setElseb_of_ne _ h, block?_setThenb_of_ne _ h, block?_setCond_of_ne _ h]

theorem exit?_of_block? {g g' : CFG} {i j : Nat} (h : g'.block? i = g.block? j) :
    g'.exit? i = g.exit? j := by
  unfold exit?; rw [h]

theorem exprs?_of_block? {g g' : CFG} {i j : Nat} (h : g'.block? i = g.block? j) :
    g'.exprs? i = g.exprs? j := by
  unfold exprs?; rw [h]

end CFG

theorem Framed.ret_lt {g g' : CFG} {current r : Nat} (h : Framed g current g' r)
    (h2 : 2 ≤ g.size) (hc : current < g.size) : r < g'.size := by
  have := h.size_le
  rcases h.ret_cases with h1 | h1 | h1
  · omega
  · omega
  · omega

theorem Framed.ret_ne {g g' : CFG} {current r i : Nat} (h : Framed g current g' r)
    (hi : i < g.size) (hc : i ≠ current) (hd : i ≠ 1) : i ≠ r := by
  rcases h.ret_cases with h1 | h1 | h1
  · omega
  · omega
  · omega

theorem Lowered.framed {g g' : CFG} {current r : Nat} (h : Lowered g current g' r) :
    2 ≤ g.size → current < g.size → Framed g current g' r := by
  induction h with
  | nop g current =>
    intro _ _
    exact ⟨le_refl _, Or.inl rfl, fun _ _ _ _ => rfl, fun h => by omega, fun _ _ => rfl⟩
  | @emplace g g' current r s v _ ih =>
    intro h2 hc
    have F := ih h2 hc
    refine ⟨by simpa using F.size_le, by simpa using F.ret_cases, ?_, ?_, ?_⟩
    · intro i hi hic hid
      rw [block?_emplaceBack_of_ne _ _ (F.ret_ne hi hic hid)]
      exact F.frame i hi hic hid
    · intro hr
      rw [exit?_emplaceBack]
      exact F.ret_unset hr
    · intro hr hd
      rw [exit?_emplaceBack]
      exact F.ret_same hr hd
  | @seq g g1 g2 current r1 r2 _ _ ih1 ih2 =>
    intro h2 hc
    have F1 := ih1 h2 hc
    have hr1 := F1.ret_lt h2 hc
    have hs1 := F1.size_le
    have F2 := ih2 (by omega) hr1
    have hs2 := F2.size_le
    refine ⟨by omega, ?_, ?_, ?_, ?_⟩
    · rcases F2.ret_cases with h | h | h
      · rw [h]
        rcases F1.ret_cases with h' | h' | h'
        · exact Or.inl h'
        · exact Or.inr (Or.inl h')
        · exact Or.inr (Or.inr ⟨h'.1, by omega⟩)
      · exact Or.inr (Or.inl h)
      · exact Or.inr (Or.inr ⟨by omega, h.2⟩)
    · intro i hi hic hid
      rw [F2.frame i (by omega) (F1.ret_ne hi hic hid) hid]
      exact F1.frame i hi hic hid
    · intro hr
      rcases F2.ret_cases with h | h | h
      · subst h
        have hd : r2 ≠ 1 := by omega
        rw [F2.ret_same rfl hd]
        exact F1.ret_unset hr
      · omega
      · exact F2.ret_unset h.1
    · intro hr hd
      subst hr
      rcases F2.ret_cases with h | h | h
      · subst h
        rw [F2.ret_same rfl hd]
        exact F1.ret_same rfl hd
      · exact absurd h hd
      · omega
  | @ret g g1 current cont s v _ ih =>
    intro h2 hc
    have F := ih h2 hc
    refine ⟨by simpa using F.size_le, Or.inr (Or.inl rfl), ?_, ?_, ?_⟩
    · intro i hi hic hid
      have hne := F.ret_ne hi hic hid
      rw [block?_setDead_of_ne hne, block?_emplaceBack_of_ne _ _ hne]
      exact F.frame i hi hic hid
    · intro hr
      omega
    · intro hr hd
      exact absurd hr.symm hd
  | @whileLoop g g2 g4 current headerEnd bodyEnd c s _ _ ih1 ih2 =>
    intro h2 hc
    have e1 : (g.freshBlock.2.setJump current g.size).size = g.size + 1 := by simp
    have e2 : (g2.freshBlock.2.freshBlock.2.setBranch headerEnd c g2.size (g2.size + 1)).size
        = g2.size + 2 := by simp
    have F1 := ih1 (by omega) (by omega)
    have hs1 : g.size + 1 ≤ g2.size := by simpa using F1.size_le
    have hHE : headerEnd < g2.size := F1.ret_lt (by omega) (by omega)
    have F2 := ih2 (by omega) (by omega)
    have hs2 : g2.size + 2 ≤ g4.size := by simpa using F2.size_le
    have hBE : bodyEnd < g4.size := F2.ret_lt (by omega) (by omega)
    have hBE' : bodyEnd = g2.size ∨ bodyEnd = 1 ∨ g2.size + 2 ≤ bodyEnd := by
      rcases F2.ret_cases with h | h | h
      · exact Or.inl h
      · exact Or.inr (Or.inl h)
      · exact Or.inr (Or.inr (by simpa using h.1))
    have hHE' : headerEnd = g.size ∨ headerEnd = 1 ∨ g.size + 1 ≤ headerEnd := by
      rcases F1.ret_cases with h | h | h
      · exact Or.inl h
      · exact Or.inr (Or.inl h)
      · exact Or.inr (Or.inr (by simpa using h.1))
    refine ⟨by simp; omega, Or.inr (Or.inr ⟨by omega, by simp; omega⟩), ?_, ?_, ?_⟩
    · intro i hi hic hid
      have hiA : i ≠ g2.size + 1 := by omega
      have hiBE : i ≠ bodyEnd := by omega
      have hiHE : i ≠ headerEnd := by omega
      rw [block?_emplaceBack_of_ne _ _ hiA, block?_setJump_of_ne _ hiBE,
        F2.frame i (by omega) (by omega) hid, block?_setBranch_of_ne _ _ _ hiHE,
        block?_freshBlock_of_lt (by simp; omega), block?_freshBlock_of_lt (by omega),
        F1.frame i (by omega) (by omega) hid, block?_setJump_of_ne _ hic,
        block?_freshBlock_of_lt hi]
    · intro _
      have hABE : g2.size + 1 ≠ bodyEnd := by omega
      have hAHE : g2.size + 1 ≠ headerEnd := by omega
      rw [exit?_emplaceBack, exit?_of_block? (block?_setJump_of_ne _ hABE),
        exit?_of_block? (F2.frame (g2.size + 1) (by omega) (by omega)
          (by omega)),
        exit?_of_block? (block?_setBranch_of_ne _ _ _ hAHE), exit?_freshBlock]
      simp
    · intro hr _
      omega
  | @ifJoin g g1 g3 g4 current cont thenEnd elseEnd c _ _ _ hd ih1 ih2 ih3 =>
    intro h2 hc
    have e1 : g.freshBlock.2.freshBlock.2.size = g.size + 2 := by simp
    have e2 : (((g1.setCond cont c).setThenb current g.size).setElseb current
        (g.size + 1)).size = g1.size := by simp
    have F1 := ih1 (by omega) (by omega)
    have hs1 : g.size + 2 ≤ g1.size := by simpa using F1.size_le
    have F2 := ih2 (by omega) (by omega)
    have hs2 : g1.size ≤ g3.size := by simpa using F2.size_le
    have F3 := ih3 (by omega) (by omega)
    have hs3 := F3.size_le
    have hcont : cont = current ∨ cont = 1 ∨ g.size + 2 ≤ cont := by
      rcases F1.ret_cases with h | h | h
      · exact Or.inl h
      · exact Or.inr (Or.inl h)
      · exact Or.inr (Or.inr (by simpa using h.1))
    have hte : thenEnd = g.size ∨ thenEnd = 1 ∨ g1.size ≤ thenEnd := by
      rcases F2.ret_cases with h | h | h
      · exact Or.inl h
      · exact Or.inr (Or.inl h)
      · exact Or.inr (Or.inr (by simpa using h.1))
    have hte2 : thenEnd < g3.size := F2.ret_lt (by omega) (by omega)
    have hee : elseEnd = g.size ∨ elseEnd = 1 ∨ g3.size ≤ elseEnd := by
      rcases F3.ret_cases with h | h | h
      · exact Or.inl h
      · exact Or.inr (Or.inl h)
      · exact Or.inr (Or.inr h.1)
    have hee2 : elseEnd < g4.size := F3.ret_lt (by omega) (by omega)
    refine ⟨by simp; omega, Or.inr (Or.inr ⟨by omega, by simp⟩), ?_, ?_, ?_⟩
    · intro i hi hic hid
      have h1 : i ≠ elseEnd := by omega
      have h2 : i ≠ thenEnd := by omega
      have h3 : i ≠ cont := by omega
      rw [block?_setJump_of_ne _ h1, block?_setJump_of_ne _ h2,
        block?_freshBlock_of_lt (by omega), F3.frame i (by omega) (by omega) hid,
        F2.frame i (by omega) (by omega) hid, block?_setElseb_of_ne _ hic,
        block?_setThenb_of_ne _ hic, block?_setCond_of_ne _ h3,
        F1.frame i (by omega) hic hid, block?_freshBlock_of_lt (by simp; omega),
        block?_freshBlock_of_lt hi]
    · intro _
      rw [exit?_of_block? (block?_setJump_of_ne _ (by omega : g4.size ≠ elseEnd)),
        exit?_of_block? (block?_setJump_of_ne _ (by omega : g4.size ≠ thenEnd)),
        exit?_freshBlock]
      simp
    · intro hr _
      omega
  | @ifDead g g1 g3 g4 current cont c _ _ _ ih1 ih2 ih3 =>
    intro h2 hc
    have e1 : g.freshBlock.2.freshBlock.2.size = g.size + 2 := by simp
    have e2 : (((g1.setCond cont c).setThenb current g.size).setElseb current
        (g.size + 1)).size = g1.size := by simp
    have F1 := ih1 (by omega) (by omega)
    have hs1 : g.size + 2 ≤ g1.size := by simpa using F1.size_le
    have F2 := ih2 (by omega) (by omega)
    have hs2 : g1.size ≤ g3.size := by simpa using F2.size_le
    have F3 := ih3 (by omega) (by omega)
    have hs3 := F3.size_le
    have hcont : cont = current ∨ cont = 1 ∨ g.size + 2 ≤ cont := by
      rcases F1.ret_cases with h | h | h
      · exact Or.inl h
      · exact Or.inr (Or.inl h)
      · exact Or.inr (Or.inr (by simpa using h.1))
    refine ⟨by omega, Or.inr (Or.inl rfl), ?_, ?_, ?_⟩
    · intro i hi hic hid
      have h3 : i ≠ cont := by omega
      rw [F3.frame i (by omega) (by omega) hid,
        F2.frame i (by omega) (by omega) hid, block?_setElseb_of_ne _ hic,
        block?_setThenb_of_ne _ hic, block?_setCond_of_ne _ h3,
        F1.frame i (by omega) hic hid, block?_freshBlock_of_lt (by simp; omega),
        block?_freshBlock_of_lt hi]
    · intro hr
      omega
    · intro hr hd
      exact absurd hr.symm hd

/-! ## Validity of successor slots -/

theorem Valid.edge {g : CFG} (hv : Valid g) {a b : Nat} (ha : a ≠ 1)
    (h : Edge g.exit? a b) : b ≠ 1 ∧ b < g.size := by
  obtain ⟨e, he, hc, hs⟩ := h
  exact hv a e ha he hc b hs

theorem Valid.reach {g : CFG} (hv : Valid g) {a b : Nat} (ha : a ≠ 1) (hlt : a < g.size)
    (h : Reach g.exit? a b) : b ≠ 1 ∧ b < g.size := by
  induction h with
  | refl => exact ⟨ha, hlt⟩
  | tail _ hstep ih => exact hv.edge ih.1 hstep

theorem reach_of_avoid {ex : Nat → Option BlockExit} {r a b : Nat}
    (h : Relation.ReflTransGen (EdgeAvoid ex r) a b) : Reach ex a b :=
  Relation.ReflTransGen.mono (fun _ _ h => h.2) h

theorem avoid_self {ex : Nat → Option BlockExit} {r b : Nat}
    (h : Relation.ReflTransGen (EdgeAvoid ex r) r b) : b = r := by
  induction h with
  | refl => rfl
  | tail _ hstep ih => exact absurd ih hstep.1

theorem Good.of_reach {ex : Nat → Option BlockExit} {r a b : Nat} (h : Reach ex a b)
    (hb : Good ex r b) : Good ex r a := by
  induction h using Relation.ReflTransGen.head_induction_on with
  | refl => exact hb
  | head hstep _ ih => exact Good.step hstep ih

theorem Good.exists_reach {ex : Nat → Option BlockExit} {r a : Nat} (h : Good ex r a) :
    ∃ d, Reach ex a d ∧ (d = r ∨ DeadExit ex d) := by
  induction h with
  | ret => exact ⟨r, Relation.ReflTransGen.refl, Or.inl rfl⟩
  | dead hd => exact ⟨_, Relation.ReflTransGen.refl, Or.inr hd⟩
  | step hstep _ ih =>
    obtain ⟨d, hr, hd⟩ := ih
    exact ⟨d, Relation.ReflTransGen.head hstep hr, hd⟩

/-- Moving a liveness fact from a graph to a later one: the blocks whose exits changed
(the set `W`) all have a path in the later graph. -/
theorem Good.transfer {g g' : CFG} {r r' : Nat} (W : Nat → Prop) (hv : Valid g)
    (hsame : ∀ i, i ≠ 1 → i < g.size → ¬ W i → g'.exit? i = g.exit? i)
    (hW : ∀ w, W w → w ≠ 1 → w < g.size → Good g'.exit? r' w)
    (hr : r ≠ 1 → r < g.size → Good g'.exit? r' r) {b : Nat}
    (h : Good g.exit? r b) : b ≠ 1 → b < g.size → Good g'.exit? r' b := by
  induction h with
  | ret => exact hr
  | @dead d hd =>
    intro h1 h2
    by_cases hw : W d
    · exact hW d hw h1 h2
    · obtain ⟨e, he, hc⟩ := hd
      exact Good.dead ⟨e, by rw [hsame d h1 h2 hw]; exact he, hc⟩
  | @step a b hstep _ ih =>
    intro h1 h2
    by_cases hw : W a
    · exact hW a hw h1 h2
    · have hb := hv.edge h1 hstep
      obtain ⟨e, he, hc, hs⟩ := hstep
      exact Good.step ⟨e, by rw [hsame a h1 h2 hw]; exact he, hc, hs⟩ (ih hb.1 hb.2)

theorem Valid.mono {g g' : CFG} (hv : Valid g) (hsz : g.size ≤ g'.size)
    (h : ∀ i e, i ≠ 1 → g'.exit? i = some e → e.cond ≠ 0 →
      g.exit? i = some e ∨ ∀ j, (e.thenb = some j ∨ e.elseb = some j) → j ≠ 1 ∧ j < g'.size) :
    Valid g' := by
  intro i e hi he hc j hj
  rcases h i e hi he hc with h1 | h1
  · have := hv i e hi h1 hc j hj
    exact ⟨this.1, Nat.lt_of_lt_of_le this.2 hsz⟩
  · exact h1 j hj

theorem Valid.freshBlock {g : CFG} (hv : Valid g) : Valid g.freshBlock.2 := by
  refine hv.mono (by simp) ?_
  intro i e _ he hc
  rw [exit?_freshBlock] at he
  split at he
  · simp only [Option.some.injEq] at he
    subst he
    exact absurd rfl hc
  · exact Or.inl he

theorem Valid.emplaceBack {g : CFG} (hv : Valid g) (b s : Nat) (v : Instruction) :
    Valid (g.emplaceBack b s v) := by
  refine hv.mono (by simp) ?_
  intro i e _ he _
  rw [exit?_emplaceBack] at he
  exact Or.inl he

theorem Valid.setJump {g : CFG} (hv : Valid g) (b : Nat) {d : Nat} (hd : d ≠ 1)
    (hlt : d < g.size) : Valid (g.setJump b d) := by
  refine hv.mono (by simp) ?_
  intro i e _ he _
  rw [exit?_setJump] at he
  split at he
  · right
    cases hx : g.exit? i with
    | none => rw [hx] at he; simp at he
    | some x =>
      rw [hx] at he
      simp only [Option.map_some', Option.some.injEq] at he
      subst he
      intro j hj
      simp only [Option.some.injEq, or_self] at hj
      subst hj
      exact ⟨hd, by simpa using hlt⟩
  · exact Or.inl he

theorem Valid.setBranch {g : CFG} (hv : Valid g) (b c : Nat) {t f : Nat} (ht : t ≠ 1)
    (htl : t < g.size) (hf : f ≠ 1) (hfl : f < g.size) : Valid (g.setBranch b c t f) := by
  refine hv.mono (by simp) ?_
  intro i e _ he _
  rw [exit?_setBranch] at he
  split at he
  · right
    cases hx : g.exit? i with
    | none => rw [hx] at he; simp at he
    | some x =>
      rw [hx] at he
      simp only [Option.map_some', Option.some.injEq] at he
      subst he
      intro j hj
      simp only [Option.some.injEq] at hj
      rcases hj with hj | hj
      · subst hj; exact ⟨ht, by simpa using htl⟩
      · subst hj; exact ⟨hf, by simpa using hfl⟩
  · exact Or.inl he

theorem Valid.setDead {g : CFG} (hv : Valid g) (b : Nat) : Valid (g.setDead b) := by
  refine hv.mono (by simp) ?_
  intro i e _ he hc
  rw [exit?_setDead] at he
  split at he
  · cases hx : g.exit? i with
    | none => rw [hx] at he; simp at he
    | some x =>
      rw [hx] at he
      simp only [Option.map_some', Option.some.injEq] at he
      subst he
      exact absurd rfl hc
  · exact Or.inl he

/-- The three stores of the `If` case keep the graph valid: the block that receives the
condition symbol is the starting block, the dead block, or a block without successors. -/
theorem Valid.ifWire {g : CFG} (hv : Valid g) {current cont c t f : Nat}
    (hcont : cont = current ∨ cont = 1 ∨ g.exit? cont = some BlockExit.unset)
    (ht : t ≠ 1) (htl : t < g.size) (hf : f ≠ 1) (hfl : f < g.size) :
    Valid (((g.setCond cont c).setThenb current t).setElseb current f) := by
  refine hv.mono (by simp) ?_
  intro i e hi he hc
  rw [exit?_setElseb, exit?_setThenb, exit?_setCond] at he
  by_cases hic : i = current
  · right
    subst hic
    simp only [if_true] at he
    cases hx : g.exit? i with
    | none => rw [hx] at he; simp at he
    | some x =>
      rw [hx] at he
      intro j hj
      by_cases hcc : i = cont
      · simp only [hcc, if_true, Option.map_some', Option.some.injEq] at he
        subst he
        simp only [Option.some.injEq] at hj
        rcases hj with hj | hj
        · subst hj; exact ⟨ht, by simpa using htl⟩
        · subst hj; exact ⟨hf, by simpa using hfl⟩
      · simp only [hcc, if_false, Option.map_some', Option.some.injEq] at he
        subst he
        simp only [Option.some.injEq] at hj
        rcases hj with hj | hj
        · subst hj; exact ⟨ht, by simpa using htl⟩
        · subst hj; exact ⟨hf, by simpa using hfl⟩
  · simp only [hic, if_false] at he
    by_cases hcc : i = cont
    · right
      subst hcc
      simp only [if_true] at he
      rcases hcont with h | h | h
      · exact absurd h hic
      · exact absurd h hi
      · rw [h] at he
        simp only [Option.map_some', Option.some.injEq] at he
        subst he
        intro j hj
        simp [BlockExit.unset] at hj
    · simp only [hcc, if_false] at he
      exact Or.inl he

theorem Lowered.valid {g g' : CFG} {current r : Nat} (h : Lowered g current g' r) :
    2 ≤ g.size → current < g.size → Valid g → Valid g' := by
  induction h with
  | nop g current => exact fun _ _ hv => hv
  | @emplace g g' current r s v _ ih =>
    exact fun h2 hc hv => (ih h2 hc hv).emplaceBack _ _ _
  | @seq g g1 g2 current r1 r2 h1 _ ih1 ih2 =>
    intro h2 hc hv
    have F1 := h1.framed h2 hc
    have := F1.size_le
    exact ih2 (by omega) (F1.ret_lt h2 hc) (ih1 h2 hc hv)
  | @ret g g1 current cont s v _ ih =>
    exact fun h2 hc hv => ((ih h2 hc hv).emplaceBack _ _ _).setDead _
  | @whileLoop g g2 g4 current headerEnd bodyEnd c s h1 hb ih1 ih2 =>
    intro h2 hc hv
    have e1 : (g.freshBlock.2.setJump current g.size).size = g.size + 1 := by simp
    have e2 : (g2.freshBlock.2.freshBlock.2.setBranch headerEnd c g2.size (g2.size + 1)).size
        = g2.size + 2 := by simp
    have F1 := h1.framed (by omega) (by omega)
    have hs1 := F1.size_le
    have F2 := hb.framed (by omega) (by omega)
    have hs2 := F2.size_le
    have V1 : Valid g2 :=
      ih1 (by omega) (by omega) (hv.freshBlock.setJump _ (by omega) (by simp))
    have V2 : Valid g4 :=
      ih2 (by omega) (by omega)
        (V1.freshBlock.freshBlock.setBranch _ _ (by omega) (by simp; omega) (by omega)
          (by simp))
    exact (V2.setJump _ (by omega) (by omega)).emplaceBack _ _ _
  | @ifJoin g g1 g3 g4 current cont thenEnd elseEnd c h1 ht he hd ih1 ih2 ih3 =>
    intro h2 hc hv
    have e1 : g.freshBlock.2.freshBlock.2.size = g.size + 2 := by simp
    have e2 : (((g1.setCond cont c).setThenb current g.size).setElseb current
        (g.size + 1)).size = g1.size := by simp
    have F1 := h1.framed (by omega) (by omega)
    have hs1 := F1.size_le
    have F2 := ht.framed (by omega) (by omega)
    have hs2 := F2.size_le
    have F3 := he.framed (by omega) (by omega)
    have hs3 := F3.size_le
    have V1 : Valid g1 := ih1 (by omega) (by omega) hv.freshBlock.freshBlock
    have hcont : cont = current ∨ cont = 1 ∨ g1.exit? cont = some BlockExit.unset := by
      rcases F1.ret_cases with h | h | h
      · exact Or.inl h
      · exact Or.inr (Or.inl h)
      · exact Or.inr (Or.inr (F1.ret_unset h.1))
    have V2 : Valid g3 :=
      ih2 (by omega) (by omega)
        (V1.ifWire hcont (by omega) (by omega) (by omega) (by omega))
    have V3 : Valid g4 := ih3 (by omega) (by omega) V2
    exact (V3.freshBlock.setJump _ (by omega) (by simp)).setJump _ (by omega) (by simp)
  | @ifDead g g1 g3 g4 current cont c h1 ht he ih1 ih2 ih3 =>
    intro h2 hc hv
    have e1 : g.freshBlock.2.freshBlock.2.size = g.size + 2 := by simp
    have e2 : (((g1.setCond cont c).setThenb current g.size).setElseb current
        (g.size + 1)).size = g1.size := by simp
    have F1 := h1.framed (by omega) (by omega)
    have hs1 := F1.size_le
    have F2 := ht.framed (by omega) (by omega)
    have hs2 := F2.size_le
    have V1 : Valid g1 := ih1 (by omega) (by omega) hv.freshBlock.freshBlock
    have hcont : cont = current ∨ cont = 1 ∨ g1.exit? cont = some BlockExit.unset := by
      rcases F1.ret_cases with h | h | h
      · exact Or.inl h
      · exact Or.inr (Or.inl h)
      · exact Or.inr (Or.inr (F1.ret_unset h.1))
    have V2 : Valid g3 :=
      ih2 (by omega) (by omega)
        (V1.ifWire hcont (by omega) (by omega) (by omega) (by omega))
    exact ih3 (by omega) (by omega) V2

/-! ## Every path ends -/

theorem Edge.congr {ex ex' : Nat → Option BlockExit} {a b : Nat} (h : ex' a = ex a)
    (he : Edge ex' a b) : Edge ex a b := by
  obtain ⟨e, h1, h2, h3⟩ := he
  exact ⟨e, by rw [← h]; exact h1, h2, h3⟩

theorem Edge.dest {ex : Nat → Option BlockExit} {a b : Nat} {e : BlockExit}
    (h : ex a = some e) (he : Edge ex a b) :
    e.cond ≠ 0 ∧ (e.thenb = some b ∨ e.elseb = some b) := by
  obtain ⟨e', h1, h2, h3⟩ := he
  rw [h] at h1
  simp only [Option.some.injEq] at h1
  subst h1
  exact ⟨h2, h3⟩

/-- A set of blocks that contains `current`, is closed under the steps that do not leave
through `r`, and consists of blocks with a path, proves liveness. -/
theorem live_of_inv {ex : Nat → Option BlockExit} {current r : Nat} (S : Nat → Prop)
    (h0 : S current) (hstep : ∀ a b, S a → a ≠ r → Edge ex a b → S b)
    (hgood : ∀ b, S b → Good ex r b) : Live ex current r := by
  intro b hb
  apply hgood
  induction hb with
  | refl => exact h0
  | tail _ hs ih => exact hstep _ _ ih hs.1 hs.2

theorem live_nop (ex : Nat → Option BlockExit) (current : Nat) : Live ex current current := by
  intro b hb
  rw [avoid_self hb]
  exact Good.ret

theorem live_seq {g g1 g2 : CFG} {current r1 r2 : Nat}
    (hc : current < g.size) (hc1 : current ≠ 1) (F1 : Framed g current g1 r1)
    (F2 : Framed g1 r1 g2 r2) (V1 : Valid g1) (L1 : Live g1.exit? current r1)
    (L2 : r1 ≠ 1 → Live g2.exit? r1 r2) : Live g2.exit? current r2 := by
  have hs1 := F1.size_le
  have hsame : ∀ i, i ≠ 1 → i < g1.size → ¬ i = r1 → g2.exit? i = g1.exit? i :=
    fun i hi hlt hne => exit?_of_block? (F2.frame i hlt hne hi)
  refine live_of_inv
    (fun a => Relation.ReflTransGen (EdgeAvoid g1.exit? r1) current a
      ∨ (r1 ≠ 1 ∧ Relation.ReflTransGen (EdgeAvoid g2.exit? r2) r1 a))
    (Or.inl Relation.ReflTransGen.refl) ?_ ?_
  · intro a b ha har hab
    rcases ha with ha | ha
    · have hloc := V1.reach hc1 (by omega) (reach_of_avoid ha)
      by_cases hr : a = r1
      · subst hr
        exact Or.inr ⟨hloc.1, Relation.ReflTransGen.single ⟨har, hab⟩⟩
      · exact Or.inl (Relation.ReflTransGen.tail ha
          ⟨hr, Edge.congr (hsame a hloc.1 hloc.2 hr) hab⟩)
    · exact Or.inr ⟨ha.1, Relation.ReflTransGen.tail ha.2 ⟨har, hab⟩⟩
  · intro b hb
    rcases hb with hb | hb
    · have hloc := V1.reach hc1 (by omega) (reach_of_avoid hb)
      refine Good.transfer (fun w => w = r1) V1 hsame ?_ ?_ (L1 b hb) hloc.1 hloc.2
      · intro w hw h1 _
        subst hw
        exact L2 h1 _ Relation.ReflTransGen.refl
      · intro h1 _
        exact L2 h1 _ Relation.ReflTransGen.refl
    · exact L2 hb.1 b hb.2

theorem live_ret {g g1 : CFG} {current cont : Nat} (s : Nat) (v : Instruction)
    (hc : current < g.size) (hc1 : current ≠ 1)
    (F1 : Framed g current g1 cont) (V1 : Valid g1) (L1 : Live g1.exit? current cont) :
    Live ((g1.emplaceBack cont s v).setDead cont).exit? current 1 := by
  have hs1 := F1.size_le
  have hsame : ∀ i, i ≠ 1 → i < g1.size → ¬ i = cont →
      ((g1.emplaceBack cont s v).setDead cont).exit? i = g1.exit? i := by
    intro i _ _ hne
    rw [exit?_setDead, if_neg hne, exit?_emplaceBack]
  have hcont : ∀ e, ((g1.emplaceBack cont s v).setDead cont).exit? cont = some e →
      e.cond = 0 := by
    intro e he
    rw [exit?_setDead, if_pos rfl, exit?_emplaceBack] at he
    cases hx : g1.exit? cont with
    | none => rw [hx] at he; simp at he
    | some x =>
      rw [hx] at he
      simp only [Option.map_some', Option.some.injEq] at he
      subst he
      rfl
  refine live_of_inv
    (fun a => Relation.ReflTransGen (EdgeAvoid g1.exit? cont) current a)
    Relation.ReflTransGen.refl ?_ ?_
  · intro a b ha _ hab
    have hloc := V1.reach hc1 (by omega) (reach_of_avoid ha)
    by_cases hr : a = cont
    · subst hr
      obtain ⟨e, he, hne, _⟩ := hab
      exact absurd (hcont e he) hne
    · exact Relation.ReflTransGen.tail ha ⟨hr, Edge.congr (hsame a hloc.1 hloc.2 hr) hab⟩
  · intro b hb
    have hloc := V1.reach hc1 (by omega) (reach_of_avoid hb)
    have hdead : cont < g1.size →
        Good ((g1.emplaceBack cont s v).setDead cont).exit? 1 cont := by
      intro hlt
      obtain ⟨e, he⟩ := exists_exit_of_lt
        (by simpa using hlt : cont < ((g1.emplaceBack cont s v).setDead cont).size)
      exact Good.dead ⟨e, he, hcont e he⟩
    refine Good.transfer (fun w => w = cont) V1 hsame ?_ ?_ (L1 b hb) hloc.1 hloc.2
    · intro w hw _ hlt
      subst hw
      exact hdead hlt
    · intro _ hlt
      exact hdead hlt

theorem exit?_setJump_self {g : CFG} {b : Nat} (d : Nat) (h : b < g.size) :
    (g.setJump b d).exit? b = some ⟨1, some d, some d⟩ := by
  obtain ⟨e, he⟩ := exists_exit_of_lt h
  rw [exit?_setJump, if_pos rfl, he]
  rfl

theorem exit?_setBranch_self {g : CFG} {b : Nat} (c t f : Nat) (h : b < g.size) :
    (g.setBranch b c t f).exit? b = some ⟨c, some t, some f⟩ := by
  obtain ⟨e, he⟩ := exists_exit_of_lt h
  rw [exit?_setBranch, if_pos rfl, he]
  rfl

theorem exit?_setDead_self {g : CFG} {b : Nat} (h : b < g.size) :
    (g.setDead b).exit? b = some ⟨0, some 1, some 1⟩ := by
  obtain ⟨e, he⟩ := exists_exit_of_lt h
  rw [exit?_setDead, if_pos rfl, he]
  rfl

theorem exit?_freshBlock_of_lt {g : CFG} {i : Nat} (h : i < g.size) :
    g.freshBlock.2.exit? i = g.exit? i :=
  exit?_of_block? (block?_freshBlock_of_lt h)

theorem exit?_setJump_of_ne {g : CFG} {b i : Nat} (d : Nat) (h : i ≠ b) :
    (g.setJump b d).exit? i = g.exit? i :=
  exit?_of_block? (block?_setJump_of_ne d h)

theorem exit?_setBranch_of_ne {g : CFG} {b i : Nat} (c t f : Nat) (h : i ≠ b) :
    (g.setBranch b c t f).exit? i = g.exit? i :=
  exit?_of_block? (block?_setBranch_of_ne c t f h)

theorem exit?_setDead_of_ne {g : CFG} {b i : Nat} (h : i ≠ b) :
    (g.setDead b).exit? i = g.exit? i :=
  exit?_of_block? (block?_setDead_of_ne h)

theorem Framed.ret_cases_while {g g' : CFG} {current r : Nat} {n : Nat}
    (F : Framed g current g' r) (hn : g.size = n) :
    r = current ∨ r = 1 ∨ (n ≤ r ∧ r < g'.size) := by
  subst hn
  exact F.ret_cases

/-- The exits of a finished `While`, in terms of the graphs its two sub-lowerings
returned. -/
theorem while_exits {g g2 g4 : CFG} {current headerEnd bodyEnd c : Nat} (s : Nat)
    (h2 : 2 ≤ g.size)
    (F1 : Framed (g.freshBlock.2.setJump current g.size) g.size g2 headerEnd)
    (F2 : Framed (g2.freshBlock.2.freshBlock.2.setBranch headerEnd c g2.size (g2.size + 1))
      g2.size g4 bodyEnd) :
    (∀ a, a ≠ 1 → a < g2.size → a ≠ headerEnd →
      ((g4.setJump bodyEnd g.size).emplaceBack (g2.size + 1) s .Nil).exit? a = g2.exit? a)
    ∧ (headerEnd ≠ 1 →
      ((g4.setJump bodyEnd g.size).emplaceBack (g2.size + 1) s .Nil).exit? headerEnd
        = some ⟨c, some g2.size, some (g2.size + 1)⟩)
    ∧ (∀ a, a ≠ bodyEnd →
      ((g4.setJump bodyEnd g.size).emplaceBack (g2.size + 1) s .Nil).exit? a = g4.exit? a)
    ∧ ((g4.setJump bodyEnd g.size).emplaceBack (g2.size + 1) s .Nil).exit? bodyEnd
        = some ⟨1, some g.size, some g.size⟩ := by
  have e1 : (g.freshBlock.2.setJump current g.size).size = g.size + 1 := by simp
  have e2 : (g2.freshBlock.2.freshBlock.2.setBranch headerEnd c g2.size (g2.size + 1)).size
      = g2.size + 2 := by simp
  have hs1 := F1.size_le
  have hs2 := F2.size_le
  have hHE : headerEnd < g2.size := F1.ret_lt (by omega) (by omega)
  have hBE : bodyEnd < g4.size := F2.ret_lt (by omega) (by omega)
  have hBE' := F2.ret_cases_while e2
  have hold : ∀ a, a ≠ 1 → a < g2.size → g4.exit? a
      = (g2.freshBlock.2.freshBlock.2.setBranch headerEnd c g2.size (g2.size + 1)).exit? a :=
    fun a h1 hlt => exit?_of_block? (F2.frame a (by omega) (by omega) h1)
  refine ⟨?_, ?_, ?_, ?_⟩
  · intro a h1 hlt hne
    rw [exit?_emplaceBack, exit?_setJump_of_ne _ (by omega), hold a h1 hlt,
      exit?_setBranch_of_ne _ _ _ hne, exit?_freshBlock_of_lt (by simp; omega),
      exit?_freshBlock_of_lt hlt]
  · intro h1
    rw [exit?_emplaceBack, exit?_setJump_of_ne _ (by omega), hold headerEnd h1 hHE,
      exit?_setBranch_self _ _ _ (by simp; omega)]
  · intro a hne
    rw [exit?_emplaceBack, exit?_setJump_of_ne _ hne]
  · rw [exit?_emplaceBack, exit?_setJump_self _ hBE]

theorem live_while {g g2 g4 : CFG} {current headerEnd bodyEnd c s : Nat}
    (h2 : 2 ≤ g.size) (hc : current < g.size) (hc1 : current ≠ 1)
    (F1 : Framed (g.freshBlock.2.setJump current g.size) g.size g2 headerEnd)
    (F2 : Framed (g2.freshBlock.2.freshBlock.2.setBranch headerEnd c g2.size (g2.size + 1))
      g2.size g4 bodyEnd)
    (V2 : Valid g2) (V4 : Valid g4) (L1 : Live g2.exit? g.size headerEnd)
    (L2 : Live g4.exit? g2.size bodyEnd) :
    Live ((g4.setJump bodyEnd g.size).emplaceBack (g2.size + 1) s .Nil).exit? current
      (g2.size + 1) := by
  have e1 : (g.freshBlock.2.setJump current g.size).size = g.size + 1 := by simp
  have e2 : (g2.freshBlock.2.freshBlock.2.setBranch headerEnd c g2.size (g2.size + 1)).size
      = g2.size + 2 := by simp
  have hs1 := F1.size_le
  have hs2 := F2.size_le
  have hHE : headerEnd < g2.size := F1.ret_lt (by omega) (by omega)
  have hHE' := F1.ret_cases_while e1
  have hBE : bodyEnd < g4.size := F2.ret_lt (by omega) (by omega)
  have hBE' := F2.ret_cases_while e2
  obtain ⟨xa, xHE, xb, xBE⟩ := while_exits s h2 F1 F2
  have xcur : ((g4.setJump bodyEnd g.size).emplaceBack (g2.size + 1) s .Nil).exit? current
      = some ⟨1, some g.size, some g.size⟩ := by
    rw [xa current hc1 (by omega) (by omega),
      exit?_of_block? (F1.frame current (by omega) (by omega) hc1),
      exit?_setJump_self _ (by simp; omega)]
  have goodHE : headerEnd ≠ 1 →
      Good ((g4.setJump bodyEnd g.size).emplaceBack (g2.size + 1) s .Nil).exit?
        (g2.size + 1) headerEnd := by
    intro h1
    by_cases hc0 : c = 0
    · exact Good.dead ⟨_, xHE h1, hc0⟩
    · exact Good.step ⟨_, xHE h1, hc0, Or.inr rfl⟩ Good.ret
  have goodCond : ∀ a, Relation.ReflTransGen (EdgeAvoid g2.exit? headerEnd) g.size a →
      Good ((g4.setJump bodyEnd g.size).emplaceBack (g2.size + 1) s .Nil).exit?
        (g2.size + 1) a := by
    intro a ha
    have hloc := V2.reach (by omega) (by omega) (reach_of_avoid ha)
    refine Good.transfer (fun w => w = headerEnd) V2 xa ?_ ?_ (L1 a ha) hloc.1 hloc.2
    · intro w hw h1 _
      subst hw
      exact goodHE h1
    · intro h1 _
      exact goodHE h1
  have goodH := goodCond g.size Relation.ReflTransGen.refl
  have goodBE : Good ((g4.setJump bodyEnd g.size).emplaceBack (g2.size + 1) s .Nil).exit?
      (g2.size + 1) bodyEnd :=
    Good.step ⟨_, xBE, by simp, Or.inl rfl⟩ goodH
  refine live_of_inv
    (fun a => a = current
      ∨ Relation.ReflTransGen (EdgeAvoid g2.exit? headerEnd) g.size a
      ∨ Relation.ReflTransGen (EdgeAvoid g4.exit? bodyEnd) g2.size a
      ∨ a = g2.size + 1)
    (Or.inl rfl) ?_ ?_
  · intro a b ha har hab
    rcases ha with ha | ha | ha | ha
    · subst ha
      have := (Edge.dest xcur hab).2
      simp only [Option.some.injEq, or_self] at this
      subst this
      exact Or.inr (Or.inl Relation.ReflTransGen.refl)
    · have hloc := V2.reach (by omega) (by omega) (reach_of_avoid ha)
      by_cases hr : a = headerEnd
      · subst hr
        have := (Edge.dest (xHE hloc.1) hab).2
        simp only [Option.some.injEq] at this
        rcases this with h | h
        · subst h
          exact Or.inr (Or.inr (Or.inl Relation.ReflTransGen.refl))
        · subst h
          exact Or.inr (Or.inr (Or.inr rfl))
      · exact Or.inr (Or.inl (Relation.ReflTransGen.tail ha
          ⟨hr, Edge.congr (xa a hloc.1 hloc.2 hr) hab⟩))
    · by_cases hr : a = bodyEnd
      · subst hr
        have := (Edge.dest xBE hab).2
        simp only [Option.some.injEq, or_self] at this
        subst this
        exact Or.inr (Or.inl Relation.ReflTransGen.refl)
      · exact Or.inr (Or.inr (Or.inl (Relation.ReflTransGen.tail ha
          ⟨hr, Edge.congr (xb a hr) hab⟩)))
    · exact absurd ha har
  · intro b hb
    rcases hb with hb | hb | hb | hb
    · subst hb
      exact Good.step ⟨_, xcur, by simp, Or.inl rfl⟩ goodH
    · exact goodCond b hb
    · have hloc := V4.reach (by omega) (by omega) (reach_of_avoid hb)
      refine Good.transfer (fun w => w = bodyEnd) V4 (fun i _ _ hne => xb i hne) ?_ ?_
        (L2 b hb) hloc.1 hloc.2
      · intro w hw _ _
        subst hw
        exact goodBE
      · intro _ _
        exact goodBE
    · subst hb
      exact Good.ret

/-- The exits of the starting block and of `elseBlock` once the two arms of an `If` have
been lowered. -/
theorem if_exits {g g1 g3 g4 : CFG} {current cont thenEnd elseEnd c : Nat}
    (h2 : 2 ≤ g.size) (hc : current < g.size) (hc1 : current ≠ 1)
    (F1 : Framed g.freshBlock.2.freshBlock.2 current g1 cont)
    (F2 : Framed (((g1.setCond cont c).setThenb current g.size).setElseb current
      (g.size + 1)) g.size g3 thenEnd)
    (F3 : Framed g3 g.size g4 elseEnd) :
    g4.exit? (g.size + 1) = some BlockExit.unset
    ∧ ∃ e, g4.exit? current = some e ∧ e.thenb = some g.size
        ∧ e.elseb = some (g.size + 1) := by
  have e1 : g.freshBlock.2.freshBlock.2.size = g.size + 2 := by simp
  have e2 : (((g1.setCond cont c).setThenb current g.size).setElseb current
      (g.size + 1)).size = g1.size := by simp
  have hs1 := F1.size_le
  have hs2 := F2.size_le
  have hs3 := F3.size_le
  have hcont := F1.ret_cases_while e1
  constructor
  · rw [exit?_of_block? (F3.frame (g.size + 1) (by omega) (by omega) (by omega)),
      exit?_of_block? (F2.frame (g.size + 1) (by omega) (by omega) (by omega)),
      exit?_setElseb, if_neg (by omega), exit?_setThenb, if_neg (by omega),
      exit?_setCond, if_neg (by omega),
      exit?_of_block? (F1.frame (g.size + 1) (by omega) (by omega) (by omega)),
      exit?_freshBlock, if_pos (by simp)]
  · obtain ⟨x, hx⟩ := exists_exit_of_lt
      (by simp; omega : current < (g1.setCond cont c).size)
    refine ⟨{ { x with thenb := some g.size } with elseb := some (g.size + 1) }, ?_, rfl, rfl⟩
    rw [exit?_of_block? (F3.frame current (by omega) (by omega) hc1),
      exit?_of_block? (F2.frame current (by omega) (by omega) hc1),
      exit?_setElseb, if_pos rfl, exit?_setThenb, if_pos rfl, hx]
    rfl

theorem live_ifDead {g g1 g3 g4 : CFG} {current cont thenEnd c : Nat}
    (h2 : 2 ≤ g.size) (hc : current < g.size) (hc1 : current ≠ 1)
    (F1 : Framed g.freshBlock.2.freshBlock.2 current g1 cont)
    (F2 : Framed (((g1.setCond cont c).setThenb current g.size).setElseb current
      (g.size + 1)) g.size g3 thenEnd)
    (F3 : Framed g3 g.size g4 1) (L3 : Live g4.exit? g.size 1) :
    Live g4.exit? current 1 := by
  obtain ⟨xE, e, xcur, xt, xe⟩ := if_exits h2 hc hc1 F1 F2 F3
  have goodE : Good g4.exit? 1 (g.size + 1) := Good.dead ⟨_, xE, rfl⟩
  refine live_of_inv
    (fun a => a = current ∨ a = g.size + 1
      ∨ Relation.ReflTransGen (EdgeAvoid g4.exit? 1) g.size a)
    (Or.inl rfl) ?_ ?_
  · intro a b ha har hab
    rcases ha with ha | ha | ha
    · subst ha
      have := (Edge.dest xcur hab).2
      rw [xt, xe] at this
      simp only [Option.some.injEq] at this
      rcases this with h | h
      · subst h
        exact Or.inr (Or.inr Relation.ReflTransGen.refl)
      · subst h
        exact Or.inr (Or.inl rfl)
    · subst ha
      exact absurd rfl (Edge.dest xE hab).1
    · exact Or.inr (Or.inr (Relation.ReflTransGen.tail ha ⟨har, hab⟩))
  · intro b hb
    rcases hb with hb | hb | hb
    · subst hb
      by_cases hc0 : e.cond = 0
      · exact Good.dead ⟨e, xcur, hc0⟩
      · exact Good.step ⟨e, xcur, hc0, Or.inr xe⟩ goodE
    · subst hb
      exact goodE
    · exact L3 b hb

theorem live_ifJoin {g g1 g3 g4 : CFG} {current cont thenEnd elseEnd c : Nat}
    (h2 : 2 ≤ g.size) (hc : current < g.size) (hc1 : current ≠ 1)
    (F1 : Framed g.freshBlock.2.freshBlock.2 current g1 cont)
    (F2 : Framed (((g1.setCond cont c).setThenb current g.size).setElseb current
      (g.size + 1)) g.size g3 thenEnd)
    (F3 : Framed g3 g.size g4 elseEnd) (V4 : Valid g4)
    (L3 : Live g4.exit? g.size elseEnd) :
    Live ((g4.freshBlock.2.setJump thenEnd g4.size).setJump elseEnd g4.size).exit? current
      g4.size := by
  have e1 : g.freshBlock.2.freshBlock.2.size = g.size + 2 := by simp
  have e2 : (((g1.setCond cont c).setThenb current g.size).setElseb current
      (g.size + 1)).size = g1.size := by simp
  have hs1 := F1.size_le
  have hs2 := F2.size_le
  have hs3 := F3.size_le
  have hte := F2.ret_cases_while e2
  have hte2 : thenEnd < g3.size := F2.ret_lt (by omega) (by omega)
  have hee := F3.ret_cases
  have hee2 : elseEnd < g4.size := F3.ret_lt (by omega) (by omega)
  obtain ⟨xE, e, xcur, xt, xe⟩ := if_exits h2 hc hc1 F1 F2 F3
  have xsame : ∀ a, a < g4.size → ¬ (a = thenEnd ∨ a = elseEnd) →
      ((g4.freshBlock.2.setJump thenEnd g4.size).setJump elseEnd g4.size).exit? a
        = g4.exit? a := by
    intro a hlt hne
    rw [exit?_setJump_of_ne _ (fun h => hne (Or.inr h)),
      exit?_setJump_of_ne _ (fun h => hne (Or.inl h)), exit?_freshBlock_of_lt hlt]
  have xW : ∀ w, w = thenEnd ∨ w = elseEnd →
      ((g4.freshBlock.2.setJump thenEnd g4.size).setJump elseEnd g4.size).exit? w
        = some ⟨1, some g4.size, some g4.size⟩ := by
    intro w hw
    by_cases h : w = elseEnd
    · subst h
      exact exit?_setJump_self _ (by simp; omega)
    · have hw' : w = thenEnd := hw.resolve_right h
      subst hw'
      rw [exit?_setJump_of_ne _ h]
      exact exit?_setJump_self _ (by simp; omega)
  have goodW : ∀ w, w = thenEnd ∨ w = elseEnd →
      Good ((g4.freshBlock.2.setJump thenEnd g4.size).setJump elseEnd g4.size).exit?
        g4.size w :=
    fun w hw => Good.step ⟨_, xW w hw, by simp, Or.inl rfl⟩ Good.ret
  have xE' : ((g4.freshBlock.2.setJump thenEnd g4.size).setJump elseEnd g4.size).exit?
      (g.size + 1) = some BlockExit.unset := by
    rw [xsame _ (by omega) (by omega)]
    exact xE
  have xcur' : ((g4.freshBlock.2.setJump thenEnd g4.size).setJump elseEnd g4.size).exit?
      current = some e := by
    rw [xsame _ (by omega) (by omega)]
    exact xcur
  have goodE : Good ((g4.freshBlock.2.setJump thenEnd g4.size).setJump elseEnd
      g4.size).exit? g4.size (g.size + 1) := Good.dead ⟨_, xE', rfl⟩
  refine live_of_inv
    (fun a => a = current ∨ a = g.size + 1 ∨ a = g4.size
      ∨ Relation.ReflTransGen (EdgeAvoid g4.exit? elseEnd) g.size a)
    (Or.inl rfl) ?_ ?_
  · intro a b ha har hab
    rcases ha with ha | ha | ha | ha
    · subst ha
      have := (Edge.dest xcur' hab).2
      rw [xt, xe] at this
      simp only [Option.some.injEq] at this
      rcases this with h | h
      · subst h
        exact Or.inr (Or.inr (Or.inr Relation.ReflTransGen.refl))
      · subst h
        exact Or.inr (Or.inl rfl)
    · subst ha
      exact absurd rfl (Edge.dest xE' hab).1
    · exact absurd ha har
    · have hloc := V4.reach (by omega) (by omega) (reach_of_avoid ha)
      by_cases hw : a = thenEnd ∨ a = elseEnd
      · have := (Edge.dest (xW a hw) hab).2
        simp only [Option.some.injEq, or_self] at this
        subst this
        exact Or.inr (Or.inr (Or.inl rfl))
      · exact Or.inr (Or.inr (Or.inr (Relation.ReflTransGen.tail ha
          ⟨fun h => hw (Or.inr h), Edge.congr (xsame a hloc.2 hw) hab⟩)))
  · intro b hb
    rcases hb with hb | hb | hb | hb
    · subst hb
      by_cases hc0 : e.cond = 0
      · exact Good.dead ⟨e, xcur', hc0⟩
      · exact Good.step ⟨e, xcur', hc0, Or.inr xe⟩ goodE
    · subst hb
      exact goodE
    · subst hb
      exact Good.ret
    · have hloc := V4.reach (by omega) (by omega) (reach_of_avoid hb)
      exact Good.transfer (fun w => w = thenEnd ∨ w = elseEnd) V4
        (fun i _ hlt hne => xsame i hlt hne) (fun w hw _ _ => goodW w hw)
        (fun _ _ => goodW elseEnd (Or.inr rfl)) (L3 b hb) hloc.1 hloc.2

/-- Liveness of every lowering that starts in a block other than the dead block. -/
theorem Lowered.live {g g' : CFG} {current r : Nat} (h : Lowered g current g' r) :
    2 ≤ g.size → current < g.size → current ≠ 1 → Valid g → Live g'.exit? current r := by
  induction h with
  | nop g current => exact fun _ _ _ _ => live_nop _ _
  | @emplace g g' current r s v _ ih =>
    intro h2 hc hc1 hv
    have : (g'.emplaceBack r s v).exit? = g'.exit? := funext (exit?_emplaceBack _ _ _ _)
    rw [this]
    exact ih h2 hc hc1 hv
  | @seq g g1 g2 current r1 r2 h1 hb ih1 ih2 =>
    intro h2 hc hc1 hv
    have F1 := h1.framed h2 hc
    have hs1 := F1.size_le
    have hr1 := F1.ret_lt h2 hc
    have F2 := hb.framed (by omega) hr1
    have V1 := h1.valid h2 hc hv
    exact live_seq hc hc1 F1 F2 V1 (ih1 h2 hc hc1 hv)
      (fun hne => ih2 (by omega) hr1 hne V1)
  | @ret g g1 current cont s v h1 ih =>
    intro h2 hc hc1 hv
    exact live_ret s v hc hc1 (h1.framed h2 hc) (h1.valid h2 hc hv) (ih h2 hc hc1 hv)
  | @whileLoop g g2 g4 current headerEnd bodyEnd c s h1 hb ih1 ih2 =>
    intro h2 hc hc1 hv
    have e1 : (g.freshBlock.2.setJump current g.size).size = g.size + 1 := by simp
    have e2 : (g2.freshBlock.2.freshBlock.2.setBranch headerEnd c g2.size (g2.size + 1)).size
        = g2.size + 2 := by simp
    have F1 := h1.framed (by omega) (by omega)
    have hs1 := F1.size_le
    have F2 := hb.framed (by omega) (by omega)
    have VA : Valid (g.freshBlock.2.setJump current g.size) :=
      hv.freshBlock.setJump _ (by omega) (by simp)
    have V2 : Valid g2 := h1.valid (by omega) (by omega) VA
    have VB : Valid (g2.freshBlock.2.freshBlock.2.setBranch headerEnd c g2.size
        (g2.size + 1)) :=
      V2.freshBlock.freshBlock.setBranch _ _ (by omega) (by simp; omega) (by omega) (by simp)
    have V4 : Valid g4 := hb.valid (by omega) (by omega) VB
    exact live_while h2 hc hc1 F1 F2 V2 V4 (ih1 (by omega) (by omega) (by omega) VA)
      (ih2 (by omega) (by omega) (by omega) VB)
  | @ifJoin g g1 g3 g4 current cont thenEnd elseEnd c h1 ht he hd ih1 ih2 ih3 =>
    intro h2 hc hc1 hv
    have e1 : g.freshBlock.2.freshBlock.2.size = g.size + 2 := by simp
    have e2 : (((g1.setCond cont c).setThenb current g.size).setElseb current
        (g.size + 1)).size = g1.size := by simp
    have F1 := h1.framed (by omega) (by omega)
    have hs1 := F1.size_le
    have F2 := ht.framed (by omega) (by omega)
    have hs2 := F2.size_le
    have F3 := he.framed (by omega) (by omega)
    have V1 : Valid g1 := h1.valid (by omega) (by omega) hv.freshBlock.freshBlock
    have hcont : cont = current ∨ cont = 1 ∨ g1.exit? cont = some BlockExit.unset := by
      rcases F1.ret_cases with h | h | h
      · exact Or.inl h
      · exact Or.inr (Or.inl h)
      · exact Or.inr (Or.inr (F1.ret_unset h.1))
    have V3 : Valid g3 :=
      ht.valid (by omega) (by omega)
        (V1.ifWire hcont (by omega) (by omega) (by omega) (by omega))
    have V4 : Valid g4 := he.valid (by omega) (by omega) V3
    exact live_ifJoin h2 hc hc1 F1 F2 F3 V4 (ih3 (by omega) (by omega) (by omega) V3)
  | @ifDead g g1 g3 g4 current cont c h1 ht he ih1 ih2 ih3 =>
    intro h2 hc hc1 hv
    have e1 : g.freshBlock.2.freshBlock.2.size = g.size + 2 := by simp
    have e2 : (((g1.setCond cont c).setThenb current g.size).setElseb current
        (g.size + 1)).size = g1.size := by simp
    have F1 := h1.framed (by omega) (by omega)
    have hs1 := F1.size_le
    have F2 := ht.framed (by omega) (by omega)
    have hs2 := F2.size_le
    have F3 := he.framed (by omega) (by omega)
    have V1 : Valid g1 := h1.valid (by omega) (by omega) hv.freshBlock.freshBlock
    have hcont : cont = current ∨ cont = 1 ∨ g1.exit? cont = some BlockExit.unset := by
      rcases F1.ret_cases with h | h | h
      · exact Or.inl h
      · exact Or.inr (Or.inl h)
      · exact Or.inr (Or.inr (F1.ret_unset h.1))
    have V3 : Valid g3 :=
      ht.valid (by omega) (by omega)
        (V1.ifWire hcont (by omega) (by omega) (by omega) (by omega))
    exact live_ifDead h2 hc hc1 F1 F2 F3 (ih3 (by omega) (by omega) (by omega) V3)

theorem valid_new (sym : Nat) : Valid { CFG.sentinels with symbol := sym } := by
  intro i e _ he hc
  have hlt := lt_size_of_exit? he
  have hsz : ({ CFG.sentinels with symbol := sym } : CFG).size = 2 := rfl
  have hi : i = 0 ∨ i = 1 := by omega
  rcases hi with h | h
  · subst h
    have : e = BlockExit.unset := by
      have h' : ({ CFG.sentinels with symbol := sym } : CFG).exit? 0 = some BlockExit.unset := rfl
      rw [h'] at he
      exact (Option.some.inj he).symm
    subst this
    exact absurd rfl hc
  · subst h
    have : e = BlockExit.unset := by
      have h' : ({ CFG.sentinels with symbol := sym } : CFG).exit? 1 = some BlockExit.unset := rfl
      rw [h'] at he
      exact (Option.some.inj he).symm
    subst this
    exact absurd rfl hc

theorem buildOnSentinels_eq {ctx : GlobalState} {md : MethodDef} {g : CFG} {ctx' : GlobalState}
    (h : buildOnSentinels ctx md = some (g, ctx')) :
    ∃ cont g1 ctx1,
      walk ctx.newTemporary.2 md.rhs entry { CFG.sentinels with symbol := md.symbol }
        ctx.newTemporary.1 = some (cont, g1, ctx1)
      ∧ g = (g1.emplaceBack cont ctx1.newTemporary.1 (.Return ctx.newTemporary.1)).setDead cont
      ∧ ctx' = ctx1.newTemporary.2 := by
  unfold buildOnSentinels at h
  simp only at h
  split at h
  · exact absurd h (by simp)
  · next cont g1 ctx1 hw =>
    simp only [Option.some.injEq, Prod.mk.injEq] at h
    exact ⟨cont, g1, ctx1, hw, h.1.symm, h.2.symm⟩

/-! ## Unfolding one case of `walk` -/

theorem walk_if_eq {ctx : GlobalState} {cond thenp elsep : Statement} {current : Nat}
    {g : CFG} {target cont : Nat} {g1 : CFG} {ctx1 : GlobalState} {thenEnd : Nat} {g3 : CFG}
    {ctx2 : GlobalState} {elseEnd : Nat} {g4 : CFG} {ctx3 : GlobalState}
    (hc : walk ctx.newTemporary.2 cond current g.freshBlock.2.freshBlock.2
      ctx.newTemporary.1 = some (cont, g1, ctx1))
    (ht : walk ctx1 thenp g.freshBlock.1
      (((g1.setCond cont ctx.newTemporary.1).setThenb current g.freshBlock.1).setElseb
        current g.freshBlock.2.freshBlock.1) target = some (thenEnd, g3, ctx2))
    (he : walk ctx2 elsep g.freshBlock.1 g3 target = some (elseEnd, g4, ctx3)) :
    walk ctx (.If cond thenp elsep) current g target
      = if thenEnd ≠ deadBlock ∨ elseEnd ≠ deadBlock then
          some (g4.freshBlock.1,
            (g4.freshBlock.2.setJump thenEnd g4.freshBlock.1).setJump elseEnd g4.freshBlock.1,
            ctx3)
        else some (deadBlock, g4, ctx3) := by
  rw [walk]
  simp only [hc, ht, he]

theorem walk_while_eq {ctx : GlobalState} {cond body : Statement} {current : Nat}
    {g : CFG} (target : Nat) {headerEnd : Nat} {g2 : CFG} {ctx2 : GlobalState}
    {bodyEnd : Nat} {g4 : CFG} {ctx4 : GlobalState}
    (hc : walk ctx.newTemporary.2 cond g.freshBlock.1
      (g.freshBlock.2.setJump current g.freshBlock.1) ctx.newTemporary.1
        = some (headerEnd, g2, ctx2))
    (hb : walk ctx2.newTemporary.2 body g2.freshBlock.1
      (g2.freshBlock.2.freshBlock.2.setBranch headerEnd ctx.newTemporary.1 g2.freshBlock.1
        g2.freshBlock.2.freshBlock.1) ctx2.newTemporary.1 = some (bodyEnd, g4, ctx4)) :
    walk ctx (.While cond body) current g target
      = some (g2.freshBlock.2.freshBlock.1,
          (g4.setJump bodyEnd g.freshBlock.1).emplaceBack g2.freshBlock.2.freshBlock.1
            target .Nil, ctx4) := by
  rw [walk]
  simp only [hc, hb]

theorem walk_return_eq {ctx : GlobalState} {expr : Statement} {current : Nat}
    {g : CFG} {target cont : Nat} {g1 : CFG} {ctx1 : GlobalState}
    (he : walk ctx.newTemporary.2 expr current g ctx.newTemporary.1 = some (cont, g1, ctx1)) :
    walk ctx (.Return expr) current g target
      = some (deadBlock,
          (g1.emplaceBack cont target (.Return ctx.newTemporary.1)).setDead cont, ctx1) := by
  rw [walk]
  simp only [he]

/-! ## The claims -/

/-- C1 (the code breaks it): for the method body `if (while true do 1 end) then 2 else 3 end`,
with the two sentinel blocks pre-created as the specification describes, the CFG that the
statements of `buildFor` produce contains a block, block 6, whose exit carries a condition
symbol while no successor was ever stored in it. Block 6 is the block returned by lowering
the condition; the `If` case stored the two successors in the starting block instead. On
what the constructor of the source creates, `buildFor` returns no CFG for this body: the run
ends at a store through the null `entry()` pointer. -/
theorem buildFor_exit_without_successor :
    ∃ g ctx',
      buildOnSentinels 2 ⟨0, .If (.While (.BoolLit true) (.IntLit 1)) (.IntLit 2) (.IntLit 3)⟩
        = some (g, ctx')
      ∧ g.size = 8
      ∧ g.exit? 6 = some ⟨3, none, none⟩
      ∧ CFGSlots.buildFor 2
          ⟨0, .If (.While (.BoolLit true) (.IntLit 1)) (.IntLit 2) (.IntLit 3)⟩
          = .error .nullDeref :=
  ⟨_, _, rfl, rfl, rfl, rfl⟩

/-- With the two sentinel blocks pre-created: in every CFG that `buildOnSentinels` produces,
from every block reachable from the entry
block by following jump and branch successors, some block whose exit is `Dead` is
reachable. -/
theorem buildOnSentinels_every_path_reaches_dead (ctx : GlobalState) (md : MethodDef) (g : CFG)
    (ctx' : GlobalState) (h : buildOnSentinels ctx md = some (g, ctx')) (b : Nat)
    (hb : Reach g.exit? entry b) : ∃ d, Reach g.exit? b d ∧ DeadExit g.exit? d := by
  obtain ⟨cont, g1, ctx1, hw, rfl, -⟩ := buildOnSentinels_eq h
  have hl := walk_lowered _ _ _ _ _ _ _ _ hw
  have hsz : ({ CFG.sentinels with symbol := md.symbol } : CFG).size = 2 := rfl
  have h2 : 2 ≤ ({ CFG.sentinels with symbol := md.symbol } : CFG).size := by omega
  have hc : (0 : Nat) < ({ CFG.sentinels with symbol := md.symbol } : CFG).size := by omega
  have hv := valid_new md.symbol
  have F := hl.framed h2 hc
  have V1 := hl.valid h2 hc hv
  have L := live_ret ctx1.newTemporary.1 (.Return ctx.newTemporary.1) hc (by simp [entry]) F V1
    (hl.live h2 hc (by simp [entry]) hv)
  have V : Valid ((g1.emplaceBack cont ctx1.newTemporary.1
      (.Return ctx.newTemporary.1)).setDead cont) := (V1.emplaceBack _ _ _).setDead _
  have hs := F.size_le
  have hlt : (0 : Nat) < ((g1.emplaceBack cont ctx1.newTemporary.1
      (.Return ctx.newTemporary.1)).setDead cont).size := by
    simp only [size_setDead, size_emplaceBack]; omega
  have havoid : Relation.ReflTransGen
      (EdgeAvoid ((g1.emplaceBack cont ctx1.newTemporary.1
        (.Return ctx.newTemporary.1)).setDead cont).exit? 1) entry b := by
    have hb' := hb
    unfold Reach at hb'
    induction hb' with
    | refl => exact Relation.ReflTransGen.refl
    | @tail x y hxy hstep ih =>
      have hx := V.reach (by simp [entry]) hlt hxy
      exact Relation.ReflTransGen.tail (ih hxy) ⟨hx.1, hstep⟩
  have hbloc := V.reach (by simp [entry]) hlt hb
  obtain ⟨d, hd, hd'⟩ := (L b havoid).exists_reach
  refine ⟨d, hd, ?_⟩
  rcases hd' with h1 | h1
  · exact absurd h1 (V.reach hbloc.1 hbloc.2 hd).1
  · exact h1

/-- At a concrete input: in the CFG that `buildOnSentinels` produces for the method body
`while true do 1 end` the body
block, block 3, is reachable from the entry block, and a block whose exit is `Dead` is
reachable from it. -/
theorem buildOnSentinels_every_path_reaches_dead_witness :
    ∃ g ctx',
      buildOnSentinels 2 ⟨0, .While (.BoolLit true) (.IntLit 1)⟩ = some (g, ctx')
      ∧ Reach g.exit? entry 3
      ∧ ∃ d, Reach g.exit? 3 d ∧ DeadExit g.exit? d :=
  ⟨_, _, rfl,
    Relation.ReflTransGen.tail
      (Relation.ReflTransGen.single ⟨_, rfl, by decide, Or.inl rfl⟩)
      ⟨_, rfl, by decide, Or.inl rfl⟩,
    buildOnSentinels_every_path_reaches_dead 2 ⟨0, .While (.BoolLit true) (.IntLit 1)⟩ _ _ rfl 3
      (Relation.ReflTransGen.tail
        (Relation.ReflTransGen.single ⟨_, rfl, by decide, Or.inl rfl⟩)
        ⟨_, rfl, by decide, Or.inl rfl⟩)⟩

/-- C3 (the code breaks it): for the method body `if true then 1 else 2 end`, with the two
sentinel blocks pre-created as the specification describes, the CFG that the statements of
`buildFor` produce has a block, block 3 (the `elseBlock`), that is a successor of the entry
block, whose exit is `Dead`, and that holds no binding at all, so no `Return` binding: the
else arm was lowered into `thenBlock`, and `elseBlock` was left as allocated. On what the
constructor of the source creates, `buildFor` returns no CFG for this body: the run ends at
a store through the null `entry()` pointer. -/
theorem buildFor_dead_exit_without_return :
    ∃ g ctx',
      buildOnSentinels 2 ⟨0, .If (.BoolLit true) (.IntLit 1) (.IntLit 2)⟩ = some (g, ctx')
      ∧ Reach g.exit? entry 3
      ∧ DeadExit g.exit? 3
      ∧ g.exprs? 3 = some []
      ∧ CFGSlots.buildFor 2 ⟨0, .If (.BoolLit true) (.IntLit 1) (.IntLit 2)⟩
          = .error .nullDeref :=
  ⟨_, _, rfl, Relation.ReflTransGen.single ⟨_, rfl, by decide, Or.inr rfl⟩,
    ⟨_, rfl, rfl⟩, rfl, rfl⟩

/-- C4 (the code breaks it): for the method body `if true then return 1 else return 2 end`,
lowered by the statements of `buildFor` on a CFG with its two sentinel blocks, the
`thenBlock`, block 2, holds the bindings of both arms, the two of `return 1` followed by
the two of `return 2`, and the `elseBlock`, block 3, holds none. On what the constructor of
the source creates, `buildFor` returns no CFG for this body: the run ends at a store through
the null `entry()` pointer. -/
theorem buildFor_else_arm_in_thenBlock :
    ∃ g ctx',
      buildOnSentinels 2 ⟨0, .If (.BoolLit true) (.Return (.IntLit 1)) (.Return (.IntLit 2))⟩
        = some (g, ctx')
      ∧ g.exprs? 2 = some [⟨4, .IntLit 1⟩, ⟨2, .Return 4⟩, ⟨5, .IntLit 2⟩, ⟨2, .Return 5⟩]
      ∧ g.exprs? 3 = some []
      ∧ CFGSlots.buildFor 2
          ⟨0, .If (.BoolLit true) (.Return (.IntLit 1)) (.Return (.IntLit 2))⟩
          = .error .nullDeref :=
  ⟨_, _, rfl, rfl, rfl, rfl⟩

/-- C5, as stated, fails: lowering `if true then return 1 else 2 end` from the entry block
of a CFG holding just its two sentinel blocks. The then arm's lowering returns the dead block and the else arm's lowering
returns block 2, so exactly one arm is dead; `walk` returns the join block 4, and the dead
block's exit is then a jump to the join block: it did not remain `Dead`. -/
theorem walk_if_rewires_dead_block :
    ∃ cont g1 ctx1 g3 ctx2 g4 ctx3 g',
      walk 3 (.BoolLit true) 0 CFG.sentinels.freshBlock.2.freshBlock.2 2 = some (cont, g1, ctx1)
      ∧ walk ctx1 (.Return (.IntLit 1)) 2
          (((g1.setCond cont 2).setThenb 0 2).setElseb 0 3) 9 = some (deadBlock, g3, ctx2)
      ∧ walk ctx2 (.IntLit 2) 2 g3 9 = some (2, g4, ctx3)
      ∧ walk 2 (.If (.BoolLit true) (.Return (.IntLit 1)) (.IntLit 2)) 0 CFG.sentinels 9
          = some (4, g', ctx3)
      ∧ g'.exit? deadBlock = some ⟨1, some 4, some 4⟩
      ∧ ¬ DeadExit g'.exit? deadBlock :=
  ⟨_, _, _, _, _, _, _, _, rfl, rfl, rfl, rfl, rfl, by
    rintro ⟨e, he, hc⟩
    have he' : some (⟨1, some 4, some 4⟩ : BlockExit) = some e := he
    rw [← Option.some.inj he'] at hc
    exact absurd hc (by decide)⟩

/-- C5, amended: for every `If` node where exactly one of the two arm lowerings returns the
dead block, `walk` allocates a join block (a new, empty block with no exit stored) and
returns it, sets the exit of both blocks returned by the arm lowerings, the live arm's
continuation and the dead block itself, to a jump to the join block, and changes no other
block. The hypotheses `hc`, `ht`, `he` are the three recursive calls of the `If` case, in
order, each on the graph and allocator state the previous one returned. -/
theorem walk_if_one_arm_dead (ctx : GlobalState) (cond thenp elsep : Statement)
    (current : Nat) (g : CFG) (target cont : Nat) (g1 : CFG) (ctx1 : GlobalState)
    (thenEnd : Nat) (g3 : CFG) (ctx2 : GlobalState) (elseEnd : Nat) (g4 : CFG)
    (ctx3 : GlobalState) (h2 : 2 ≤ g.size) (hcur : current < g.size)
    (hc : walk ctx.newTemporary.2 cond current g.freshBlock.2.freshBlock.2
      ctx.newTemporary.1 = some (cont, g1, ctx1))
    (ht : walk ctx1 thenp g.freshBlock.1
      (((g1.setCond cont ctx.newTemporary.1).setThenb current g.freshBlock.1).setElseb
        current g.freshBlock.2.freshBlock.1) target = some (thenEnd, g3, ctx2))
    (he : walk ctx2 elsep g.freshBlock.1 g3 target = some (elseEnd, g4, ctx3))
    (hone : (thenEnd = deadBlock ∧ elseEnd ≠ deadBlock)
      ∨ (thenEnd ≠ deadBlock ∧ elseEnd = deadBlock)) :
    ∃ g', walk ctx (.If cond thenp elsep) current g target = some (g4.freshBlock.1, g', ctx3)
      ∧ g'.size = g4.size + 1
      ∧ g'.block? g4.freshBlock.1 = some BasicBlock.fresh
      ∧ g'.exit? thenEnd = some ⟨1, some g4.freshBlock.1, some g4.freshBlock.1⟩
      ∧ g'.exit? elseEnd = some ⟨1, some g4.freshBlock.1, some g4.freshBlock.1⟩
      ∧ ∀ i : Nat, i < g4.size → i ≠ thenEnd → i ≠ elseEnd → g'.block? i = g4.block? i := by
  have hw := walk_if_eq hc ht he
  simp only [freshBlock_fst, size_freshBlock] at hc ht he
  have e1 : g.freshBlock.2.freshBlock.2.size = g.size + 2 := by simp
  have e2 : (((g1.setCond cont ctx.newTemporary.1).setThenb current g.size).setElseb
      current (g.size + 1)).size = g1.size := by simp
  have F1 := (walk_lowered _ _ _ _ _ _ _ _ hc).framed (by omega) (by omega)
  have hs1 := F1.size_le
  have F2 := (walk_lowered _ _ _ _ _ _ _ _ ht).framed (by omega) (by omega)
  have hs2 := F2.size_le
  have hte : thenEnd < g3.size := F2.ret_lt (by omega) (by omega)
  have F3 := (walk_lowered _ _ _ _ _ _ _ _ he).framed (by omega) (by omega)
  have hs3 := F3.size_le
  have hee : elseEnd < g4.size := F3.ret_lt (by omega) (by omega)
  have hcond : thenEnd ≠ deadBlock ∨ elseEnd ≠ deadBlock := by
    rcases hone with h | h
    · exact Or.inr h.2
    · exact Or.inl h.1
  refine ⟨_, by rw [hw, if_pos hcond], by simp, ?_, ?_, ?_, ?_⟩
  · rw [freshBlock_fst, block?_setJump_of_ne _ (by omega), block?_setJump_of_ne _ (by omega),
      block?_freshBlock, if_pos rfl]
  · by_cases h : thenEnd = elseEnd
    · rw [h]
      exact exit?_setJump_self _ (by simp; omega)
    · rw [exit?_setJump_of_ne _ h]
      exact exit?_setJump_self _ (by simp; omega)
  · exact exit?_setJump_self _ (by simp; omega)
  · intro i hi h1 h2
    rw [block?_setJump_of_ne _ h2, block?_setJump_of_ne _ h1, block?_freshBlock_of_lt hi]

/-- C5, amended, at a concrete input: `if true then return 1 else 2 end` lowered from the
entry block of a CFG holding just its two sentinel blocks returns the join block 4, and both the dead block 1 and the live
arm's continuation 2 jump to it. -/
theorem walk_if_one_arm_dead_witness :
    ∃ g', walk 2 (.If (.BoolLit true) (.Return (.IntLit 1)) (.IntLit 2)) 0 CFG.sentinels 9
        = some (4, g', 4)
      ∧ g'.size = 5
      ∧ g'.block? 4 = some BasicBlock.fresh
      ∧ g'.exit? 1 = some ⟨1, some 4, some 4⟩
      ∧ g'.exit? 2 = some ⟨1, some 4, some 4⟩ := by
  obtain ⟨g', h1, h2, h3, h4, h5, _⟩ :=
    walk_if_one_arm_dead 2 (.BoolLit true) (.Return (.IntLit 1)) (.IntLit 2) 0 CFG.sentinels 9
      0 _ 3 1 _ 4 2 _ 4 (by decide) (by decide) rfl rfl rfl (Or.inl ⟨rfl, by decide⟩)
  exact ⟨g', h1, h2, h3, h4, h5⟩

/-- C6 (the code breaks it): lowering `if (while true do 1 end) then 2 else 3 end` from the
entry block of a CFG holding just its two sentinel blocks. Lowering the condition returns block 6, not the starting block 0.
After `walk`, block 6 has the condition temporary 2 of the `If` as its condition but no
successor, and the two successors `thenBlock` 2 and `elseBlock` 3 sit in block 0, whose
condition is still the jump sentinel that the `While` stored there. -/
theorem walk_if_branch_on_starting_block :
    ∃ g1 ctx1 r g' ctx',
      walk 3 (.While (.BoolLit true) (.IntLit 1)) 0 CFG.sentinels.freshBlock.2.freshBlock.2 2
        = some (6, g1, ctx1)
      ∧ walk 2 (.If (.While (.BoolLit true) (.IntLit 1)) (.IntLit 2) (.IntLit 3)) 0 CFG.sentinels 9
        = some (r, g', ctx')
      ∧ g'.exit? 6 = some ⟨2, none, none⟩
      ∧ g'.exit? 0 = some ⟨1, some 2, some 3⟩ :=
  ⟨_, _, _, _, _, rfl, rfl, rfl, rfl⟩

/-- C7: for every `If` node, if the lowering of the then arm and the lowering of the else
arm both return the dead block, `walk` returns the dead block and the graph it returns is
the graph the else arm's lowering returned: no join block is allocated, and the blocks added
are `thenBlock`, `elseBlock` and the `nc`, `nt` and `ne` blocks allocated while lowering
the condition and the two arms. The hypotheses `hc`, `ht`, `he` are the three recursive
calls of the `If` case, in order, each on the graph and allocator state the previous one
returned. -/
theorem walk_if_both_arms_dead (ctx : GlobalState) (cond thenp elsep : Statement)
    (current : Nat) (g : CFG) (target cont : Nat) (g1 : CFG) (ctx1 : GlobalState)
    (thenEnd : Nat) (g3 : CFG) (ctx2 : GlobalState) (elseEnd : Nat) (g4 : CFG)
    (ctx3 : GlobalState) (h2 : 2 ≤ g.size) (hcur : current < g.size)
    (hc : walk ctx.newTemporary.2 cond current g.freshBlock.2.freshBlock.2
      ctx.newTemporary.1 = some (cont, g1, ctx1))
    (ht : walk ctx1 thenp g.freshBlock.1
      (((g1.setCond cont ctx.newTemporary.1).setThenb current g.freshBlock.1).setElseb
        current g.freshBlock.2.freshBlock.1) target = some (thenEnd, g3, ctx2))
    (he : walk ctx2 elsep g.freshBlock.1 g3 target = some (elseEnd, g4, ctx3))
    (hthen : thenEnd = deadBlock) (helse : elseEnd = deadBlock) :
    walk ctx (.If cond thenp elsep) current g target = some (deadBlock, g4, ctx3)
      ∧ ∃ nc nt ne : Nat, g1.size = g.size + 2 + nc ∧ g3.size = g1.size + nt
          ∧ g4.size = g3.size + ne ∧ g4.size = g.size + 2 + nc + nt + ne := by
  have hw := walk_if_eq hc ht he
  simp only [freshBlock_fst, size_freshBlock] at hc ht he
  have e1 : g.freshBlock.2.freshBlock.2.size = g.size + 2 := by simp
  have e2 : (((g1.setCond cont ctx.newTemporary.1).setThenb current g.size).setElseb
      current (g.size + 1)).size = g1.size := by simp
  have F1 := (walk_lowered _ _ _ _ _ _ _ _ hc).framed (by omega) (by omega)
  have hs1 := F1.size_le
  have F2 := (walk_lowered _ _ _ _ _ _ _ _ ht).framed (by omega) (by omega)
  have hs2 := F2.size_le
  have F3 := (walk_lowered _ _ _ _ _ _ _ _ he).framed (by omega) (by omega)
  have hs3 := F3.size_le
  refine ⟨?_, g1.size - (g.size + 2), g3.size - g1.size, g4.size - g3.size,
    by omega, by omega, by omega, by omega⟩
  rw [hw, if_neg]
  rintro (h | h)
  · exact h hthen
  · exact h helse

/-- C7 at a concrete input: `if true then return 1 else return 2 end` lowered from the entry
block of a CFG holding just its two sentinel blocks returns the dead block, and the resulting graph has the two sentinel
blocks, `thenBlock` and `elseBlock`, and no other block. -/
theorem walk_if_both_arms_dead_witness :
    ∃ g4, walk 2 (.If (.BoolLit true) (.Return (.IntLit 1)) (.Return (.IntLit 2))) 0
        CFG.sentinels 9 = some (deadBlock, g4, 5)
      ∧ g4.size = 4 := by
  have h := walk_if_both_arms_dead 2 (.BoolLit true) (.Return (.IntLit 1))
    (.Return (.IntLit 2)) 0 CFG.sentinels 9 0 _ 3 1 _ 4 1 _ 5 (by decide) (by decide) rfl rfl rfl
    rfl rfl
  exact ⟨_, h.1, rfl⟩

/-- C8, as stated, fails: lowering `while (return 0) do (if true then return 2 else 3 end)
end` from the entry block of a CFG holding just its two sentinel blocks. Lowering the condition into the header returns the
dead block, and lowering the body returns block 7, which is not the dead block. After
`walk`, the block returned by lowering the condition does not have the exit
`Branch(condTemp, bodyBlock, afterBlock)`, here `Branch(2, 3, 4)`: lowering the body
overwrote it with a jump to the join block 7 of the `if`. -/
theorem walk_while_header_end_overwritten :
    ∃ g2 ctx2 g4 ctx4 g',
      walk 3 (.Return (.IntLit 0)) 2 (CFG.sentinels.freshBlock.2.setJump 0 2) 2
        = some (deadBlock, g2, ctx2)
      ∧ walk ctx2.newTemporary.2 (.If (.BoolLit true) (.Return (.IntLit 2)) (.IntLit 3)) 3
          (g2.freshBlock.2.freshBlock.2.setBranch deadBlock 2 3 4) ctx2.newTemporary.1
          = some (7, g4, ctx4)
      ∧ walk 2 (.While (.Return (.IntLit 0))
          (.If (.BoolLit true) (.Return (.IntLit 2)) (.IntLit 3))) 0 CFG.sentinels 9
          = some (4, g', ctx4)
      ∧ g'.exit? deadBlock = some ⟨1, some 7, some 7⟩
      ∧ g'.exit? deadBlock ≠ some ⟨2, some 3, some 4⟩ :=
  ⟨_, _, _, _, _, rfl, rfl, rfl, rfl, by
    intro h
    have h' : some (⟨1, some 7, some 7⟩ : BlockExit) = some ⟨2, some 3, some 4⟩ := h
    exact absurd h' (by decide)⟩

/-- C8, amended: for every `While(cond, body)` lowered from a block `current` whose body
lowering does not return the dead block, after `walk` the block returned by lowering the
body has the exit `Jump(header)` for the freshly allocated header block; if `current` is not
the dead block its exit is `Jump(header)`; and if the block returned by lowering the
condition into the header is not the dead block, its exit is
`Branch(condTemp, bodyBlock, afterBlock)`. The hypotheses `hc` and `hb` are the two recursive
calls of the `While` case. -/
theorem walk_while_exits (ctx : GlobalState) (cond body : Statement) (current : Nat)
    (g : CFG) (target headerEnd : Nat) (g2 : CFG) (ctx2 : GlobalState) (bodyEnd : Nat)
    (g4 : CFG) (ctx4 : GlobalState) (h2 : 2 ≤ g.size) (hcur : current < g.size)
    (hc : walk ctx.newTemporary.2 cond g.freshBlock.1
      (g.freshBlock.2.setJump current g.freshBlock.1) ctx.newTemporary.1
        = some (headerEnd, g2, ctx2))
    (hb : walk ctx2.newTemporary.2 body g2.freshBlock.1
      (g2.freshBlock.2.freshBlock.2.setBranch headerEnd ctx.newTemporary.1 g2.freshBlock.1
        g2.freshBlock.2.freshBlock.1) ctx2.newTemporary.1 = some (bodyEnd, g4, ctx4))
    (hbody : bodyEnd ≠ deadBlock) :
    ∃ g', walk ctx (.While cond body) current g target
        = some (g2.freshBlock.2.freshBlock.1, g', ctx4)
      ∧ g.block? g.freshBlock.1 = none
      ∧ g'.exit? bodyEnd = some ⟨1, some g.freshBlock.1, some g.freshBlock.1⟩
      ∧ (current ≠ deadBlock →
          g'.exit? current = some ⟨1, some g.freshBlock.1, some g.freshBlock.1⟩)
      ∧ (headerEnd ≠ deadBlock →
          g'.exit? headerEnd = some ⟨ctx.newTemporary.1, some g2.freshBlock.1,
            some g2.freshBlock.2.freshBlock.1⟩) := by
  have _ := hbody
  have hw := walk_while_eq target hc hb
  simp only [freshBlock_fst, size_freshBlock] at hc hb hw ⊢
  have e1 : (g.freshBlock.2.setJump current g.size).size = g.size + 1 := by simp
  have e2 : (g2.freshBlock.2.freshBlock.2.setBranch headerEnd ctx.newTemporary.1 g2.size
      (g2.size + 1)).size = g2.size + 2 := by simp
  have F1 := (walk_lowered _ _ _ _ _ _ _ _ hc).framed (by omega) (by omega)
  have hs1 := F1.size_le
  have F2 := (walk_lowered _ _ _ _ _ _ _ _ hb).framed (by omega) (by omega)
  have hHE := F1.ret_cases_while e1
  obtain ⟨xa, xHE, _, xBE⟩ := while_exits target h2 F1 F2
  refine ⟨_, hw, (g.block?_eq_none_iff _).2 (le_refl _), xBE, ?_, ?_⟩
  · intro hne
    have hne' : current ≠ 1 := hne
    rw [xa current hne' (by omega) (by omega),
      exit?_of_block? (F1.frame current (by omega) (by omega) hne'),
      exit?_setJump_self _ (by simp; omega)]
  · intro hne
    exact xHE hne

/-- C8, amended, at a concrete input: `while true do 1 end` lowered from the entry block of
a CFG holding just its two sentinel blocks: header 2, body 3, after 4; the entry block and the body block jump to the header
and the header branches on the condition temporary 2 to the body and the after block. -/
theorem walk_while_exits_witness :
    ∃ g', walk 2 (.While (.BoolLit true) (.IntLit 1)) 0 CFG.sentinels 9 = some (4, g', 4)
      ∧ g'.exit? 3 = some ⟨1, some 2, some 2⟩
      ∧ g'.exit? 0 = some ⟨1, some 2, some 2⟩
      ∧ g'.exit? 2 = some ⟨2, some 3, some 4⟩ := by
  obtain ⟨g', h1, _, h3, h4, h5⟩ :=
    walk_while_exits 2 (.BoolLit true) (.IntLit 1) 0 CFG.sentinels 9 2 _ 3 3 _ 4 (by decide)
      (by decide) rfl rfl (by decide)
  exact ⟨g', h1, h3, h4 (by decide), h5 (by decide)⟩

/-- C9: for every `While` node and target `t`, `walk` returns the after block, which is the
second of the two blocks allocated after the condition was lowered; its binding list is
exactly `[t := Nil]`; and besides the `nc` blocks allocated while lowering the condition and
the `nb` blocks allocated while lowering the body, exactly three blocks are allocated. -/
theorem walk_while_after_block (ctx : GlobalState) (cond body : Statement) (current : Nat)
    (g : CFG) (target headerEnd : Nat) (g2 : CFG) (ctx2 : GlobalState) (bodyEnd : Nat)
    (g4 : CFG) (ctx4 : GlobalState) (h2 : 2 ≤ g.size)
    (hc : walk ctx.newTemporary.2 cond g.freshBlock.1
      (g.freshBlock.2.setJump current g.freshBlock.1) ctx.newTemporary.1
        = some (headerEnd, g2, ctx2))
    (hb : walk ctx2.newTemporary.2 body g2.freshBlock.1
      (g2.freshBlock.2.freshBlock.2.setBranch headerEnd ctx.newTemporary.1 g2.freshBlock.1
        g2.freshBlock.2.freshBlock.1) ctx2.newTemporary.1 = some (bodyEnd, g4, ctx4)) :
    ∃ g', walk ctx (.While cond body) current g target
        = some (g2.freshBlock.2.freshBlock.1, g', ctx4)
      ∧ g2.block? g2.freshBlock.2.freshBlock.1 = none
      ∧ g'.exprs? g2.freshBlock.2.freshBlock.1 = some [⟨target, .Nil⟩]
      ∧ ∃ nc nb : Nat, g2.size = g.size + 1 + nc ∧ g4.size = g2.size + 2 + nb
          ∧ g'.size = g.size + 3 + nc + nb := by
  have hw := walk_while_eq target hc hb
  simp only [freshBlock_fst, size_freshBlock] at hc hb hw ⊢
  have e1 : (g.freshBlock.2.setJump current g.size).size = g.size + 1 := by simp
  have e2 : (g2.freshBlock.2.freshBlock.2.setBranch headerEnd ctx.newTemporary.1 g2.size
      (g2.size + 1)).size = g2.size + 2 := by simp
  have F1 := (walk_lowered _ _ _ _ _ _ _ _ hc).framed (by omega) (by omega)
  have hs1 := F1.size_le
  have hHE : headerEnd < g2.size := F1.ret_lt (by omega) (by omega)
  have F2 := (walk_lowered _ _ _ _ _ _ _ _ hb).framed (by omega) (by omega)
  have hs2 := F2.size_le
  have hBE := F2.ret_cases_while e2
  refine ⟨_, hw, (g2.block?_eq_none_iff _).2 (by omega), ?_,
    g2.size - (g.size + 1), g4.size - (g2.size + 2), by omega, by omega, by simp; omega⟩
  have hA : g4.exprs? (g2.size + 1) = some [] := by
    rw [exprs?_of_block? (F2.frame (g2.size + 1) (by omega) (by omega) (by omega)),
      exprs?_setBranch, exprs?_freshBlock, if_pos (by simp)]
  rw [exprs?_emplaceBack, if_pos rfl, exprs?_setJump, hA]
  rfl

/-- C9 at a concrete input: the method body `x = 1; while x < 10 do x = x + 1 end` (`x` is
symbol 100, the two sends are node kinds that `walk` does not lower). The `While` is lowered
from the entry block once `x = 1` has been lowered; `walk` returns the after block 4, which
holds `[2 := Nil]`, and allocates header 2, body 3 and after 4: the graph has five blocks.
The CFG that `buildOnSentinels` returns for this body has those five blocks too, and the body block
jumps back to the header. -/
theorem walk_while_after_block_witness :
    (∃ g', walk 4 (.While (.Other 0) (.Assign (.Ident 100) (.Other 0))) 0
        ((CFG.sentinels.emplaceBack 0 100 (.IntLit 1)).emplaceBack 0 3 (.Ident 100)) 2
          = some (4, g', 6)
      ∧ g'.exprs? 4 = some [⟨2, .Nil⟩]
      ∧ g'.size = 5)
    ∧ ∃ g ctx',
        buildOnSentinels 2 ⟨0, .InsSeq [.Assign (.Ident 100) (.IntLit 1)]
          (.While (.Other 0) (.Assign (.Ident 100) (.Other 0)))⟩ = some (g, ctx')
        ∧ g.size = 5
        ∧ g.exit? 3 = some ⟨1, some 2, some 2⟩ := by
  constructor
  · obtain ⟨g', h1, _, h3, nc, nb, h4, h5, h6⟩ :=
      walk_while_after_block 4 (.Other 0) (.Assign (.Ident 100) (.Other 0)) 0
        ((CFG.sentinels.emplaceBack 0 100 (.IntLit 1)).emplaceBack 0 3 (.Ident 100)) 2 2 _ 5 3 _ 6
        (by decide) rfl rfl
    refine ⟨g', h1, h3, ?_⟩
    have a1 : (3 : Nat) = 2 + 1 + nc := h4
    have a2 : (5 : Nat) = 3 + 2 + nb := h5
    have a3 : g'.size = 2 + 3 + nc + nb := h6
    omega
  · exact ⟨_, _, rfl, rfl, rfl⟩

/-- C10: for every `Return(e)` node, starting block and target `t`, `walk` returns the dead
block, and the block `cont` returned by lowering `e` from the starting block into the fresh
temporary `r` gets `t := Return(r)` appended as its last binding and has exit `Dead`. -/
theorem walk_return_binding_and_exit (ctx : GlobalState) (expr : Statement) (current : Nat)
    (g : CFG) (target cont : Nat) (g1 : CFG) (ctx1 : GlobalState) (h2 : 2 ≤ g.size)
    (hcur : current < g.size)
    (he : walk ctx.newTemporary.2 expr current g ctx.newTemporary.1 = some (cont, g1, ctx1)) :
    ∃ g', walk ctx (.Return expr) current g target = some (deadBlock, g', ctx1)
      ∧ g'.exit? cont = some ⟨0, some deadBlock, some deadBlock⟩
      ∧ DeadExit g'.exit? cont
      ∧ ∃ l, g1.exprs? cont = some l
          ∧ g'.exprs? cont = some (l ++ [⟨target, .Return ctx.newTemporary.1⟩]) := by
  have F := (walk_lowered _ _ _ _ _ _ _ _ he).framed h2 hcur
  have hlt : cont < g1.size := F.ret_lt h2 hcur
  have hx : ((g1.emplaceBack cont target (.Return ctx.newTemporary.1)).setDead cont).exit? cont
      = some ⟨0, some 1, some 1⟩ := exit?_setDead_self (by simpa using hlt)
  obtain ⟨blk, hblk⟩ := exists_block_of_lt hlt
  refine ⟨_, walk_return_eq he, hx, ⟨_, hx, rfl⟩, blk.exprs, by simp [exprs?, hblk], ?_⟩
  rw [exprs?_setDead, exprs?_emplaceBack, if_pos rfl]
  simp [exprs?, hblk]

/-- C10 at a concrete input: `return 7` lowered from the entry block of a CFG holding just its two sentinel blocks with
target 9 returns the dead block; the entry block ends in `9 := Return(2)` and has exit
`Dead`. -/
theorem walk_return_binding_and_exit_witness :
    ∃ g', walk 2 (.Return (.IntLit 7)) 0 CFG.sentinels 9 = some (deadBlock, g', 3)
      ∧ g'.exit? 0 = some ⟨0, some deadBlock, some deadBlock⟩
      ∧ g'.exprs? 0 = some [⟨2, .IntLit 7⟩, ⟨9, .Return 2⟩] := by
  obtain ⟨g', h1, h2, _, l, h4, h5⟩ :=
    walk_return_binding_and_exit 2 (.IntLit 7) 0 CFG.sentinels 9 0 _ 3 (by decide) (by decide) rfl
  have hl : l = [⟨2, .IntLit 7⟩] := by
    have h4' : some [(⟨2, .IntLit 7⟩ : Binding)] = some l := h4
    exact (Option.some.inj h4').symm
  subst hl
  exact ⟨g', h1, h2, h5⟩

/-- C11: for every node of a leaf kind or of an unsupported kind (`leafInstruction` gives
its instruction), every existing block `b` and target `t`, `walk` returns `b` itself with the
allocator untouched, appends exactly the binding `t := instruction` at the end of the
bindings of `b`, allocates no block, and leaves the exit of `b` and every other block
unchanged. -/
theorem walk_leaf_appends_one_binding (ctx : GlobalState) (what : Statement)
    (instr : Instruction) (b : Nat) (g : CFG) (t : Nat) (l : List Binding)
    (hleaf : leafInstruction what = some instr) (hb : g.exprs? b = some l) :
    ∃ g', walk ctx what b g t = some (b, g', ctx)
      ∧ g'.exprs? b = some (l ++ [⟨t, instr⟩])
      ∧ g'.size = g.size
      ∧ g'.exit? b = g.exit? b
      ∧ ∀ i : Nat, i ≠ b → g'.block? i = g.block? i := by
  have key : walk ctx what b g t = some (b, g.emplaceBack b t instr, ctx) := by
    cases what <;> simp only [leafInstruction, Option.some.injEq] at hleaf <;>
      first
        | (subst hleaf; rw [walk])
        | exact absurd hleaf (by simp)
  refine ⟨_, key, ?_, by simp, by simp, fun i hi => block?_emplaceBack_of_ne _ _ hi⟩
  rw [exprs?_emplaceBack, if_pos rfl, hb]
  rfl

/-- C11 at the specification's scenario: lowering the literal `42` with target 9 into the
empty entry block of a CFG holding just its two sentinel blocks yields the bindings `[9 := IntLit(42)]` and returns the entry
block. -/
theorem walk_leaf_appends_one_binding_witness :
    ∃ g', walk 2 (.IntLit 42) entry CFG.sentinels 9 = some (entry, g', 2)
      ∧ g'.exprs? entry = some [⟨9, .IntLit 42⟩]
      ∧ g'.size = 2
      ∧ g'.exit? entry = CFG.sentinels.exit? entry := by
  obtain ⟨g', h1, h2, h3, h4, _⟩ :=
    walk_leaf_appends_one_binding 2 (.IntLit 42) (.IntLit 42) 0 CFG.sentinels 9 [] rfl rfl
  exact ⟨g', h1, h2, h3, h4⟩

/-- C12: for every `Assign` node whose left-hand side is the simple variable `x`, with
right-hand side `rhs` and target `t`: `walk` lowers `rhs` from the starting block with `x` as
its target (hypothesis `hr` is that recursive call), appends `t := Ident(x)` as the last
binding of the block that this lowering returned, changes nothing else, and returns that same
block. -/
theorem walk_assign_copies_variable (ctx : GlobalState) (x : SymbolRef) (rhs : Statement)
    (current : Nat) (g : CFG) (t rhsCont : Nat) (g1 : CFG) (ctx1 : GlobalState)
    (h2 : 2 ≤ g.size) (hcur : current < g.size)
    (hr : walk ctx rhs current g x = some (rhsCont, g1, ctx1)) :
    ∃ g' l, walk ctx (.Assign (.Ident x) rhs) current g t = some (rhsCont, g', ctx1)
      ∧ g1.exprs? rhsCont = some l
      ∧ g'.exprs? rhsCont = some (l ++ [⟨t, .Ident x⟩])
      ∧ g'.size = g1.size
      ∧ (∀ i : Nat, g'.exit? i = g1.exit? i)
      ∧ ∀ i : Nat, i ≠ rhsCont → g'.block? i = g1.block? i := by
  have F := (walk_lowered _ _ _ _ _ _ _ _ hr).framed h2 hcur
  have hlt : rhsCont < g1.size := F.ret_lt h2 hcur
  obtain ⟨blk, hblk⟩ := exists_block_of_lt hlt
  have key : walk ctx (.Assign (.Ident x) rhs) current g t
      = some (rhsCont, g1.emplaceBack rhsCont t (.Ident x), ctx1) := by
    rw [walk]
    simp only [hr]
  refine ⟨_, blk.exprs, key, by simp [exprs?, hblk], ?_, by simp,
    fun i => exit?_emplaceBack _ _ _ _ _, fun i hi => block?_emplaceBack_of_ne _ _ hi⟩
  rw [exprs?_emplaceBack, if_pos rfl]
  simp [exprs?, hblk]

/-- C12 at a concrete input: `x = 1` with `x` the symbol 100, lowered from the entry block
of a CFG holding just its two sentinel blocks with target 9, returns the entry block, which then holds
`[100 := IntLit(1), 9 := Ident(100)]`. -/
theorem walk_assign_copies_variable_witness :
    ∃ g', walk 2 (.Assign (.Ident 100) (.IntLit 1)) 0 CFG.sentinels 9 = some (0, g', 2)
      ∧ g'.exprs? 0 = some [⟨100, .IntLit 1⟩, ⟨9, .Ident 100⟩] := by
  obtain ⟨g', l, h1, h2, h3, _⟩ :=
    walk_assign_copies_variable 2 100 (.IntLit 1) 0 CFG.sentinels 9 0 _ 2 (by decide) (by decide)
      rfl
  have hl : l = [⟨100, .IntLit 1⟩] := by
    have h2' : some [(⟨100, .IntLit 1⟩ : Binding)] = some l := h2
    exact (Option.some.inj h2').symm
  subst hl
  exact ⟨g', h1, h3⟩


mutual
theorem walk_isNone : ∀ (what : Statement) (ctx : GlobalState) (current : Nat) (g : CFG)
    (target : Nat), (walk ctx what current g target).isNone = reachesBadAssign what
  | .While cond body, ctx, current, g, target => by
    rw [walk, reachesBadAssign, ← walk_isNone cond ctx.newTemporary.2 g.freshBlock.1
      (g.freshBlock.2.setJump current g.freshBlock.1) ctx.newTemporary.1]
    cases hc : walk ctx.newTemporary.2 cond g.freshBlock.1
        (g.freshBlock.2.setJump current g.freshBlock.1) ctx.newTemporary.1 with
    | none => rfl
    | some r =>
      obtain ⟨headerEnd, g2, ctx2⟩ := r
      simp only [Option.isNone_some, Bool.false_or]
      rw [← walk_isNone body ctx2.newTemporary.2 g2.freshBlock.1
        (g2.freshBlock.2.freshBlock.2.setBranch headerEnd ctx.newTemporary.1 g2.freshBlock.1
          g2.freshBlock.2.freshBlock.1) ctx2.newTemporary.1]
      cases walk ctx2.newTemporary.2 body g2.freshBlock.1
          (g2.freshBlock.2.freshBlock.2.setBranch headerEnd ctx.newTemporary.1
            g2.freshBlock.1 g2.freshBlock.2.freshBlock.1) ctx2.newTemporary.1 with
      | none => rfl
      | some r2 => rfl
  | .Return expr, ctx, current, g, target => by
    rw [walk, reachesBadAssign, ← walk_isNone expr ctx.newTemporary.2 current g
      ctx.newTemporary.1]
    cases walk ctx.newTemporary.2 expr current g ctx.newTemporary.1 with
    | none => rfl
    | some r => rfl
  | .If cond thenp elsep, ctx, current, g, target => by
    rw [walk, reachesBadAssign, ← walk_isNone cond ctx.newTemporary.2 current
      g.freshBlock.2.freshBlock.2 ctx.newTemporary.1]
    cases walk ctx.newTemporary.2 cond current g.freshBlock.2.freshBlock.2
        ctx.newTemporary.1 with
    | none => rfl
    | some r =>
      obtain ⟨cont, g1, ctx1⟩ := r
      simp only [Option.isNone_some, Bool.false_or]
      rw [← walk_isNone thenp ctx1 g.freshBlock.1
        (((g1.setCond cont ctx.newTemporary.1).setThenb current g.freshBlock.1).setElseb
          current g.freshBlock.2.freshBlock.1) target]
      cases walk ctx1 thenp g.freshBlock.1
          (((g1.setCond cont ctx.newTemporary.1).setThenb current g.freshBlock.1).setElseb
            current g.freshBlock.2.freshBlock.1) target with
      | none => rfl
      | some r2 =>
        obtain ⟨thenEnd, g3, ctx2⟩ := r2
        simp only [Option.isNone_some, Bool.false_or]
        rw [← walk_isNone elsep ctx2 g.freshBlock.1 g3 target]
        cases walk ctx2 elsep g.freshBlock.1 g3 target with
        | none => rfl
        | some r3 =>
          obtain ⟨elseEnd, g4, ctx3⟩ := r3
          simp only [Option.isNone_some]
          split <;> rfl
  | .IntLit _, ctx, current, g, target => by simp [walk, reachesBadAssign]
  | .FloatLit _, ctx, current, g, target => by simp [walk, reachesBadAssign]
  | .StringLit _, ctx, current, g, target => by simp [walk, reachesBadAssign]
  | .BoolLit _, ctx, current, g, target => by simp [walk, reachesBadAssign]
  | .ConstantLit _, ctx, current, g, target => by simp [walk, reachesBadAssign]
  | .Ident _, ctx, current, g, target => by simp [walk, reachesBadAssign]
  | .Self _, ctx, current, g, target => by simp [walk, reachesBadAssign]
  | .Other _, ctx, current, g, target => by simp [walk, reachesBadAssign]
  | .Assign lhs rhs, ctx, current, g, target => by
    cases lhs with
    | Ident lhsSymbol =>
      rw [walk, reachesBadAssign, ← walk_isNone rhs ctx current g lhsSymbol]
      cases walk ctx rhs current g lhsSymbol with
      | none => rfl
      | some r => rfl
    | _ => simp [walk, reachesBadAssign]
  | .InsSeq stats expr, ctx, current, g, target => by
    rw [walk, reachesBadAssign, ← walkStats_isNone stats ctx current g]
    cases walkStats ctx stats current g with
    | none => rfl
    | some r =>
      obtain ⟨current1, g1, ctx1⟩ := r
      simp only [Option.isNone_some, Bool.false_or]
      exact walk_isNone expr ctx1 current1 g1 target
theorem walkStats_isNone : ∀ (stats : List Statement) (ctx : GlobalState) (current : Nat)
    (g : CFG), (walkStats ctx stats current g).isNone = reachesBadAssignStats stats
  | [], ctx, current, g => by rw [walkStats, reachesBadAssignStats]; rfl
  | exp :: rest, ctx, current, g => by
    rw [walkStats, reachesBadAssignStats, ← walk_isNone exp ctx.newTemporary.2 current g
      ctx.newTemporary.1]
    cases walk ctx.newTemporary.2 exp current g ctx.newTemporary.1 with
    | none => rfl
    | some r =>
      obtain ⟨current1, g1, ctx1⟩ := r
      simp only [Option.isNone_some, Bool.false_or]
      exact walkStats_isNone rest ctx1 current1 g1
end

/-- With the two sentinel blocks pre-created: `buildOnSentinels` aborts (returns no CFG) if and only if the lowering reaches an `Assign`
whose left-hand side is not a simple variable (`reachesBadAssign` on the method body); on
every other tree, including trees with unsupported node kinds, it returns a CFG. -/
theorem buildOnSentinels_aborts_iff_bad_assign (ctx : GlobalState) (md : MethodDef) :
    (buildOnSentinels ctx md = none ↔ reachesBadAssign md.rhs = true)
      ∧ (reachesBadAssign md.rhs = false ↔ ∃ g ctx', buildOnSentinels ctx md = some (g, ctx')) := by
  have h := walk_isNone md.rhs ctx.newTemporary.2 entry { CFG.sentinels with symbol := md.symbol }
    ctx.newTemporary.1
  unfold buildOnSentinels
  simp only
  cases hw : walk ctx.newTemporary.2 md.rhs entry { CFG.sentinels with symbol := md.symbol }
      ctx.newTemporary.1 with
  | none =>
    rw [hw] at h
    simp only [Option.isNone_none] at h
    rw [← h]
    simp
  | some r =>
    obtain ⟨cont, g1, ctx1⟩ := r
    rw [hw] at h
    simp only [Option.isNone_some] at h
    rw [← h]
    simp


mutual
theorem walk_ctx_le : ∀ (what : Statement) (ctx : Nat) (current : Nat) (g : CFG)
    (target : Nat) (r : Nat) (g' : CFG) (ctx' : Nat),
    walk ctx what current g target = some (r, g', ctx') → ctx ≤ ctx'
  | .While cond body, ctx, current, g, target, r, g', ctx', h => by
    rw [walk] at h
    simp only [freshBlock_fst] at h
    split at h
    · exact absurd h (by simp)
    · next headerEnd g2 ctx2 hc =>
      split at h
      · exact absurd h (by simp)
      · next bodyEnd g4 ctx4 hb =>
        simp only [Option.some.injEq, Prod.mk.injEq] at h
        obtain ⟨-, -, rfl⟩ := h
        exact (by omega : ∀ a b c : Nat, a + 1 ≤ b → b + 1 ≤ c → a ≤ c) _ _ _
          (walk_ctx_le cond _ _ _ _ _ _ _ hc) (walk_ctx_le body _ _ _ _ _ _ _ hb)
  | .Return expr, ctx, current, g, target, r, g', ctx', h => by
    rw [walk] at h
    split at h
    · exact absurd h (by simp)
    · next cont g1 ctx1 he =>
      simp only [Option.some.injEq, Prod.mk.injEq] at h
      obtain ⟨-, -, rfl⟩ := h
      exact (by omega : ∀ a b : Nat, a + 1 ≤ b → a ≤ b) _ _
        (walk_ctx_le expr _ _ _ _ _ _ _ he)
  | .If cond thenp elsep, ctx, current, g, target, r, g', ctx', h => by
    rw [walk] at h
    simp only [freshBlock_fst] at h
    split at h
    · exact absurd h (by simp)
    · next cont g1 ctx1 hc =>
      split at h
      · exact absurd h (by simp)
      · next thenEnd g3 ctx2 ht =>
        split at h
        · exact absurd h (by simp)
        · next elseEnd g4 ctx3 he =>
          have h4 := (by omega : ∀ a b c d : Nat, a + 1 ≤ b → b ≤ c → c ≤ d → a ≤ d) _ _ _ _
            (walk_ctx_le cond _ _ _ _ _ _ _ hc) (walk_ctx_le thenp _ _ _ _ _ _ _ ht)
            (walk_ctx_le elsep _ _ _ _ _ _ _ he)
          split at h <;>
            (simp only [Option.some.injEq, Prod.mk.injEq] at h
             obtain ⟨-, -, rfl⟩ := h
             exact h4)
  | .IntLit _, ctx, current, g, target, r, g', ctx', h => by
    rw [walk] at h
    simp only [Option.some.injEq, Prod.mk.injEq] at h
    exact Nat.le_of_eq h.2.2
  | .FloatLit _, ctx, current, g, target, r, g', ctx', h => by
    rw [walk] at h
    simp only [Option.some.injEq, Prod.mk.injEq] at h
    exact Nat.le_of_eq h.2.2
  | .StringLit _, ctx, current, g, target, r, g', ctx', h => by
    rw [walk] at h
    simp only [Option.some.injEq, Prod.mk.injEq] at h
    exact Nat.le_of_eq h.2.2
  | .BoolLit _, ctx, current, g, target, r, g', ctx', h => by
    rw [walk] at h
    simp only [Option.some.injEq, Prod.mk.injEq] at h
    exact Nat.le_of_eq h.2.2
  | .ConstantLit _, ctx, current, g, target, r, g', ctx', h => by
    rw [walk] at h
    simp only [Option.some.injEq, Prod.mk.injEq] at h
    exact Nat.le_of_eq h.2.2
  | .Ident _, ctx, current, g, target, r, g', ctx', h => by
    rw [walk] at h
    simp only [Option.some.injEq, Prod.mk.injEq] at h
    exact Nat.le_of_eq h.2.2
  | .Self _, ctx, current, g, target, r, g', ctx', h => by
    rw [walk] at h
    simp only [Option.some.injEq, Prod.mk.injEq] at h
    exact Nat.le_of_eq h.2.2
  | .Other _, ctx, current, g, target, r, g', ctx', h => by
    rw [walk] at h
    simp only [Option.some.injEq, Prod.mk.injEq] at h
    exact Nat.le_of_eq h.2.2
  | .Assign lhs rhs, ctx, current, g, target, r, g', ctx', h => by
    cases lhs with
    | Ident lhsSymbol =>
      rw [walk] at h
      split at h
      · exact absurd h (by simp)
      · next rhsCont g1 ctx1 hr =>
        simp only [Option.some.injEq, Prod.mk.injEq] at h
        obtain ⟨-, -, rfl⟩ := h
        exact walk_ctx_le rhs _ _ _ _ _ _ _ hr
    | _ => simp [walk] at h
  | .InsSeq stats expr, ctx, current, g, target, r, g', ctx', h => by
    rw [walk] at h
    split at h
    · exact absurd h (by simp)
    · next current1 g1 ctx1 hs =>
      exact Nat.le_trans (walkStats_ctx_le stats _ _ _ _ _ _ hs)
        (walk_ctx_le expr _ _ _ _ _ _ _ h)
theorem walkStats_ctx_le : ∀ (stats : List Statement) (ctx : Nat) (current : Nat)
    (g : CFG) (r : Nat) (g' : CFG) (ctx' : Nat),
    walkStats ctx stats current g = some (r, g', ctx') → ctx ≤ ctx'
  | [], ctx, current, g, r, g', ctx', h => by
    rw [walkStats] at h
    simp only [Option.some.injEq, Prod.mk.injEq] at h
    exact Nat.le_of_eq h.2.2
  | exp :: rest, ctx, current, g, r, g', ctx', h => by
    rw [walkStats] at h
    split at h
    · exact absurd h (by simp)
    · next current1 g1 ctx1 he =>
      exact (by omega : ∀ a b c : Nat, a + 1 ≤ b → b ≤ c → a ≤ c) _ _ _
        (walk_ctx_le exp _ _ _ _ _ _ _ he) (walkStats_ctx_le rest _ _ _ _ _ _ h)
end

/-- The statement loop of `walk` performs exactly the lowerings that `StatsTrace`
describes. -/
theorem walkStats_iff_trace (stats : List Statement) :
    ∀ (ctx : GlobalState) (b : Nat) (g : CFG) (b' : Nat) (g' : CFG) (ctx' : GlobalState),
      walkStats ctx stats b g = some (b', g', ctx')
        ↔ ∃ temps, StatsTrace ctx stats b g temps b' g' ctx' := by
  induction stats with
  | nil =>
    intro ctx b g b' g' ctx'
    rw [walkStats]
    constructor
    · intro h
      simp only [Option.some.injEq, Prod.mk.injEq] at h
      obtain ⟨rfl, rfl, rfl⟩ := h
      exact ⟨[], StatsTrace.nil _ _ _⟩
    · rintro ⟨temps, ht⟩
      cases ht
      rfl
  | cons exp rest ih =>
    intro ctx b g b' g' ctx'
    rw [walkStats]
    constructor
    · intro h
      split at h
      · exact absurd h (by simp)
      · next b1 g1 ctx1 he =>
        obtain ⟨temps, ht⟩ := (ih ctx1 b1 g1 b' g' ctx').1 h
        exact ⟨_, StatsTrace.cons he ht⟩
    · rintro ⟨temps, ht⟩
      cases ht with
      | cons he hrest =>
        simp only [he]
        exact (ih _ _ _ _ _ _).2 ⟨_, hrest⟩

/-- The temporaries of a statement loop: one per statement, each issued by the allocator
during the loop, in strictly increasing order. -/
theorem StatsTrace.temps_fresh {ctx : Nat} {stats : List Statement} {b : Nat}
    {g : CFG} {temps : List Nat} {b' : Nat} {g' : CFG} {ctx' : Nat}
    (h : StatsTrace ctx stats b g temps b' g' ctx') :
    ctx ≤ ctx' ∧ temps.length = stats.length ∧ (∀ x ∈ temps, ctx ≤ x) ∧ temps.Nodup := by
  induction h with
  | nil ctx b g => exact ⟨le_refl _, rfl, by simp, List.nodup_nil⟩
  | @cons ctx exp rest b g b1 g1 ctx1 temps b2 g2 ctx2 he _ ih =>
    have h1 := walk_ctx_le exp _ _ _ _ _ _ _ he
    obtain ⟨h2, h3, h4, h5⟩ := ih
    refine ⟨(by omega : ∀ a b c : Nat, a + 1 ≤ b → b ≤ c → a ≤ c) _ _ _ h1 h2,
      by simp [h3], ?_, ?_⟩
    · intro x hx
      rcases List.mem_cons.1 hx with hx | hx
      · exact Nat.le_of_eq hx.symm
      · exact (by omega : ∀ a b c : Nat, a + 1 ≤ b → b ≤ c → a ≤ c) _ _ _ h1 (h4 x hx)
    · refine List.nodup_cons.2 ⟨?_, h5⟩
      intro hmem
      exact absurd (h4 _ hmem)
        ((by omega : ∀ a b : Nat, a + 1 ≤ b → ¬ b ≤ a) _ _ h1)

/-- C14: for every `InsSeq(stats, expr)`, starting block `b` and target `t`, `walk` returns
a result exactly when the statements can be lowered as `StatsTrace` describes (in source
order, each into the temporary the allocator issues for it, each starting in the block the
previous lowering returned, the first in `b`) and `expr` can then be lowered with target `t`
starting in the block the last statement returned; the result of `walk` is the result of
that final lowering. The temporaries are one per statement, pairwise distinct, and distinct
from `t` whenever `t` is a symbol that existed before the call (`t < ctx`). -/
theorem walk_insSeq_threads_statements (ctx : GlobalState) (stats : List Statement)
    (expr : Statement) (b : Nat) (g : CFG) (t : Nat) (res : Nat × CFG × GlobalState) :
    (walk ctx (.InsSeq stats expr) b g t = some res
      ↔ ∃ temps b1 g1 ctx1, StatsTrace ctx stats b g temps b1 g1 ctx1
          ∧ walk ctx1 expr b1 g1 t = some res)
    ∧ ∀ temps b1 g1 ctx1, StatsTrace ctx stats b g temps b1 g1 ctx1 →
        temps.length = stats.length ∧ temps.Nodup ∧ (t < ctx → t ∉ temps) := by
  constructor
  · rw [walk]
    constructor
    · intro h
      split at h
      · exact absurd h (by simp)
      · next b1 g1 ctx1 hs =>
        obtain ⟨temps, ht⟩ := (walkStats_iff_trace stats _ _ _ _ _ _).1 hs
        exact ⟨temps, b1, g1, ctx1, ht, h⟩
    · rintro ⟨temps, b1, g1, ctx1, ht, hw⟩
      have hs := (walkStats_iff_trace stats _ _ _ _ _ _).2 ⟨temps, ht⟩
      simp only [hs]
      exact hw
  · intro temps b1 g1 ctx1 ht
    obtain ⟨_, h2, h3, h4⟩ := ht.temps_fresh
    refine ⟨h2, h4, ?_⟩
    intro hlt hmem
    exact absurd (h3 t hmem) (Nat.not_le.2 hlt)

/-- C14 at a concrete input: `(1; 2; 3)` lowered from the entry block of a CFG holding just its two sentinel blocks with
target 0 and the allocator at 2: the two statements are lowered into the temporaries 2 and
3, both starting in the entry block, and the final expression into the target. -/
theorem walk_insSeq_threads_statements_witness :
    ∃ g1 g',
      StatsTrace 2 [.IntLit 1, .IntLit 2] 0 CFG.sentinels [2, 3] 0 g1 4
      ∧ walk 2 (.InsSeq [.IntLit 1, .IntLit 2] (.IntLit 3)) 0 CFG.sentinels 0 = some (0, g', 4)
      ∧ g'.exprs? 0 = some [⟨2, .IntLit 1⟩, ⟨3, .IntLit 2⟩, ⟨0, .IntLit 3⟩]
      ∧ [2, 3].Nodup ∧ 0 ∉ [2, 3] := by
  have ht : StatsTrace 2 [.IntLit 1, .IntLit 2] 0 CFG.sentinels [2, 3] 0
      ((CFG.sentinels.emplaceBack 0 2 (.IntLit 1)).emplaceBack 0 3 (.IntLit 2)) 4 :=
    StatsTrace.cons rfl (StatsTrace.cons rfl (StatsTrace.nil _ _ _))
  have h := walk_insSeq_threads_statements 2 [.IntLit 1, .IntLit 2] (.IntLit 3) 0 CFG.sentinels 0
    (0, ((CFG.sentinels.emplaceBack 0 2 (.IntLit 1)).emplaceBack 0 3 (.IntLit 2)).emplaceBack 0 0
      (.IntLit 3), 4)
  have hp := h.2 _ _ _ _ ht
  exact ⟨_, _, ht, h.1.2 ⟨_, _, _, _, ht, rfl⟩, rfl, hp.2.1, hp.2.2 (by decide)⟩


/-- With the two sentinel blocks pre-created: for every method body, `buildOnSentinels` lowers the body from the entry block of a CFG holding just its two sentinel blocks
with the fresh return temporary `r` as target (hypothesis `hw` is that call); on the block
`cont` returned by that lowering it appends `r' := Return(r)`, with `r'` a second temporary
different from `r`, as the last binding, and sets the exit of `cont` to `Dead`. For a body
that is a single literal (or any other leaf) the result has exactly two blocks and the entry
block holds `[r := literal, r' := Return(r)]` with exit `Dead`. -/
theorem buildOnSentinels_appends_return (ctx : GlobalState) (md : MethodDef) (cont : Nat) (g1 : CFG)
    (ctx1 : GlobalState)
    (hw : walk ctx.newTemporary.2 md.rhs entry { CFG.sentinels with symbol := md.symbol }
      ctx.newTemporary.1 = some (cont, g1, ctx1)) :
    ∃ g l, buildOnSentinels ctx md = some (g, ctx1.newTemporary.2)
      ∧ g1.exprs? cont = some l
      ∧ g.exprs? cont = some (l ++ [⟨ctx1.newTemporary.1, .Return ctx.newTemporary.1⟩])
      ∧ g.exit? cont = some ⟨0, some deadBlock, some deadBlock⟩
      ∧ ctx1.newTemporary.1 ≠ ctx.newTemporary.1
      ∧ ∀ instr, leafInstruction md.rhs = some instr →
          g.size = 2
          ∧ g.block? entry = some ⟨[⟨ctx.newTemporary.1, instr⟩,
              ⟨ctx1.newTemporary.1, .Return ctx.newTemporary.1⟩],
              ⟨0, some deadBlock, some deadBlock⟩⟩ := by
  have hsz : ({ CFG.sentinels with symbol := md.symbol } : CFG).size = 2 := rfl
  have F := (walk_lowered _ _ _ _ _ _ _ _ hw).framed (by omega)
    (by omega : (0 : Nat) < ({ CFG.sentinels with symbol := md.symbol } : CFG).size)
  have hlt : cont < g1.size :=
    F.ret_lt (by omega) (by omega : (0 : Nat) < ({ CFG.sentinels with symbol := md.symbol } : CFG).size)
  obtain ⟨blk, hblk⟩ := exists_block_of_lt hlt
  have hb : buildOnSentinels ctx md
      = some ((g1.emplaceBack cont ctx1.newTemporary.1 (.Return ctx.newTemporary.1)).setDead
          cont, ctx1.newTemporary.2) := by
    unfold buildOnSentinels
    simp only [hw]
  have hctx := walk_ctx_le _ _ _ _ _ _ _ _ hw
  refine ⟨_, blk.exprs, hb, by simp [exprs?, hblk], ?_, exit?_setDead_self (by simpa using hlt),
    ?_, ?_⟩
  · rw [exprs?_setDead, exprs?_emplaceBack, if_pos rfl]
    simp [exprs?, hblk]
  · intro heq
    exact absurd hctx ((by omega : ∀ a b : Nat, b = a → ¬ a + 1 ≤ b) _ _ heq)
  · intro instr hleaf
    have hkey : walk ctx.newTemporary.2 md.rhs entry { CFG.sentinels with symbol := md.symbol }
        ctx.newTemporary.1
        = some (0, ({ CFG.sentinels with symbol := md.symbol } : CFG).emplaceBack 0
            ctx.newTemporary.1 instr, ctx.newTemporary.2) := by
      cases hmd : md.rhs <;> rw [hmd] at hleaf <;>
        simp only [leafInstruction, Option.some.injEq] at hleaf <;>
        first
          | (subst hleaf; rw [walk]; rfl)
          | exact absurd hleaf (by simp)
    rw [hkey] at hw
    simp only [Option.some.injEq, Prod.mk.injEq] at hw
    obtain ⟨rfl, rfl, rfl⟩ := hw
    exact ⟨rfl, rfl⟩

/-- At a concrete input: the method body `42`, with the allocator at 2: the CFG that
`buildOnSentinels` produces has two
blocks and the entry block holds `[2 := IntLit(42), 3 := Return(2)]` with exit `Dead`. -/
theorem buildOnSentinels_appends_return_witness :
    ∃ g, buildOnSentinels 2 ⟨0, .IntLit 42⟩ = some (g, 4)
      ∧ g.size = 2
      ∧ g.block? entry = some ⟨[⟨2, .IntLit 42⟩, ⟨3, .Return 2⟩],
          ⟨0, some deadBlock, some deadBlock⟩⟩ := by
  obtain ⟨g, l, h1, _, _, _, _, h6⟩ := buildOnSentinels_appends_return 2 ⟨0, .IntLit 42⟩ 0 _ 3 rfl
  exact ⟨g, h1, (h6 _ rfl).1, (h6 _ rfl).2⟩

mutual
theorem walk_noReturn_keeps_dead : ∀ (what : Statement) (ctx : GlobalState) (current : Nat)
    (g : CFG) (target r : Nat) (g' : CFG) (ctx' : GlobalState),
    hasReturn what = false → 2 ≤ g.size → current < g.size → current ≠ 1 →
    walk ctx what current g target = some (r, g', ctx') →
    r ≠ 1 ∧ g'.block? 1 = g.block? 1
  | .While cond body, ctx, current, g, target, r, g', ctx', hn, h2, hc, hc1, h => by
    simp only [hasReturn, Bool.or_eq_false_iff] at hn
    rw [walk] at h
    simp only [freshBlock_fst, size_freshBlock] at h
    split at h
    · exact absurd h (by simp)
    · next headerEnd g2 ctx2 hcw =>
      split at h
      · exact absurd h (by simp)
      · next bodyEnd g4 ctx4 hbw =>
        simp only [Option.some.injEq, Prod.mk.injEq] at h
        obtain ⟨rfl, rfl, -⟩ := h
        have e1 : (g.freshBlock.2.setJump current g.size).size = g.size + 1 := by simp
        have e2 : (g2.freshBlock.2.freshBlock.2.setBranch headerEnd ctx.newTemporary.1 g2.size
            (g2.size + 1)).size = g2.size + 2 := by simp
        have F1 := (walk_lowered _ _ _ _ _ _ _ _ hcw).framed (by omega) (by omega)
        have hs1 := F1.size_le
        obtain ⟨a1, a2⟩ := walk_noReturn_keeps_dead cond _ _ _ _ _ _ _ hn.1
          (by omega) (by omega) (by omega) hcw
        obtain ⟨b1, b2⟩ := walk_noReturn_keeps_dead body _ _ _ _ _ _ _ hn.2
          (by omega) (by omega) (by omega) hbw
        refine ⟨by omega, ?_⟩
        rw [block?_emplaceBack_of_ne _ _ (by omega), block?_setJump_of_ne _ (Ne.symm b1), b2,
          block?_setBranch_of_ne _ _ _ (Ne.symm a1), block?_freshBlock_of_lt (by simp; omega),
          block?_freshBlock_of_lt (by omega), a2, block?_setJump_of_ne _ (Ne.symm hc1),
          block?_freshBlock_of_lt (by omega)]
  | .Return expr, ctx, current, g, target, r, g', ctx', hn, h2, hc, hc1, h => by
    simp [hasReturn] at hn
  | .If cond thenp elsep, ctx, current, g, target, r, g', ctx', hn, h2, hc, hc1, h => by
    simp only [hasReturn, Bool.or_eq_false_iff] at hn
    rw [walk] at h
    simp only [freshBlock_fst, size_freshBlock] at h
    split at h
    · exact absurd h (by simp)
    · next cont g1 ctx1 hcw =>
      split at h
      · exact absurd h (by simp)
      · next thenEnd g3 ctx2 htw =>
        split at h
        · exact absurd h (by simp)
        · next elseEnd g4 ctx3 hew =>
          have e1 : g.freshBlock.2.freshBlock.2.size = g.size + 2 := by simp
          have e2 : (((g1.setCond cont ctx.newTemporary.1).setThenb current g.size).setElseb
              current (g.size + 1)).size = g1.size := by simp
          have F1 := (walk_lowered _ _ _ _ _ _ _ _ hcw).framed (by omega) (by omega)
          have hs1 := F1.size_le
          have F2 := (walk_lowered _ _ _ _ _ _ _ _ htw).framed (by omega) (by omega)
          have hs2 := F2.size_le
          have F3 := (walk_lowered _ _ _ _ _ _ _ _ hew).framed (by omega) (by omega)
          have hs3 := F3.size_le
          obtain ⟨a1, a2⟩ := walk_noReturn_keeps_dead cond _ _ _ _ _ _ _ hn.1.1
            (by omega) (by omega) hc1 hcw
          obtain ⟨b1, b2⟩ := walk_noReturn_keeps_dead thenp _ _ _ _ _ _ _ hn.1.2
            (by omega) (by omega) (by omega) htw
          obtain ⟨c1, c2⟩ := walk_noReturn_keeps_dead elsep _ _ _ _ _ _ _ hn.2
            (by omega) (by omega) (by omega) hew
          have hdead : g4.block? 1 = g.block? 1 := by
            rw [c2, b2, block?_setElseb_of_ne _ (Ne.symm hc1),
              block?_setThenb_of_ne _ (Ne.symm hc1), block?_setCond_of_ne _ (Ne.symm a1), a2,
              block?_freshBlock_of_lt (by simp; omega), block?_freshBlock_of_lt (by omega)]
          split at h
          · simp only [Option.some.injEq, Prod.mk.injEq] at h
            obtain ⟨rfl, rfl, -⟩ := h
            refine ⟨by omega, ?_⟩
            rw [block?_setJump_of_ne _ (Ne.symm c1), block?_setJump_of_ne _ (Ne.symm b1),
              block?_freshBlock_of_lt (by omega), hdead]
          · next hd =>
            exact absurd (Or.inl b1) hd
  | .IntLit _, ctx, current, g, target, r, g', ctx', hn, h2, hc, hc1, h => by
    rw [walk] at h
    simp only [Option.some.injEq, Prod.mk.injEq] at h
    obtain ⟨rfl, rfl, -⟩ := h
    exact ⟨hc1, block?_emplaceBack_of_ne _ _ (Ne.symm hc1)⟩
  | .FloatLit _, ctx, current, g, target, r, g', ctx', hn, h2, hc, hc1, h => by
    rw [walk] at h
    simp only [Option.some.injEq, Prod.mk.injEq] at h
    obtain ⟨rfl, rfl, -⟩ := h
    exact ⟨hc1, block?_emplaceBack_of_ne _ _ (Ne.symm hc1)⟩
  | .StringLit _, ctx, current, g, target, r, g', ctx', hn, h2, hc, hc1, h => by
    rw [walk] at h
    simp only [Option.some.injEq, Prod.mk.injEq] at h
    obtain ⟨rfl, rfl, -⟩ := h
    exact ⟨hc1, block?_emplaceBack_of_ne _ _ (Ne.symm hc1)⟩
  | .BoolLit _, ctx, current, g, target, r, g', ctx', hn, h2, hc, hc1, h => by
    rw [walk] at h
    simp only [Option.some.injEq, Prod.mk.injEq] at h
    obtain ⟨rfl, rfl, -⟩ := h
    exact ⟨hc1, block?_emplaceBack_of_ne _ _ (Ne.symm hc1)⟩
  | .ConstantLit _, ctx, current, g, target, r, g', ctx', hn, h2, hc, hc1, h => by
    rw [walk] at h
    simp only [Option.some.injEq, Prod.mk.injEq] at h
    obtain ⟨rfl, rfl, -⟩ := h
    exact ⟨hc1, block?_emplaceBack_of_ne _ _ (Ne.symm hc1)⟩
  | .Ident _, ctx, current, g, target, r, g', ctx', hn, h2, hc, hc1, h => by
    rw [walk] at h
    simp only [Option.some.injEq, Prod.mk.injEq] at h
    obtain ⟨rfl, rfl, -⟩ := h
    exact ⟨hc1, block?_emplaceBack_of_ne _ _ (Ne.symm hc1)⟩
  | .Self _, ctx, current, g, target, r, g', ctx', hn, h2, hc, hc1, h => by
    rw [walk] at h
    simp only [Option.some.injEq, Prod.mk.injEq] at h
    obtain ⟨rfl, rfl, -⟩ := h
    exact ⟨hc1, block?_emplaceBack_of_ne _ _ (Ne.symm hc1)⟩
  | .Other _, ctx, current, g, target, r, g', ctx', hn, h2, hc, hc1, h => by
    rw [walk] at h
    simp only [Option.some.injEq, Prod.mk.injEq] at h
    obtain ⟨rfl, rfl, -⟩ := h
    exact ⟨hc1, block?_emplaceBack_of_ne _ _ (Ne.symm hc1)⟩
  | .Assign lhs rhs, ctx, current, g, target, r, g', ctx', hn, h2, hc, hc1, h => by
    simp only [hasReturn] at hn
    cases lhs with
    | Ident lhsSymbol =>
      rw [walk] at h
      split at h
      · exact absurd h (by simp)
      · next rhsCont g1 ctx1 hr =>
        simp only [Option.some.injEq, Prod.mk.injEq] at h
        obtain ⟨rfl, rfl, -⟩ := h
        obtain ⟨a1, a2⟩ := walk_noReturn_keeps_dead rhs _ _ _ _ _ _ _ hn h2 hc hc1 hr
        exact ⟨a1, by rw [block?_emplaceBack_of_ne _ _ (Ne.symm a1), a2]⟩
    | _ => simp [walk] at h
  | .InsSeq stats expr, ctx, current, g, target, r, g', ctx', hn, h2, hc, hc1, h => by
    simp only [hasReturn, Bool.or_eq_false_iff] at hn
    rw [walk] at h
    split at h
    · exact absurd h (by simp)
    · next current1 g1 ctx1 hs =>
      have F1 := (walkStats_lowered _ _ _ _ _ _ _ hs).framed h2 hc
      have hs1 := F1.size_le
      have hr1 := F1.ret_lt h2 hc
      obtain ⟨a1, a2⟩ := walkStats_noReturn_keeps_dead stats _ _ _ _ _ _ hn.1 h2 hc hc1 hs
      obtain ⟨b1, b2⟩ := walk_noReturn_keeps_dead expr _ _ _ _ _ _ _ hn.2 (by omega) hr1 a1 h
      exact ⟨b1, by rw [b2, a2]⟩
theorem walkStats_noReturn_keeps_dead : ∀ (stats : List Statement) (ctx : GlobalState)
    (current : Nat) (g : CFG) (r : Nat) (g' : CFG) (ctx' : GlobalState),
    hasReturnStats stats = false → 2 ≤ g.size → current < g.size → current ≠ 1 →
    walkStats ctx stats current g = some (r, g', ctx') →
    r ≠ 1 ∧ g'.block? 1 = g.block? 1
  | [], ctx, current, g, r, g', ctx', hn, h2, hc, hc1, h => by
    rw [walkStats] at h
    simp only [Option.some.injEq, Prod.mk.injEq] at h
    obtain ⟨rfl, rfl, -⟩ := h
    exact ⟨hc1, rfl⟩
  | exp :: rest, ctx, current, g, r, g', ctx', hn, h2, hc, hc1, h => by
    simp only [hasReturnStats, Bool.or_eq_false_iff] at hn
    rw [walkStats] at h
    split at h
    · exact absurd h (by simp)
    · next current1 g1 ctx1 he =>
      have F1 := (walk_lowered _ _ _ _ _ _ _ _ he).framed h2 hc
      have hs1 := F1.size_le
      have hr1 := F1.ret_lt h2 hc
      obtain ⟨a1, a2⟩ := walk_noReturn_keeps_dead exp _ _ _ _ _ _ _ hn.1 h2 hc hc1 he
      obtain ⟨b1, b2⟩ := walkStats_noReturn_keeps_dead rest _ _ _ _ _ _ hn.2 (by omega) hr1
        a1 h
      exact ⟨b1, by rw [b2, a2]⟩
end

/-- For the method body `while true do return 1 end` the CFG returned by
`buildOnSentinels` has a dead block whose exit is a jump to the loop header, block 2: the
back-edge of the `While` was stored in the block that lowering the body returned, which is
the dead block. -/
theorem buildOnSentinels_dead_block_exit_overwritten :
    ∃ g ctx',
      buildOnSentinels 2 ⟨0, .While (.BoolLit true) (.Return (.IntLit 1))⟩ = some (g, ctx')
      ∧ g.exit? deadBlock = some ⟨1, some 2, some 2⟩
      ∧ ¬ DeadExit g.exit? deadBlock :=
  ⟨_, _, rfl, rfl, by
    rintro ⟨e, he, hc⟩
    have he' : some (⟨1, some 2, some 2⟩ : BlockExit) = some e := he
    rw [← Option.some.inj he'] at hc
    exact absurd hc (by decide)⟩

/-- With the two sentinel blocks pre-created: for every method body in which no `Return`
occurs, and for every method
body whose lowering returns the dead block, in the CFG returned by `buildOnSentinels` the dead block
has exit `Dead`. (Hypothesis `hw` is the lowering of the body that `buildOnSentinels` performs.) -/
theorem buildOnSentinels_dead_block_exit_dead (ctx : GlobalState) (md : MethodDef) (cont : Nat)
    (g1 : CFG) (ctx1 : GlobalState)
    (hw : walk ctx.newTemporary.2 md.rhs entry { CFG.sentinels with symbol := md.symbol }
      ctx.newTemporary.1 = some (cont, g1, ctx1))
    (hcase : hasReturn md.rhs = false ∨ cont = deadBlock) :
    ∃ g, buildOnSentinels ctx md = some (g, ctx1.newTemporary.2) ∧ DeadExit g.exit? deadBlock := by
  have hsz : ({ CFG.sentinels with symbol := md.symbol } : CFG).size = 2 := rfl
  have h0 : (0 : Nat) < ({ CFG.sentinels with symbol := md.symbol } : CFG).size := by omega
  have F := (walk_lowered _ _ _ _ _ _ _ _ hw).framed (by omega) h0
  have hs := F.size_le
  have hb : buildOnSentinels ctx md
      = some ((g1.emplaceBack cont ctx1.newTemporary.1 (.Return ctx.newTemporary.1)).setDead
          cont, ctx1.newTemporary.2) := by
    unfold buildOnSentinels
    simp only [hw]
  refine ⟨_, hb, ?_⟩
  by_cases hcd : cont = 1
  · subst hcd
    exact ⟨_, exit?_setDead_self (by simp; omega), rfl⟩
  · have hn : hasReturn md.rhs = false := hcase.resolve_right hcd
    obtain ⟨-, a2⟩ := walk_noReturn_keeps_dead md.rhs _ _ _ _ _ _ _ hn (by omega) h0
      (by decide) hw
    refine ⟨BlockExit.unset, ?_, rfl⟩
    show ((g1.emplaceBack cont ctx1.newTemporary.1 (.Return ctx.newTemporary.1)).setDead
      cont).exit? 1 = some BlockExit.unset
    rw [exit?_setDead_of_ne (Ne.symm hcd), exit?_emplaceBack, exit?_of_block? a2]
    rfl

/-- At a concrete input: the method body `while true do 1 end` contains no `Return`, and
the dead block of the CFG that `buildOnSentinels` produces has exit `Dead`. -/
theorem buildOnSentinels_dead_block_exit_dead_witness :
    ∃ g, buildOnSentinels 2 ⟨0, .While (.BoolLit true) (.IntLit 1)⟩ = some (g, 6)
      ∧ DeadExit g.exit? deadBlock :=
  buildOnSentinels_dead_block_exit_dead 2 ⟨0, .While (.BoolLit true) (.IntLit 1)⟩ 4 _ 5 rfl
    (Or.inl rfl)


/-- The graph that `buildOnSentinels` returns is valid: no block other than the dead block continues
to the dead block or to a block that does not exist. -/
theorem buildOnSentinels_valid {ctx : GlobalState} {md : MethodDef} {g : CFG} {ctx' : GlobalState}
    (h : buildOnSentinels ctx md = some (g, ctx')) : Valid g ∧ 2 ≤ g.size := by
  obtain ⟨cont, g1, ctx1, hw, rfl, -⟩ := buildOnSentinels_eq h
  have hl := walk_lowered _ _ _ _ _ _ _ _ hw
  have hsz : ({ CFG.sentinels with symbol := md.symbol } : CFG).size = 2 := rfl
  have h0 : (0 : Nat) < ({ CFG.sentinels with symbol := md.symbol } : CFG).size := by omega
  have hs := (hl.framed (by omega) h0).size_le
  exact ⟨((hl.valid (by omega) h0 (valid_new md.symbol)).emplaceBack _ _ _).setDead _,
    by simp; omega⟩

/-- With the two sentinel blocks pre-created: for every method body, in the CFG returned by
`buildOnSentinels` the dead block is not a
jump or branch successor of any block reachable from the entry block, and so the dead block,
with every binding that lowering after a `Return` attached to it, is not reachable from the
entry block. -/
theorem buildOnSentinels_dead_block_unreachable (ctx : GlobalState) (md : MethodDef) (g : CFG)
    (ctx' : GlobalState) (h : buildOnSentinels ctx md = some (g, ctx')) :
    (∀ b : Nat, Reach g.exit? entry b → ¬ Edge g.exit? b deadBlock)
      ∧ ¬ Reach g.exit? entry deadBlock := by
  obtain ⟨hv, h2⟩ := buildOnSentinels_valid h
  have h0 : (0 : Nat) ≠ 1 := by decide
  constructor
  · intro b hb he
    have hb1 := (hv.reach h0 (by omega) hb).1
    exact (hv.edge hb1 he).1 rfl
  · intro hr
    exact (hv.reach h0 (by omega) hr).1 rfl

/-- At a concrete input: in the CFG that `buildOnSentinels` produces for the method body
`return 1; 2` the binding of `2`
is attached to the dead block, and the dead block is not reachable from the entry block. -/
theorem buildOnSentinels_dead_block_unreachable_witness :
    ∃ g ctx',
      buildOnSentinels 2 ⟨0, .InsSeq [.Return (.IntLit 1)] (.IntLit 2)⟩ = some (g, ctx')
      ∧ g.exprs? deadBlock = some [⟨2, .IntLit 2⟩, ⟨5, .Return 2⟩]
      ∧ ¬ Reach g.exit? entry deadBlock :=
  ⟨_, _, rfl, rfl,
    (buildOnSentinels_dead_block_unreachable 2 ⟨0, .InsSeq [.Return (.IntLit 1)] (.IntLit 2)⟩ _ _
      rfl).2⟩


/-! ## Shapes do not depend on the allocator -/

theorem ShapeEq.size {gA gB : CFG} (h : ShapeEq gA gB) : gB.size = gA.size := by
  have key : ∀ g1 g2 : CFG, ShapeEq g1 g2 → g2.size ≤ g1.size := by
    intro g1 g2 h12
    have h1 : g1.block? g1.size = none := (g1.block?_eq_none_iff _).2 (le_refl _)
    have h2 := h12 g1.size
    unfold CFG.shape? at h2
    rw [h1] at h2
    cases hb : g2.block? g1.size with
    | none => exact (g2.block?_eq_none_iff _).1 hb
    | some blk => rw [hb] at h2; simp at h2
  exact Nat.le_antisymm (key gA gB h) (key gB gA (fun i => (h i).symm))

theorem ShapeEq.congr_modify {gA gB : CFG} (h : ShapeEq gA gB) (b : Nat)
    (fA fB : BasicBlock → BasicBlock)
    (hf : ∀ x y : BasicBlock, x.shape = y.shape → (fA x).shape = (fB y).shape) :
    ShapeEq (gA.modify b fA) (gB.modify b fB) := by
  intro i
  have hi := h i
  unfold CFG.shape? at hi ⊢
  rw [block?_modify, block?_modify]
  split
  · cases hA : gA.block? i with
    | none =>
      rw [hA] at hi
      cases hB : gB.block? i with
      | none => rfl
      | some y => rw [hB] at hi; simp at hi
    | some x =>
      rw [hA] at hi
      cases hB : gB.block? i with
      | none => rw [hB] at hi; simp at hi
      | some y =>
        rw [hB] at hi
        simp only [Option.map_some', Option.some.injEq] at hi ⊢
        exact hf x y hi
  · exact hi

theorem ShapeEq.congr_freshBlock {gA gB : CFG} (h : ShapeEq gA gB) :
    ShapeEq gA.freshBlock.2 gB.freshBlock.2 := by
  intro i
  have hi := h i
  unfold CFG.shape? at hi ⊢
  rw [block?_freshBlock, block?_freshBlock, h.size]
  split
  · rfl
  · exact hi

theorem shape_eq_iff (x y : BasicBlock) :
    x.shape = y.shape ↔
      x.exprs.map (fun b => b.value.variant) = y.exprs.map (fun b => b.value.variant)
      ∧ x.bexit.kind = y.bexit.kind ∧ x.bexit.thenb = y.bexit.thenb
      ∧ x.bexit.elseb = y.bexit.elseb := by
  simp only [BasicBlock.shape, BlockShape.mk.injEq]

theorem ShapeEq.congr_emplaceBack {gA gB : CFG} (h : ShapeEq gA gB) (b sA sB : Nat)
    {vA vB : Instruction} (hv : vA.variant = vB.variant) :
    ShapeEq (gA.emplaceBack b sA vA) (gB.emplaceBack b sB vB) := by
  refine h.congr_modify b _ _ ?_
  intro x y hxy
  rw [shape_eq_iff] at hxy ⊢
  simp only [List.map_append, List.map_cons, List.map_nil]
  exact ⟨by rw [hxy.1, hv], hxy.2⟩

theorem kind_cond (e : BlockExit) (c : Nat) :
    ({ e with cond := c } : BlockExit).kind
      = if c = 0 then ExitKind.Dead else if c = 1 then ExitKind.Jump else ExitKind.Branch :=
  rfl

theorem ShapeEq.congr_setCond {gA gB : CFG} (h : ShapeEq gA gB) (b : Nat) {cA cB : Nat}
    (hA : 2 ≤ cA) (hB : 2 ≤ cB) : ShapeEq (gA.setCond b cA) (gB.setCond b cB) := by
  refine h.congr_modify b _ _ ?_
  intro x y hxy
  rw [shape_eq_iff] at hxy ⊢
  refine ⟨hxy.1, ?_, hxy.2.2⟩
  show ({ x.bexit with cond := cA } : BlockExit).kind
    = ({ y.bexit with cond := cB } : BlockExit).kind
  rw [kind_cond, kind_cond, if_neg (by omega), if_neg (by omega), if_neg (by omega),
    if_neg (by omega)]

theorem ShapeEq.congr_setCond_same {gA gB : CFG} (h : ShapeEq gA gB) (b c : Nat) :
    ShapeEq (gA.setCond b c) (gB.setCond b c) := by
  refine h.congr_modify b _ _ ?_
  intro x y hxy
  rw [shape_eq_iff] at hxy ⊢
  exact ⟨hxy.1, rfl, hxy.2.2⟩

theorem ShapeEq.congr_setThenb {gA gB : CFG} (h : ShapeEq gA gB) (b t : Nat) :
    ShapeEq (gA.setThenb b t) (gB.setThenb b t) := by
  refine h.congr_modify b _ _ ?_
  intro x y hxy
  rw [shape_eq_iff] at hxy ⊢
  exact ⟨hxy.1, hxy.2.1, rfl, hxy.2.2.2⟩

theorem ShapeEq.congr_setElseb {gA gB : CFG} (h : ShapeEq gA gB) (b e : Nat) :
    ShapeEq (gA.setElseb b e) (gB.setElseb b e) := by
  refine h.congr_modify b _ _ ?_
  intro x y hxy
  rw [shape_eq_iff] at hxy ⊢
  exact ⟨hxy.1, hxy.2.1, hxy.2.2.1, rfl⟩

theorem ShapeEq.congr_setJump {gA gB : CFG} (h : ShapeEq gA gB) (b d : Nat) :
    ShapeEq (gA.setJump b d) (gB.setJump b d) :=
  ((h.congr_setCond_same b 1).congr_setElseb b d).congr_setThenb b d

theorem ShapeEq.congr_setDead {gA gB : CFG} (h : ShapeEq gA gB) (b : Nat) :
    ShapeEq (gA.setDead b) (gB.setDead b) :=
  ((h.congr_setCond_same b 0).congr_setThenb b deadBlock).congr_setElseb b deadBlock

theorem ShapeEq.congr_setBranch {gA gB : CFG} (h : ShapeEq gA gB) (b : Nat) {cA cB : Nat}
    (hA : 2 ≤ cA) (hB : 2 ≤ cB) (t e : Nat) :
    ShapeEq (gA.setBranch b cA t e) (gB.setBranch b cB t e) :=
  ((h.congr_setCond b hA hB).congr_setThenb b t).congr_setElseb b e

theorem SameOutcome.cases {a b : Option (BlockRef × CFG × GlobalState)}
    (h : SameOutcome a b) :
    (a = none ∧ b = none)
      ∨ ∃ (r : Nat) (gA : CFG) (cA : Nat) (gB : CFG) (cB : Nat),
          a = some (r, gA, cA) ∧ b = some (r, gB, cB) ∧ ShapeEq gA gB := by
  cases a with
  | none =>
    cases b with
    | none => exact Or.inl ⟨rfl, rfl⟩
    | some y => exact absurd h (by simp [SameOutcome])
  | some x =>
    cases b with
    | none => exact absurd h (by simp [SameOutcome])
    | some y =>
      obtain ⟨rA, gA, cA⟩ := x
      obtain ⟨rB, gB, cB⟩ := y
      have h' : rA = rB ∧ ShapeEq gA gB := h
      obtain ⟨rfl, hs⟩ := h'
      exact Or.inr ⟨_, _, _, _, _, rfl, rfl, hs⟩

theorem SameOutcome.some {r : Nat} {gA gB : CFG} {cA cB : Nat} (h : ShapeEq gA gB) :
    SameOutcome (some (r, gA, cA)) (some (r, gB, cB)) :=
  ⟨rfl, h⟩

theorem le_two_of_le {a b : Nat} (h : 2 ≤ a) (hab : a ≤ b) : 2 ≤ b := by omega

mutual
theorem walk_shape : ∀ (what : Statement) (ctxA ctxB : Nat) (current : Nat) (gA gB : CFG)
    (tA tB : Nat), 2 ≤ ctxA → 2 ≤ ctxB → ShapeEq gA gB →
    SameOutcome (walk ctxA what current gA tA) (walk ctxB what current gB tB)
  | .While cond body, ctxA, ctxB, current, gA, gB, tA, tB, hA, hB, hs => by
    rw [walk, walk]
    simp only [freshBlock_fst, hs.size]
    have hhead : ShapeEq (gA.freshBlock.2.setJump current gA.size)
        (gB.freshBlock.2.setJump current gA.size) := hs.congr_freshBlock.congr_setJump _ _
    have hA1 : 2 ≤ ctxA + 1 := by omega
    have hB1 : 2 ≤ ctxB + 1 := by omega
    rcases (walk_shape cond (ctxA + 1) (ctxB + 1) gA.size _ _ ctxA ctxB hA1 hB1 hhead).cases
      with ⟨e1, e2⟩ | ⟨headerEnd, g2A, c2A, g2B, c2B, e1, e2, hs2⟩
    · simp only [GlobalState.newTemporary] at e1 e2 ⊢
      simp only [e1, e2]
      trivial
    · simp only [GlobalState.newTemporary] at e1 e2 ⊢
      simp only [e1, e2, size_freshBlock, hs2.size]
      have h2A : 2 ≤ c2A + 1 := le_two_of_le hA1 (Nat.le_succ_of_le (walk_ctx_le _ _ _ _ _ _ _ _ e1))
      have h2B : 2 ≤ c2B + 1 := le_two_of_le hB1 (Nat.le_succ_of_le (walk_ctx_le _ _ _ _ _ _ _ _ e2))
      have hbody : ShapeEq
          (g2A.freshBlock.2.freshBlock.2.setBranch headerEnd ctxA g2A.size (g2A.size + 1))
          (g2B.freshBlock.2.freshBlock.2.setBranch headerEnd ctxB g2A.size (g2A.size + 1)) :=
        hs2.congr_freshBlock.congr_freshBlock.congr_setBranch _ hA hB _ _
      rcases (walk_shape body (c2A + 1) (c2B + 1) g2A.size _ _ c2A c2B h2A h2B hbody).cases
        with ⟨e3, e4⟩ | ⟨bodyEnd, g4A, c4A, g4B, c4B, e3, e4, hs4⟩
      · simp only [e3, e4]
        trivial
      · simp only [e3, e4]
        exact SameOutcome.some ((hs4.congr_setJump _ _).congr_emplaceBack _ _ _ rfl)
  | .Return expr, ctxA, ctxB, current, gA, gB, tA, tB, hA, hB, hs => by
    rw [walk, walk]
    have hA1 : 2 ≤ ctxA + 1 := by omega
    have hB1 : 2 ≤ ctxB + 1 := by omega
    rcases (walk_shape expr (ctxA + 1) (ctxB + 1) current gA gB ctxA ctxB hA1 hB1 hs).cases
      with ⟨e1, e2⟩ | ⟨cont, g1A, c1A, g1B, c1B, e1, e2, hs1⟩
    · simp only [GlobalState.newTemporary] at e1 e2 ⊢
      simp only [e1, e2]
      trivial
    · simp only [GlobalState.newTemporary] at e1 e2 ⊢
      simp only [e1, e2]
      refine SameOutcome.some (ShapeEq.congr_setDead (ShapeEq.congr_emplaceBack hs1 _ _ _ ?_) _)
      rfl
  | .If cond thenp elsep, ctxA, ctxB, current, gA, gB, tA, tB, hA, hB, hs => by
    rw [walk, walk]
    simp only [freshBlock_fst, size_freshBlock, hs.size]
    have hA1 : 2 ≤ ctxA + 1 := by omega
    have hB1 : 2 ≤ ctxB + 1 := by omega
    rcases (walk_shape cond (ctxA + 1) (ctxB + 1) current _ _ ctxA ctxB hA1 hB1
      hs.congr_freshBlock.congr_freshBlock).cases
      with ⟨e1, e2⟩ | ⟨cont, g1A, c1A, g1B, c1B, e1, e2, hs1⟩
    · simp only [GlobalState.newTemporary] at e1 e2 ⊢
      simp only [e1, e2]
      trivial
    · simp only [GlobalState.newTemporary] at e1 e2 ⊢
      simp only [e1, e2]
      have h1A : 2 ≤ c1A := le_two_of_le hA1 (walk_ctx_le _ _ _ _ _ _ _ _ e1)
      have h1B : 2 ≤ c1B := le_two_of_le hB1 (walk_ctx_le _ _ _ _ _ _ _ _ e2)
      have hwire : ShapeEq
          (((g1A.setCond cont ctxA).setThenb current gA.size).setElseb current (gA.size + 1))
          (((g1B.setCond cont ctxB).setThenb current gA.size).setElseb current (gA.size + 1)) :=
        ((hs1.congr_setCond _ hA hB).congr_setThenb _ _).congr_setElseb _ _
      rcases (walk_shape thenp c1A c1B gA.size _ _ tA tB h1A h1B hwire).cases
        with ⟨e3, e4⟩ | ⟨thenEnd, g3A, c2A, g3B, c2B, e3, e4, hs3⟩
      · simp only [e3, e4]
        trivial
      · simp only [e3, e4]
        have h2A : 2 ≤ c2A := le_two_of_le h1A (walk_ctx_le _ _ _ _ _ _ _ _ e3)
        have h2B : 2 ≤ c2B := le_two_of_le h1B (walk_ctx_le _ _ _ _ _ _ _ _ e4)
        rcases (walk_shape elsep c2A c2B gA.size _ _ tA tB h2A h2B hs3).cases
          with ⟨e5, e6⟩ | ⟨elseEnd, g4A, c3A, g4B, c3B, e5, e6, hs4⟩
        · simp only [e5, e6]
          trivial
        · simp only [e5, e6, hs4.size]
          split
          · exact SameOutcome.some ((hs4.congr_freshBlock.congr_setJump _ _).congr_setJump _ _)
          · exact SameOutcome.some hs4
  | .IntLit _, ctxA, ctxB, current, gA, gB, tA, tB, hA, hB, hs => by
    rw [walk, walk]
    exact SameOutcome.some (hs.congr_emplaceBack _ _ _ rfl)
  | .FloatLit _, ctxA, ctxB, current, gA, gB, tA, tB, hA, hB, hs => by
    rw [walk, walk]
    exact SameOutcome.some (hs.congr_emplaceBack _ _ _ rfl)
  | .StringLit _, ctxA, ctxB, current, gA, gB, tA, tB, hA, hB, hs => by
    rw [walk, walk]
    exact SameOutcome.some (hs.congr_emplaceBack _ _ _ rfl)
  | .BoolLit _, ctxA, ctxB, current, gA, gB, tA, tB, hA, hB, hs => by
    rw [walk, walk]
    exact SameOutcome.some (hs.congr_emplaceBack _ _ _ rfl)
  | .ConstantLit _, ctxA, ctxB, current, gA, gB, tA, tB, hA, hB, hs => by
    rw [walk, walk]
    exact SameOutcome.some (hs.congr_emplaceBack _ _ _ rfl)
  | .Ident _, ctxA, ctxB, current, gA, gB, tA, tB, hA, hB, hs => by
    rw [walk, walk]
    exact SameOutcome.some (hs.congr_emplaceBack _ _ _ rfl)
  | .Self _, ctxA, ctxB, current, gA, gB, tA, tB, hA, hB, hs => by
    rw [walk, walk]
    exact SameOutcome.some (hs.congr_emplaceBack _ _ _ rfl)
  | .Other _, ctxA, ctxB, current, gA, gB, tA, tB, hA, hB, hs => by
    rw [walk, walk]
    exact SameOutcome.some (hs.congr_emplaceBack _ _ _ rfl)
  | .Assign lhs rhs, ctxA, ctxB, current, gA, gB, tA, tB, hA, hB, hs => by
    cases lhs with
    | Ident lhsSymbol =>
      rw [walk, walk]
      rcases (walk_shape rhs ctxA ctxB current gA gB lhsSymbol lhsSymbol hA hB hs).cases
        with ⟨e1, e2⟩ | ⟨rhsCont, g1A, c1A, g1B, c1B, e1, e2, hs1⟩
      · simp only [e1, e2]
        trivial
      · simp only [e1, e2]
        exact SameOutcome.some (hs1.congr_emplaceBack _ _ _ rfl)
    | _ => simp [walk, SameOutcome]
  | .InsSeq stats expr, ctxA, ctxB, current, gA, gB, tA, tB, hA, hB, hs => by
    rw [walk, walk]
    rcases (walkStats_shape stats ctxA ctxB current gA gB hA hB hs).cases
      with ⟨e1, e2⟩ | ⟨current1, g1A, c1A, g1B, c1B, e1, e2, hs1⟩
    · simp only [e1, e2]
      trivial
    · simp only [e1, e2]
      exact walk_shape expr c1A c1B current1 g1A g1B tA tB
        (le_two_of_le hA (walkStats_ctx_le _ _ _ _ _ _ _ e1))
        (le_two_of_le hB (walkStats_ctx_le _ _ _ _ _ _ _ e2)) hs1
theorem walkStats_shape : ∀ (stats : List Statement) (ctxA ctxB : Nat) (current : Nat)
    (gA gB : CFG), 2 ≤ ctxA → 2 ≤ ctxB → ShapeEq gA gB →
    SameOutcome (walkStats ctxA stats current gA) (walkStats ctxB stats current gB)
  | [], ctxA, ctxB, current, gA, gB, hA, hB, hs => by
    rw [walkStats, walkStats]
    exact SameOutcome.some hs
  | exp :: rest, ctxA, ctxB, current, gA, gB, hA, hB, hs => by
    rw [walkStats, walkStats]
    have hA1 : 2 ≤ ctxA + 1 := by omega
    have hB1 : 2 ≤ ctxB + 1 := by omega
    rcases (walk_shape exp (ctxA + 1) (ctxB + 1) current gA gB ctxA ctxB hA1 hB1 hs).cases
      with ⟨e1, e2⟩ | ⟨current1, g1A, c1A, g1B, c1B, e1, e2, hs1⟩
    · simp only [GlobalState.newTemporary] at e1 e2 ⊢
      simp only [e1, e2]
      trivial
    · simp only [GlobalState.newTemporary] at e1 e2 ⊢
      simp only [e1, e2]
      exact walkStats_shape rest c1A c1B current1 g1A g1B
        (le_two_of_le hA1 (walk_ctx_le _ _ _ _ _ _ _ _ e1))
        (le_two_of_le hB1 (walk_ctx_le _ _ _ _ _ _ _ _ e2)) hs1
end

/-- With the two sentinel blocks pre-created, `buildOnSentinels` is deterministic up to the
names of temporaries. For every method body and
any two states of the temporary allocator that issue no reserved symbol (0 is the no-symbol
value that encodes a dead exit, 1 the always-true value that encodes a jump), the two builds
abort together, and when they return, the two graphs have the same number of blocks and, block
by block at equal indices, the same instruction variants in the same order, the same exit kind
and the same successor blocks. -/
theorem buildOnSentinels_shape_deterministic (ctxA ctxB : Nat) (md : MethodDef)
    (hA : 2 ≤ ctxA) (hB : 2 ≤ ctxB) :
    (buildOnSentinels ctxA md = none ↔ buildOnSentinels ctxB md = none)
      ∧ ∀ (gA : CFG) (cA : GlobalState) (gB : CFG) (cB : GlobalState),
          buildOnSentinels ctxA md = some (gA, cA) → buildOnSentinels ctxB md = some (gB, cB) →
          gA.size = gB.size ∧ ∀ i : Nat, gA.shape? i = gB.shape? i := by
  have hA1 : 2 ≤ ctxA + 1 := by omega
  have hB1 : 2 ≤ ctxB + 1 := by omega
  have hrefl : ShapeEq ({ CFG.sentinels with symbol := md.symbol } : CFG)
      ({ CFG.sentinels with symbol := md.symbol } : CFG) := fun _ => rfl
  unfold buildOnSentinels
  rcases (walk_shape md.rhs (ctxA + 1) (ctxB + 1) 0 _ _ ctxA ctxB hA1 hB1 hrefl).cases
    with ⟨e1, e2⟩ | ⟨cont, g1A, c1A, g1B, c1B, e1, e2, hs1⟩
  · simp only [GlobalState.newTemporary, entry] at e1 e2 ⊢
    simp only [e1, e2]
    simp
  · simp only [GlobalState.newTemporary, entry] at e1 e2 ⊢
    simp only [e1, e2]
    refine ⟨by simp, ?_⟩
    intro gA cA gB cB hgA hgB
    simp only [Option.some.injEq, Prod.mk.injEq] at hgA hgB
    obtain ⟨rfl, -⟩ := hgA
    obtain ⟨rfl, -⟩ := hgB
    have hfin : ShapeEq ((g1A.emplaceBack cont c1A (.Return ctxA)).setDead cont)
        ((g1B.emplaceBack cont c1B (.Return ctxB)).setDead cont) :=
      ShapeEq.congr_setDead (ShapeEq.congr_emplaceBack hs1 _ _ _ (by rfl)) _
    exact ⟨hfin.size.symm, hfin⟩

/-- At a concrete input: the method body `if x then 1 else return 2 end; while y do 3 end`
built by `buildOnSentinels` from allocator states 2 and 7 gives two graphs that differ in their symbols and have the
same shape. -/
theorem buildOnSentinels_shape_deterministic_witness :
    ∃ gA cA gB cB,
      buildOnSentinels 2 ⟨0, .InsSeq [.If (.Ident 40) (.IntLit 1) (.Return (.IntLit 2))]
        (.While (.Ident 41) (.IntLit 3))⟩ = some (gA, cA)
      ∧ buildOnSentinels 7 ⟨0, .InsSeq [.If (.Ident 40) (.IntLit 1) (.Return (.IntLit 2))]
        (.While (.Ident 41) (.IntLit 3))⟩ = some (gB, cB)
      ∧ gA.exprs? entry ≠ gB.exprs? entry
      ∧ gA.size = gB.size ∧ ∀ i : Nat, gA.shape? i = gB.shape? i :=
  ⟨_, _, _, _, rfl, rfl, by decide,
    (buildOnSentinels_shape_deterministic 2 7 ⟨0, .InsSeq [.If (.Ident 40) (.IntLit 1)
      (.Return (.IntLit 2))] (.While (.Ident 41) (.IntLit 3))⟩ (by decide) (by decide)).2
      _ _ _ _ rfl rfl⟩


theorem sum_map_set_add {α : Type} (f : α → Nat) :
    ∀ (l : List α) (i : Nat) (x y : α), l[i]? = some x →
      ((l.set i y).map f).sum + f x = (l.map f).sum + f y
  | [], i, x, y, h => by simp at h
  | a :: l, 0, x, y, h => by
    simp only [List.getElem?_cons_zero, Option.some.injEq] at h
    subst h
    simp only [List.set_cons_zero, List.map_cons, List.sum_cons]
    omega
  | a :: l, i + 1, x, y, h => by
    simp only [List.getElem?_cons_succ] at h
    have ih := sum_map_set_add f l i x y h
    simp only [List.set_cons_succ, List.map_cons, List.sum_cons]
    omega

namespace CFG

theorem bindingCount_freshBlock (g : CFG) : g.freshBlock.2.bindingCount = g.bindingCount := by
  simp [bindingCount, freshBlock, BasicBlock.fresh]

theorem bindingCount_modify_add (g : CFG) (b : Nat) (f : BasicBlock → BasicBlock)
    (blk : BasicBlock) (h : g.block? b = some blk) :
    (g.modify b f).bindingCount + blk.exprs.length
      = g.bindingCount + (f blk).exprs.length := by
  have h' : g.basicBlocks[b]? = some blk := h
  unfold modify bindingCount
  simp only [h']
  exact sum_map_set_add (fun blk => blk.exprs.length) g.basicBlocks b blk (f blk) h'

theorem bindingCount_modify_same (g : CFG) (b : Nat) (f : BasicBlock → BasicBlock)
    (hf : ∀ blk, (f blk).exprs = blk.exprs) : (g.modify b f).bindingCount = g.bindingCount := by
  cases h : g.block? b with
  | none =>
    have h' : g.basicBlocks[b]? = none := h
    unfold modify
    simp only [h']
  | some blk =>
    have := bindingCount_modify_add g b f blk h
    rw [hf blk] at this
    omega

theorem bindingCount_emplaceBack (g : CFG) {b : Nat} (s : Nat) (v : Instruction)
    (h : b < g.size) : (g.emplaceBack b s v).bindingCount = g.bindingCount + 1 := by
  obtain ⟨blk, hblk⟩ := exists_block_of_lt h
  have := bindingCount_modify_add g b
    (fun blk => { blk with exprs := blk.exprs ++ [⟨s, v⟩] }) blk hblk
  simp only [List.length_append, List.length_singleton] at this
  unfold emplaceBack
  omega

@[simp] theorem bindingCount_setCond (g : CFG) (b c : Nat) :
    (g.setCond b c).bindingCount = g.bindingCount :=
  bindingCount_modify_same g b _ (fun _ => rfl)

@[simp] theorem bindingCount_setThenb (g : CFG) (b t : Nat) :
    (g.setThenb b t).bindingCount = g.bindingCount :=
  bindingCount_modify_same g b _ (fun _ => rfl)

@[simp] theorem bindingCount_setElseb (g : CFG) (b e : Nat) :
    (g.setElseb b e).bindingCount = g.bindingCount :=
  bindingCount_modify_same g b _ (fun _ => rfl)

@[simp] theorem bindingCount_setJump (g : CFG) (b d : Nat) :
    (g.setJump b d).bindingCount = g.bindingCount := by simp [setJump]

@[simp] theorem bindingCount_setDead (g : CFG) (b : Nat) :
    (g.setDead b).bindingCount = g.bindingCount := by simp [setDead]

@[simp] theorem bindingCount_setBranch (g : CFG) (b c t e : Nat) :
    (g.setBranch b c t e).bindingCount = g.bindingCount := by simp [setBranch]

end CFG

mutual
theorem walk_bindingCount : ∀ (what : Statement) (ctx : GlobalState) (current : Nat)
    (g : CFG) (target r : Nat) (g' : CFG) (ctx' : GlobalState),
    2 ≤ g.size → current < g.size → walk ctx what current g target = some (r, g', ctx') →
    g'.bindingCount = g.bindingCount + nodeBindings what
  | .While cond body, ctx, current, g, target, r, g', ctx', h2, hc, h => by
    rw [walk] at h
    simp only [freshBlock_fst, size_freshBlock] at h
    split at h
    · exact absurd h (by simp)
    · next headerEnd g2 ctx2 hcw =>
      split at h
      · exact absurd h (by simp)
      · next bodyEnd g4 ctx4 hbw =>
        simp only [Option.some.injEq, Prod.mk.injEq] at h
        obtain ⟨-, rfl, -⟩ := h
        have e1 : (g.freshBlock.2.setJump current g.size).size = g.size + 1 := by simp
        have e2 : (g2.freshBlock.2.freshBlock.2.setBranch headerEnd ctx.newTemporary.1 g2.size
            (g2.size + 1)).size = g2.size + 2 := by simp
        have F1 := (walk_lowered _ _ _ _ _ _ _ _ hcw).framed (by omega) (by omega)
        have hs1 := F1.size_le
        have F2 := (walk_lowered _ _ _ _ _ _ _ _ hbw).framed (by omega) (by omega)
        have hs2 := F2.size_le
        have a := walk_bindingCount cond _ _ _ _ _ _ _ (by omega) (by omega) hcw
        have b := walk_bindingCount body _ _ _ _ _ _ _ (by omega) (by omega) hbw
        rw [CFG.bindingCount_emplaceBack _ _ _ (by simp; omega), CFG.bindingCount_setJump, b,
          CFG.bindingCount_setBranch, CFG.bindingCount_freshBlock,
          CFG.bindingCount_freshBlock, a, CFG.bindingCount_setJump,
          CFG.bindingCount_freshBlock, nodeBindings]
        omega
  | .Return expr, ctx, current, g, target, r, g', ctx', h2, hc, h => by
    rw [walk] at h
    split at h
    · exact absurd h (by simp)
    · next cont g1 ctx1 he =>
      simp only [Option.some.injEq, Prod.mk.injEq] at h
      obtain ⟨-, rfl, -⟩ := h
      have F1 := (walk_lowered _ _ _ _ _ _ _ _ he).framed h2 hc
      have a := walk_bindingCount expr _ _ _ _ _ _ _ h2 hc he
      rw [CFG.bindingCount_setDead, CFG.bindingCount_emplaceBack _ _ _ (F1.ret_lt h2 hc), a,
        nodeBindings]
      omega
  | .If cond thenp elsep, ctx, current, g, target, r, g', ctx', h2, hc, h => by
    rw [walk] at h
    simp only [freshBlock_fst, size_freshBlock] at h
    split at h
    · exact absurd h (by simp)
    · next cont g1 ctx1 hcw =>
      split at h
      · exact absurd h (by simp)
      · next thenEnd g3 ctx2 htw =>
        split at h
        · exact absurd h (by simp)
        · next elseEnd g4 ctx3 hew =>
          have e1 : g.freshBlock.2.freshBlock.2.size = g.size + 2 := by simp
          have e2 : (((g1.setCond cont ctx.newTemporary.1).setThenb current g.size).setElseb
              current (g.size + 1)).size = g1.size := by simp
          have F1 := (walk_lowered _ _ _ _ _ _ _ _ hcw).framed (by omega) (by omega)
          have hs1 := F1.size_le
          have F2 := (walk_lowered _ _ _ _ _ _ _ _ htw).framed (by omega) (by omega)
          have hs2 := F2.size_le
          have a := walk_bindingCount cond _ _ _ _ _ _ _ (by omega) (by omega) hcw
          have b := walk_bindingCount thenp _ _ _ _ _ _ _ (by omega) (by omega) htw
          have c := walk_bindingCount elsep _ _ _ _ _ _ _ (by omega) (by omega) hew
          rw [CFG.bindingCount_setElseb, CFG.bindingCount_setThenb, CFG.bindingCount_setCond,
            a, CFG.bindingCount_freshBlock, CFG.bindingCount_freshBlock] at b
          split at h
          · simp only [Option.some.injEq, Prod.mk.injEq] at h
            obtain ⟨-, rfl, -⟩ := h
            rw [CFG.bindingCount_setJump, CFG.bindingCount_setJump,
              CFG.bindingCount_freshBlock, c, b, nodeBindings]
            omega
          · simp only [Option.some.injEq, Prod.mk.injEq] at h
            obtain ⟨-, rfl, -⟩ := h
            rw [c, b, nodeBindings]
            omega
  | .IntLit _, ctx, current, g, target, r, g', ctx', h2, hc, h => by
    rw [walk] at h
    simp only [Option.some.injEq, Prod.mk.injEq] at h
    obtain ⟨-, rfl, -⟩ := h
    rw [CFG.bindingCount_emplaceBack _ _ _ hc]
    simp [nodeBindings]
  | .FloatLit _, ctx, current, g, target, r, g', ctx', h2, hc, h => by
    rw [walk] at h
    simp only [Option.some.injEq, Prod.mk.injEq] at h
    obtain ⟨-, rfl, -⟩ := h
    rw [CFG.bindingCount_emplaceBack _ _ _ hc]
    simp [nodeBindings]
  | .StringLit _, ctx, current, g, target, r, g', ctx', h2, hc, h => by
    rw [walk] at h
    simp only [Option.some.injEq, Prod.mk.injEq] at h
    obtain ⟨-, rfl, -⟩ := h
    rw [CFG.bindingCount_emplaceBack _ _ _ hc]
    simp [nodeBindings]
  | .BoolLit _, ctx, current, g, target, r, g', ctx', h2, hc, h => by
    rw [walk] at h
    simp only [Option.some.injEq, Prod.mk.injEq] at h
    obtain ⟨-, rfl, -⟩ := h
    rw [CFG.bindingCount_emplaceBack _ _ _ hc]
    simp [nodeBindings]
  | .ConstantLit _, ctx, current, g, target, r, g', ctx', h2, hc, h => by
    rw [walk] at h
    simp only [Option.some.injEq, Prod.mk.injEq] at h
    obtain ⟨-, rfl, -⟩ := h
    rw [CFG.bindingCount_emplaceBack _ _ _ hc]
    simp [nodeBindings]
  | .Ident _, ctx, current, g, target, r, g', ctx', h2, hc, h => by
    rw [walk] at h
    simp only [Option.some.injEq, Prod.mk.injEq] at h
    obtain ⟨-, rfl, -⟩ := h
    rw [CFG.bindingCount_emplaceBack _ _ _ hc]
    simp [nodeBindings]
  | .Self _, ctx, current, g, target, r, g', ctx', h2, hc, h => by
    rw [walk] at h
    simp only [Option.some.injEq, Prod.mk.injEq] at h
    obtain ⟨-, rfl, -⟩ := h
    rw [CFG.bindingCount_emplaceBack _ _ _ hc]
    simp [nodeBindings]
  | .Other _, ctx, current, g, target, r, g', ctx', h2, hc, h => by
    rw [walk] at h
    simp only [Option.some.injEq, Prod.mk.injEq] at h
    obtain ⟨-, rfl, -⟩ := h
    rw [CFG.bindingCount_emplaceBack _ _ _ hc]
    simp [nodeBindings]
  | .Assign lhs rhs, ctx, current, g, target, r, g', ctx', h2, hc, h => by
    cases lhs with
    | Ident lhsSymbol =>
      rw [walk] at h
      split at h
      · exact absurd h (by simp)
      · next rhsCont g1 ctx1 hr =>
        simp only [Option.some.injEq, Prod.mk.injEq] at h
        obtain ⟨-, rfl, -⟩ := h
        have F1 := (walk_lowered _ _ _ _ _ _ _ _ hr).framed h2 hc
        have a := walk_bindingCount rhs _ _ _ _ _ _ _ h2 hc hr
        rw [CFG.bindingCount_emplaceBack _ _ _ (F1.ret_lt h2 hc), a, nodeBindings]
        omega
    | _ => simp [walk] at h
  | .InsSeq stats expr, ctx, current, g, target, r, g', ctx', h2, hc, h => by
    rw [walk] at h
    split at h
    · exact absurd h (by simp)
    · next current1 g1 ctx1 hs =>
      have F1 := (walkStats_lowered _ _ _ _ _ _ _ hs).framed h2 hc
      have hs1 := F1.size_le
      have a := walkStats_bindingCount stats _ _ _ _ _ _ h2 hc hs
      have b := walk_bindingCount expr _ _ _ _ _ _ _ (by omega) (F1.ret_lt h2 hc) h
      rw [b, a, nodeBindings]
      omega
theorem walkStats_bindingCount : ∀ (stats : List Statement) (ctx : GlobalState)
    (current : Nat) (g : CFG) (r : Nat) (g' : CFG) (ctx' : GlobalState),
    2 ≤ g.size → current < g.size → walkStats ctx stats current g = some (r, g', ctx') →
    g'.bindingCount = g.bindingCount + nodeBindingsStats stats
  | [], ctx, current, g, r, g', ctx', h2, hc, h => by
    rw [walkStats] at h
    simp only [Option.some.injEq, Prod.mk.injEq] at h
    obtain ⟨-, rfl, -⟩ := h
    rw [nodeBindingsStats]
    rfl
  | exp :: rest, ctx, current, g, r, g', ctx', h2, hc, h => by
    rw [walkStats] at h
    split at h
    · exact absurd h (by simp)
    · next current1 g1 ctx1 he =>
      have F1 := (walk_lowered _ _ _ _ _ _ _ _ he).framed h2 hc
      have hs1 := F1.size_le
      have a := walk_bindingCount exp _ _ _ _ _ _ _ h2 hc he
      have b := walkStats_bindingCount rest _ _ _ _ _ _ (by omega) (F1.ret_lt h2 hc) h
      rw [b, a, nodeBindingsStats]
      omega
end

/-- With the two sentinel blocks pre-created: for every method body on which
`buildOnSentinels` returns, the total number of bindings
over all blocks of the CFG that `buildOnSentinels` returns is one (the synthesized `Return`) plus the
number of bindings that one visit of every node of the body produces (`nodeBindings`). -/
theorem buildOnSentinels_binding_count (ctx : GlobalState) (md : MethodDef) (g : CFG)
    (ctx' : GlobalState) (h : buildOnSentinels ctx md = some (g, ctx')) :
    g.bindingCount = 1 + nodeBindings md.rhs := by
  obtain ⟨cont, g1, ctx1, hw, rfl, -⟩ := buildOnSentinels_eq h
  have hsz : ({ CFG.sentinels with symbol := md.symbol } : CFG).size = 2 := rfl
  have h0 : (0 : Nat) < ({ CFG.sentinels with symbol := md.symbol } : CFG).size := by omega
  have F := (walk_lowered _ _ _ _ _ _ _ _ hw).framed (by omega) h0
  have a := walk_bindingCount md.rhs _ _ _ _ _ _ _ (by omega) h0 hw
  have hnew : ({ CFG.sentinels with symbol := md.symbol } : CFG).bindingCount = 0 := rfl
  rw [CFG.bindingCount_setDead, CFG.bindingCount_emplaceBack _ _ _ (F.ret_lt (by omega) h0), a,
    hnew]
  omega

/-- At a concrete input, for `buildOnSentinels`: the method body `if true then (while 1 do
x = 2 end) else
return 3 end` has a condition (1 binding), a loop (1 + 1 + 2 bindings) and a return
(2 bindings); its CFG holds 8 bindings. -/
theorem buildOnSentinels_binding_count_witness :
    ∃ g ctx',
      buildOnSentinels 2 ⟨0, .If (.BoolLit true)
          (.While (.IntLit 1) (.Assign (.Ident 100) (.IntLit 2)))
          (.Return (.IntLit 3))⟩ = some (g, ctx')
      ∧ g.bindingCount = 8 :=
  ⟨_, _, rfl, buildOnSentinels_binding_count 2 ⟨0, .If (.BoolLit true)
    (.While (.IntLit 1) (.Assign (.Ident 100) (.IntLit 2))) (.Return (.IntLit 3))⟩ _ _ rfl⟩


/-- C20: `freshBlock` appends exactly one block and returns a reference to it. The returned
index is the number of blocks before the call, the number of blocks grows by one, the new
block has no bindings and a dead exit, and every block allocated before keeps its bindings
and its exit. -/
theorem freshBlock_appends_one_block (g : CFG) :
    g.freshBlock.1 = g.size
      ∧ g.freshBlock.2.size = g.size + 1
      ∧ g.freshBlock.2.basicBlocks = g.basicBlocks ++ [BasicBlock.fresh]
      ∧ g.freshBlock.2.exprs? g.freshBlock.1 = some []
      ∧ DeadExit g.freshBlock.2.exit? g.freshBlock.1
      ∧ (∀ i : Nat, i < g.size → g.freshBlock.2.block? i = g.block? i)
      ∧ (∀ i : Nat, i < g.size → g.freshBlock.2.exprs? i = g.exprs? i
          ∧ g.freshBlock.2.exit? i = g.exit? i) := by
  have hself : g.freshBlock.2.block? g.freshBlock.1 = some BasicBlock.fresh := by
    rw [block?_freshBlock, freshBlock_fst, if_pos rfl]
  have hold : ∀ i : Nat, i < g.size → g.freshBlock.2.block? i = g.block? i :=
    fun i hi => block?_freshBlock_of_lt hi
  refine ⟨rfl, by simp, rfl, ?_, ?_, hold, ?_⟩
  · unfold CFG.exprs?
    rw [hself]
    rfl
  · unfold DeadExit CFG.exit?
    rw [hself]
    exact ⟨_, rfl, rfl⟩
  · intro i hi
    have hb := hold i hi
    unfold CFG.exprs? CFG.exit?
    rw [hb]
    exact ⟨rfl, rfl⟩


/-! ## Lowering only appends -/

theorem AppendOnly.rfl (g : CFG) : AppendOnly g g :=
  ⟨le_refl _, fun _ l h => ⟨[], by rw [h, List.append_nil]⟩⟩

theorem AppendOnly.trans {g1 g2 g3 : CFG} (h12 : AppendOnly g1 g2) (h23 : AppendOnly g2 g3) :
    AppendOnly g1 g3 := by
  refine ⟨Nat.le_trans h12.1 h23.1, ?_⟩
  intro i l h
  obtain ⟨t, ht⟩ := h12.2 i l h
  obtain ⟨u, hu⟩ := h23.2 i _ ht
  exact ⟨t ++ u, by rw [hu, List.append_assoc]⟩

theorem AppendOnly.of_exprs {g1 g2 : CFG} (hs : g1.size ≤ g2.size)
    (h : ∀ i : Nat, g2.exprs? i = g1.exprs? i) : AppendOnly g1 g2 :=
  ⟨hs, fun i l hl => ⟨[], by rw [h i, hl, List.append_nil]⟩⟩

theorem appendOnly_freshBlock (g : CFG) : AppendOnly g g.freshBlock.2 := by
  refine ⟨by simp, ?_⟩
  intro i l h
  have hi : i < g.size := by
    have h1 : (g.block? i).isSome := by
      unfold CFG.exprs? at h
      cases hb : g.block? i with
      | none => rw [hb] at h; simp at h
      | some blk => rfl
    exact (g.block?_isSome_iff i).1 h1
  refine ⟨[], ?_⟩
  rw [CFG.exprs?_freshBlock, if_neg (by omega), h, List.append_nil]

theorem appendOnly_emplaceBack (g : CFG) (b s : Nat) (v : Instruction) :
    AppendOnly g (g.emplaceBack b s v) := by
  refine ⟨by simp, ?_⟩
  intro i l h
  rw [CFG.exprs?_emplaceBack]
  split
  · exact ⟨[⟨s, v⟩], by rw [h]; rfl⟩
  · exact ⟨[], by rw [h, List.append_nil]⟩

theorem appendOnly_setJump (g : CFG) (b d : Nat) : AppendOnly g (g.setJump b d) :=
  AppendOnly.of_exprs (by simp) (fun i => by simp)

theorem appendOnly_setDead (g : CFG) (b : Nat) : AppendOnly g (g.setDead b) :=
  AppendOnly.of_exprs (by simp) (fun i => by simp)

theorem appendOnly_setBranch (g : CFG) (b c t e : Nat) :
    AppendOnly g (g.setBranch b c t e) :=
  AppendOnly.of_exprs (by simp) (fun i => by simp)

theorem appendOnly_ifWire (g : CFG) (cont current c t e : Nat) :
    AppendOnly g (((g.setCond cont c).setThenb current t).setElseb current e) :=
  AppendOnly.of_exprs (by simp) (fun i => by simp)

theorem Lowered.appendOnly {g g' : CFG} {current r : Nat} (h : Lowered g current g' r) :
    AppendOnly g g' := by
  induction h with
  | nop g current => exact AppendOnly.rfl g
  | emplace s v _ ih => exact ih.trans (appendOnly_emplaceBack _ _ _ _)
  | seq _ _ ih1 ih2 => exact ih1.trans ih2
  | ret s v _ ih =>
    exact (ih.trans (appendOnly_emplaceBack _ _ _ _)).trans (appendOnly_setDead _ _)
  | whileLoop c s _ _ ih1 ih2 =>
    exact ((((((appendOnly_freshBlock _).trans (appendOnly_setJump _ _ _)).trans ih1).trans
      (((appendOnly_freshBlock _).trans (appendOnly_freshBlock _)).trans
        (appendOnly_setBranch _ _ _ _ _))).trans ih2).trans
      (appendOnly_setJump _ _ _)).trans (appendOnly_emplaceBack _ _ _ _)
  | ifJoin c _ _ _ _ ih1 ih2 ih3 =>
    exact ((((((appendOnly_freshBlock _).trans (appendOnly_freshBlock _)).trans ih1).trans
      (appendOnly_ifWire _ _ _ _ _ _)).trans ih2).trans ih3).trans
      (((appendOnly_freshBlock _).trans (appendOnly_setJump _ _ _)).trans
        (appendOnly_setJump _ _ _))
  | ifDead c _ _ _ ih1 ih2 ih3 =>
    exact (((((appendOnly_freshBlock _).trans (appendOnly_freshBlock _)).trans ih1).trans
      (appendOnly_ifWire _ _ _ _ _ _)).trans ih2).trans ih3

/-- C21: `walk` only appends. For every node, starting block and target on which `walk`
completes, on a graph that has its two sentinel blocks and from a starting block of that
graph: the number of blocks does not decrease, every block that existed before the call
exists afterwards at the same index with its earlier bindings at the front of its binding
list (its new binding list is the earlier one followed by some list `t`), and the block that `walk` returns is a block of the resulting graph. -/
theorem walk_append_only (ctx : GlobalState) (what : Statement) (current : Nat) (g : CFG)
    (target : Nat) (r : Nat) (g' : CFG) (ctx' : GlobalState)
    (h2 : 2 ≤ g.size) (hc : current < g.size)
    (h : walk ctx what current g target = some (r, g', ctx')) :
    g.size ≤ g'.size
      ∧ (∀ i : Nat, i < g.size →
          ∃ l t, g.exprs? i = some l ∧ g'.exprs? i = some (l ++ t))
      ∧ r < g'.size := by
  have hl := walk_lowered _ _ _ _ _ _ _ _ h
  have ha := hl.appendOnly
  refine ⟨ha.1, ?_, (hl.framed h2 hc).ret_lt h2 hc⟩
  intro i hi
  obtain ⟨blk, hb⟩ := CFG.exists_block_of_lt hi
  have hl1 : g.exprs? i = some blk.exprs := by
    unfold CFG.exprs?
    rw [hb]
    rfl
  obtain ⟨t, ht⟩ := ha.2 i _ hl1
  exact ⟨_, t, hl1, ht⟩

/-- C21 at a concrete input: lowering `while x do (if y then 1 else return 2 end) end` from
the entry block of a graph whose entry block already holds the binding `7 := self` keeps
that binding first in the entry block, adds blocks, and returns one of them. -/
theorem walk_append_only_witness :
    ∃ g' r ctx',
      walk 2 (.While (.Ident 40) (.If (.Ident 41) (.IntLit 1) (.Return (.IntLit 2)))) entry
        (CFG.sentinels.emplaceBack entry 7 (.Self 0)) 9 = some (r, g', ctx')
      ∧ (CFG.sentinels.emplaceBack entry 7 (.Self 0)).size = 2 ∧ g'.size = 8 ∧ r = 4
      ∧ g'.exprs? entry = some [⟨7, .Self 0⟩]
      ∧ (∀ i : Nat, i < (CFG.sentinels.emplaceBack entry 7 (.Self 0)).size →
          ∃ l t, (CFG.sentinels.emplaceBack entry 7 (.Self 0)).exprs? i = some l
            ∧ g'.exprs? i = some (l ++ t)) :=
  ⟨_, _, _, rfl, rfl, rfl, rfl, rfl,
    (walk_append_only 2 (.While (.Ident 40) (.If (.Ident 41) (.IntLit 1)
      (.Return (.IntLit 2)))) entry (CFG.sentinels.emplaceBack entry 7 (.Self 0)) 9 _ _ _
      (by decide) (by decide) rfl).2.1⟩


/-! ## What the printing functions print between arguments -/

theorem printArgs_first (names : NameTable) (args : List SymbolRef) (buf : String) :
    printArgs names args buf true = buf ++ concatNames (args.map names.symbolName) := by
  induction args generalizing buf with
  | nil => simp [printArgs, concatNames]
  | cons a rest ih =>
    simp only [printArgs, Bool.not_true, Bool.false_eq_true, if_false, List.map_cons,
      concatNames]
    rw [ih, String.append_assoc]

theorem length_concatNames (l : List String) :
    (concatNames l).length = (l.map String.length).sum := by
  induction l with
  | nil => rfl
  | cons a rest ih => simp [concatNames, ih]

theorem length_separated (l : List String) :
    (separated l).length + 2 = (l.map String.length).sum + 2 * l.length ∨ l = [] := by
  induction l with
  | nil => exact Or.inr rfl
  | cons a rest ih =>
    left
    cases rest with
    | nil => simp [separated]
    | cons b rest =>
      rcases ih with ih | ih
      · simp only [separated, String.length_append, List.map_cons, List.sum_cons,
          List.length_cons] at ih ⊢
        have : (" ," : String).length = 2 := by decide
        omega
      · simp at ih

theorem concatNames_ne_separated (pre : String) (l : List String) (h : 2 ≤ l.length) :
    pre ++ concatNames l ++ ")" ≠ pre ++ separated l ++ ")" := by
  intro he
  have hlen := congrArg String.length he
  simp only [String.length_append, length_concatNames] at hlen
  rcases length_separated l with h1 | h1
  · omega
  · subst h1
    simp at h

/-- C22 (the code breaks it): the printing functions of `New`, `Super` and `Send` never
print the separator. For every name table and every argument list the rendering is the
opening text, then the argument names one after the other with nothing between them, then
`)`; so for every argument list of two or more arguments it is not the rendering with
`" ,"` between consecutive arguments. With the symbols 1, 2, 3, 4 named `a`, `bc`, `ab`,
`c` the argument list `[1, 2]` renders as `new C(abc)`, `super(abc)` and `C.m(abc)`, not as
`new C(a ,bc)`, and the different argument list `[3, 4]` renders to the same texts. -/
theorem toString_prints_no_separator :
    (∀ (names : NameTable) (claz : SymbolRef) (args : List SymbolRef),
        New.toString names claz args
          = "new " ++ names.symbolName claz ++ "("
              ++ concatNames (args.map names.symbolName) ++ ")")
      ∧ (∀ (names : NameTable) (args : List SymbolRef),
        Super.toString names args
          = "super(" ++ concatNames (args.map names.symbolName) ++ ")")
      ∧ (∀ (names : NameTable) (recv : SymbolRef) (func : NameRef) (args : List SymbolRef),
        Send.toString names recv func args
          = names.symbolName recv ++ "." ++ names.nameText func ++ "("
              ++ concatNames (args.map names.symbolName) ++ ")")
      ∧ (∀ (names : NameTable) (claz : SymbolRef) (args : List SymbolRef),
        2 ≤ args.length →
        New.toString names claz args
          ≠ "new " ++ names.symbolName claz ++ "("
              ++ separated (args.map names.symbolName) ++ ")")
      ∧ (∀ (names : NameTable) (args : List SymbolRef),
        2 ≤ args.length →
        Super.toString names args
          ≠ "super(" ++ separated (args.map names.symbolName) ++ ")")
      ∧ (∀ (names : NameTable) (recv : SymbolRef) (func : NameRef) (args : List SymbolRef),
        2 ≤ args.length →
        Send.toString names recv func args
          ≠ names.symbolName recv ++ "." ++ names.nameText func ++ "("
              ++ separated (args.map names.symbolName) ++ ")")
      ∧ New.toString exampleNames 0 [1, 2] = "new C(abc)"
      ∧ "new C(" ++ separated ([1, 2].map exampleNames.symbolName) ++ ")" = "new C(a ,bc)"
      ∧ New.toString exampleNames 0 [3, 4] = "new C(abc)"
      ∧ Super.toString exampleNames [1, 2] = "super(abc)"
      ∧ Super.toString exampleNames [3, 4] = "super(abc)"
      ∧ Send.toString exampleNames 0 0 [1, 2] = "C.m(abc)"
      ∧ Send.toString exampleNames 0 0 [3, 4] = "C.m(abc)" := by
  have hN : ∀ (names : NameTable) (claz : SymbolRef) (args : List SymbolRef),
      New.toString names claz args
        = "new " ++ names.symbolName claz ++ "("
            ++ concatNames (args.map names.symbolName) ++ ")" := by
    intro names claz args
    unfold New.toString
    simp only [printArgs_first]
  have hS : ∀ (names : NameTable) (args : List SymbolRef),
      Super.toString names args
        = "super(" ++ concatNames (args.map names.symbolName) ++ ")" := by
    intro names args
    unfold Super.toString
    simp only [printArgs_first]
  have hD : ∀ (names : NameTable) (recv : SymbolRef) (func : NameRef)
      (args : List SymbolRef),
      Send.toString names recv func args
        = names.symbolName recv ++ "." ++ names.nameText func ++ "("
            ++ concatNames (args.map names.symbolName) ++ ")" := by
    intro names recv func args
    unfold Send.toString
    simp only [printArgs_first]
  refine ⟨hN, hS, hD, ?_, ?_, ?_, by decide, by decide, by decide, by decide, by decide,
    by decide, by decide⟩
  · intro names claz args h
    rw [hN]
    exact concatNames_ne_separated _ _ (by rw [List.length_map]; exact h)
  · intro names args h
    rw [hS]
    exact concatNames_ne_separated _ _ (by rw [List.length_map]; exact h)
  · intro names recv func args h
    rw [hD]
    exact concatNames_ne_separated _ _ (by rw [List.length_map]; exact h)


/-! ## The constructor of the source creates no block -/

namespace CFGSlots

theorem modify_of_null {g : CFGSlots} {b : Nat} (h : g.basicBlocks[b]? = some none)
    (f : BasicBlock → BasicBlock) : g.modify b f = .error .nullDeref := by
  unfold modify block?
  rw [h]

theorem emplaceBack_of_null {g : CFGSlots} {b : Nat} (h : g.basicBlocks[b]? = some none)
    (s : Nat) (v : Instruction) : g.emplaceBack b s v = .error .nullDeref :=
  modify_of_null h _

theorem setJump_of_null {g : CFGSlots} {b : Nat} (h : g.basicBlocks[b]? = some none)
    (d : Nat) : g.setJump b d = .error .nullDeref := by
  unfold setJump setCond
  rw [modify_of_null h]

theorem freshBlock_null {g : CFGSlots} {b : Nat} (h : g.basicBlocks[b]? = some none) :
    g.freshBlock.2.basicBlocks[b]? = some none := by
  have hb : b < g.basicBlocks.length := by
    by_contra hn
    rw [List.getElem?_eq_none (by omega)] at h
    exact absurd h (by simp)
  show (g.basicBlocks ++ [some BasicBlock.fresh])[b]? = some none
  rw [List.getElem?_append_left hb]
  exact h

mutual
theorem walk_null_current : ∀ (what : Statement) (ctx : GlobalState) (current : Nat)
    (g : CFGSlots) (target : Nat), g.basicBlocks[current]? = some none →
    ∃ f, walk ctx what current g target = .error f
  | .While cond body, ctx, current, g, target, h => by
    rw [walk]
    simp only [setJump_of_null (freshBlock_null h)]
    exact ⟨_, rfl⟩
  | .Return expr, ctx, current, g, target, h => by
    obtain ⟨f, hf⟩ := walk_null_current expr ctx.newTemporary.2 current g ctx.newTemporary.1 h
    rw [walk]
    simp only [hf]
    exact ⟨_, rfl⟩
  | .If cond thenp elsep, ctx, current, g, target, h => by
    obtain ⟨f, hf⟩ := walk_null_current cond ctx.newTemporary.2 current
      g.freshBlock.2.freshBlock.2 ctx.newTemporary.1 (freshBlock_null (freshBlock_null h))
    rw [walk]
    simp only [hf]
    exact ⟨_, rfl⟩
  | .IntLit _, ctx, current, g, target, h => by
    rw [walk]
    simp only [emplaceBack_of_null h]
    exact ⟨_, rfl⟩
  | .FloatLit _, ctx, current, g, target, h => by
    rw [walk]
    simp only [emplaceBack_of_null h]
    exact ⟨_, rfl⟩
  | .StringLit _, ctx, current, g, target, h => by
    rw [walk]
    simp only [emplaceBack_of_null h]
    exact ⟨_, rfl⟩
  | .BoolLit _, ctx, current, g, target, h => by
    rw [walk]
    simp only [emplaceBack_of_null h]
    exact ⟨_, rfl⟩
  | .ConstantLit _, ctx, current, g, target, h => by
    rw [walk]
    simp only [emplaceBack_of_null h]
    exact ⟨_, rfl⟩
  | .Ident _, ctx, current, g, target, h => by
    rw [walk]
    simp only [emplaceBack_of_null h]
    exact ⟨_, rfl⟩
  | .Self _, ctx, current, g, target, h => by
    rw [walk]
    simp only [emplaceBack_of_null h]
    exact ⟨_, rfl⟩
  | .Other _, ctx, current, g, target, h => by
    rw [walk]
    simp only [emplaceBack_of_null h]
    exact ⟨_, rfl⟩
  | .Assign lhs rhs, ctx, current, g, target, h => by
    cases lhs with
    | Ident lhsSymbol =>
      obtain ⟨f, hf⟩ := walk_null_current rhs ctx current g lhsSymbol h
      rw [walk]
      simp only [hf]
      exact ⟨_, rfl⟩
    | _ => exact ⟨.abort, by simp [walk]⟩
  | .InsSeq stats expr, ctx, current, g, target, h => by
    rw [walk]
    rcases walkStats_null_current stats ctx current g h with ⟨f, hf⟩ | hf
    · simp only [hf]
      exact ⟨_, rfl⟩
    · simp only [hf]
      exact walk_null_current expr ctx current g target h
theorem walkStats_null_current : ∀ (stats : List Statement) (ctx : GlobalState)
    (current : Nat) (g : CFGSlots), g.basicBlocks[current]? = some none →
    (∃ f, walkStats ctx stats current g = .error f)
      ∨ walkStats ctx stats current g = .ok (current, g, ctx)
  | [], ctx, current, g, h => by
    right
    rw [walkStats]
  | exp :: rest, ctx, current, g, h => by
    left
    obtain ⟨f, hf⟩ := walk_null_current exp ctx.newTemporary.2 current g ctx.newTemporary.1 h
    rw [walkStats]
    simp only [hf]
    exact ⟨_, rfl⟩
end

/-- With the constructor of the source, `buildFor` returns no CFG, whatever the method
body: the lowering starts from `entry()`, which is a null pointer, and ends at the first
store through it or at the abort of `Error::check`. -/
theorem buildFor_fails (ctx : GlobalState) (md : MethodDef) :
    ∃ f, buildFor ctx md = .error f := by
  have h0 : ({ CFGSlots.new with symbol := md.symbol } : CFGSlots).basicBlocks[entry]?
      = some none := rfl
  obtain ⟨f, hf⟩ := walk_null_current md.rhs ctx.newTemporary.2 entry _ ctx.newTemporary.1 h0
  unfold buildFor
  simp only [hf]
  exact ⟨_, rfl⟩

theorem buildFor_ne_ok (ctx : GlobalState) (md : MethodDef) (r : CFGSlots × GlobalState) :
    buildFor ctx md ≠ .ok r := by
  obtain ⟨f, hf⟩ := buildFor_fails ctx md
  rw [hf]
  exact fun h => by cases h

end CFGSlots


/-! ## On storage whose slots all hold a block, the lowering of the source is `walk` -/

namespace CFG

theorem toSlots_freshBlock (g : CFG) :
    g.toSlots.freshBlock = (g.freshBlock.1, g.freshBlock.2.toSlots) := by
  simp [CFGSlots.freshBlock, freshBlock, toSlots]

theorem toSlots_freshBlock_fst (g : CFG) : g.toSlots.freshBlock.1 = g.size := by
  rw [toSlots_freshBlock]
  rfl

theorem toSlots_freshBlock_snd (g : CFG) : g.toSlots.freshBlock.2 = g.freshBlock.2.toSlots := by
  rw [toSlots_freshBlock]

theorem toSlots_modify {g : CFG} {b : Nat} (h : b < g.size) (f : BasicBlock → BasicBlock) :
    g.toSlots.modify b f = .ok (g.modify b f).toSlots := by
  obtain ⟨blk, hb⟩ := exists_block_of_lt h
  unfold block? at hb
  unfold CFGSlots.modify CFGSlots.block? modify toSlots
  simp only [List.getElem?_map, hb, Option.map_some', List.map_set]

theorem toSlots_emplaceBack {g : CFG} {b : Nat} (h : b < g.size) (s : Nat)
    (v : Instruction) : g.toSlots.emplaceBack b s v = .ok (g.emplaceBack b s v).toSlots :=
  toSlots_modify h _

theorem toSlots_setCond {g : CFG} {b : Nat} (h : b < g.size) (c : Nat) :
    g.toSlots.setCond b c = .ok (g.setCond b c).toSlots :=
  toSlots_modify h _

theorem toSlots_setThenb {g : CFG} {b : Nat} (h : b < g.size) (t : Nat) :
    g.toSlots.setThenb b t = .ok (g.setThenb b t).toSlots :=
  toSlots_modify h _

theorem toSlots_setElseb {g : CFG} {b : Nat} (h : b < g.size) (e : Nat) :
    g.toSlots.setElseb b e = .ok (g.setElseb b e).toSlots :=
  toSlots_modify h _

theorem toSlots_setJump {g : CFG} {b : Nat} (h : b < g.size) (d : Nat) :
    g.toSlots.setJump b d = .ok (g.setJump b d).toSlots := by
  unfold CFGSlots.setJump setJump
  rw [toSlots_setCond h]
  simp only
  rw [toSlots_setElseb (by simp; exact h)]
  simp only
  rw [toSlots_setThenb (by simp; exact h)]

theorem toSlots_setDead {g : CFG} {b : Nat} (h : b < g.size) :
    g.toSlots.setDead b = .ok (g.setDead b).toSlots := by
  unfold CFGSlots.setDead setDead
  rw [toSlots_setCond h]
  simp only
  rw [toSlots_setThenb (by simp; exact h)]
  simp only
  rw [toSlots_setElseb (by simp; exact h)]

theorem toSlots_setBranch {g : CFG} {b : Nat} (h : b < g.size) (c t e : Nat) :
    g.toSlots.setBranch b c t e = .ok (g.setBranch b c t e).toSlots := by
  unfold CFGSlots.setBranch setBranch
  rw [toSlots_setCond h]
  simp only
  rw [toSlots_setThenb (by simp; exact h)]
  simp only
  rw [toSlots_setElseb (by simp; exact h)]

end CFG

theorem walk_ret_lt {ctx : GlobalState} {what : Statement} {current : Nat} {g : CFG}
    {target r : Nat} {g' : CFG} {ctx' : GlobalState} (h2 : 2 ≤ g.size)
    (hc : current < g.size) (h : walk ctx what current g target = some (r, g', ctx')) :
    r < g'.size ∧ g.size ≤ g'.size := by
  have F := (walk_lowered _ _ _ _ _ _ _ _ h).framed h2 hc
  exact ⟨F.ret_lt h2 hc, F.size_le⟩

theorem walkStats_ret_lt {ctx : GlobalState} {stats : List Statement} {current : Nat}
    {g : CFG} {r : Nat} {g' : CFG} {ctx' : GlobalState} (h2 : 2 ≤ g.size)
    (hc : current < g.size) (h : walkStats ctx stats current g = some (r, g', ctx')) :
    r < g'.size ∧ g.size ≤ g'.size := by
  have F := (walkStats_lowered _ _ _ _ _ _ _ h).framed h2 hc
  exact ⟨F.ret_lt h2 hc, F.size_le⟩

mutual
theorem walk_toSlots : ∀ (what : Statement) (ctx : GlobalState) (current : Nat) (g : CFG)
    (target : Nat), 2 ≤ g.size → current < g.size →
    CFGSlots.walk ctx what current g.toSlots target
      = toSlotsResult (walk ctx what current g target)
  | .While cond body, ctx, current, g, target, h2, hc => by
    rw [CFGSlots.walk, walk]
    simp only [CFG.toSlots_freshBlock_fst, CFG.toSlots_freshBlock_snd, freshBlock_fst]
    have e1 : g.freshBlock.2.size = g.size + 1 := by simp
    have e2 : (g.freshBlock.2.setJump current g.size).size = g.size + 1 := by simp
    rw [CFG.toSlots_setJump (by omega : current < g.freshBlock.2.size)]
    simp only
    rw [walk_toSlots cond ctx.newTemporary.2 g.size (g.freshBlock.2.setJump current g.size)
      ctx.newTemporary.1 (by omega) (by omega)]
    cases hw : walk ctx.newTemporary.2 cond g.size (g.freshBlock.2.setJump current g.size)
        ctx.newTemporary.1 with
    | none => rfl
    | some res =>
      obtain ⟨headerEnd, g2, ctx2⟩ := res
      obtain ⟨hr, hs⟩ := walk_ret_lt (by omega) (by omega) hw
      simp only [toSlotsResult, CFG.toSlots_freshBlock_fst, CFG.toSlots_freshBlock_snd,
        size_freshBlock]
      have e3 : g2.freshBlock.2.freshBlock.2.size = g2.size + 2 := by simp
      have e4 : (g2.freshBlock.2.freshBlock.2.setBranch headerEnd ctx.newTemporary.1 g2.size
          (g2.size + 1)).size = g2.size + 2 := by simp
      rw [CFG.toSlots_setBranch (Nat.lt_of_lt_of_le hr
        (by omega : g2.size ≤ g2.freshBlock.2.freshBlock.2.size))]
      simp only
      rw [walk_toSlots body ctx2.newTemporary.2 g2.size
        (g2.freshBlock.2.freshBlock.2.setBranch headerEnd ctx.newTemporary.1 g2.size
          (g2.size + 1)) ctx2.newTemporary.1 (by omega) (by omega)]
      cases hb : walk ctx2.newTemporary.2 body g2.size
          (g2.freshBlock.2.freshBlock.2.setBranch headerEnd ctx.newTemporary.1 g2.size
            (g2.size + 1)) ctx2.newTemporary.1 with
      | none => rfl
      | some res2 =>
        obtain ⟨bodyEnd, g4, ctx4⟩ := res2
        obtain ⟨hr4, hs4⟩ := walk_ret_lt (by omega) (by omega) hb
        simp only [toSlotsResult]
        rw [CFG.toSlots_setJump hr4]
        simp only
        have e5 : (g4.setJump bodyEnd g.size).size = g4.size := by simp
        rw [CFG.toSlots_emplaceBack
          (by omega : g2.size + 1 < (g4.setJump bodyEnd g.size).size)]
  | .Return expr, ctx, current, g, target, h2, hc => by
    rw [CFGSlots.walk, walk]
    rw [walk_toSlots expr ctx.newTemporary.2 current g ctx.newTemporary.1 h2 hc]
    cases hw : walk ctx.newTemporary.2 expr current g ctx.newTemporary.1 with
    | none => rfl
    | some res =>
      obtain ⟨cont, g1, ctx1⟩ := res
      obtain ⟨hr, hs⟩ := walk_ret_lt h2 hc hw
      simp only [toSlotsResult]
      rw [CFG.toSlots_emplaceBack hr]
      simp only
      have e1 : (g1.emplaceBack cont target (.Return ctx.newTemporary.1)).size = g1.size := by
        simp
      rw [CFG.toSlots_setDead
        (Nat.lt_of_lt_of_le hr (by omega :
          g1.size ≤ (g1.emplaceBack cont target (.Return ctx.newTemporary.1)).size))]
  | .If cond thenp elsep, ctx, current, g, target, h2, hc => by
    rw [CFGSlots.walk, walk]
    simp only [CFG.toSlots_freshBlock_fst, CFG.toSlots_freshBlock_snd, freshBlock_fst,
      size_freshBlock]
    have e1 : g.freshBlock.2.freshBlock.2.size = g.size + 2 := by simp
    rw [walk_toSlots cond ctx.newTemporary.2 current g.freshBlock.2.freshBlock.2
      ctx.newTemporary.1 (by omega) (by omega)]
    cases hw : walk ctx.newTemporary.2 cond current g.freshBlock.2.freshBlock.2
        ctx.newTemporary.1 with
    | none => rfl
    | some res =>
      obtain ⟨cont, g1, ctx1⟩ := res
      obtain ⟨hr, hs⟩ := walk_ret_lt (by omega) (by omega) hw
      simp only [toSlotsResult]
      rw [CFG.toSlots_setCond hr]
      simp only
      have e2 : (g1.setCond cont ctx.newTemporary.1).size = g1.size := by simp
      rw [CFG.toSlots_setThenb (by omega : current < (g1.setCond cont ctx.newTemporary.1).size)]
      simp only
      have e3 : ((g1.setCond cont ctx.newTemporary.1).setThenb current g.size).size
          = g1.size := by simp
      rw [CFG.toSlots_setElseb (by omega :
        current < ((g1.setCond cont ctx.newTemporary.1).setThenb current g.size).size)]
      simp only
      have e4 : (((g1.setCond cont ctx.newTemporary.1).setThenb current g.size).setElseb
          current (g.size + 1)).size = g1.size := by simp
      rw [walk_toSlots thenp ctx1 g.size
        (((g1.setCond cont ctx.newTemporary.1).setThenb current g.size).setElseb current
          (g.size + 1)) target (by omega) (by omega)]
      cases ht : walk ctx1 thenp g.size
          (((g1.setCond cont ctx.newTemporary.1).setThenb current g.size).setElseb current
            (g.size + 1)) target with
      | none => rfl
      | some res3 =>
        obtain ⟨thenEnd, g3, ctx2⟩ := res3
        obtain ⟨hr3, hs3⟩ := walk_ret_lt (by omega) (by omega) ht
        simp only [toSlotsResult]
        rw [walk_toSlots elsep ctx2 g.size g3 target (by omega) (by omega)]
        cases he : walk ctx2 elsep g.size g3 target with
        | none => rfl
        | some res4 =>
          obtain ⟨elseEnd, g4, ctx3⟩ := res4
          obtain ⟨hr4, hs4⟩ := walk_ret_lt (by omega) (by omega) he
          simp only [toSlotsResult, CFG.toSlots_freshBlock_fst, CFG.toSlots_freshBlock_snd,
            freshBlock_fst]
          split
          · have e5 : g4.freshBlock.2.size = g4.size + 1 := by simp
            rw [CFG.toSlots_setJump (Nat.lt_of_lt_of_le hr3
              (by omega : g3.size ≤ g4.freshBlock.2.size))]
            simp only
            have e6 : (g4.freshBlock.2.setJump thenEnd g4.size).size = g4.size + 1 := by simp
            rw [CFG.toSlots_setJump
              (Nat.lt_of_lt_of_le hr4 (by omega :
                g4.size ≤ (g4.freshBlock.2.setJump thenEnd g4.size).size))]
          · rfl
  | .IntLit _, ctx, current, g, target, h2, hc => by
    rw [CFGSlots.walk, walk, CFG.toSlots_emplaceBack hc]
    rfl
  | .FloatLit _, ctx, current, g, target, h2, hc => by
    rw [CFGSlots.walk, walk, CFG.toSlots_emplaceBack hc]
    rfl
  | .StringLit _, ctx, current, g, target, h2, hc => by
    rw [CFGSlots.walk, walk, CFG.toSlots_emplaceBack hc]
    rfl
  | .BoolLit _, ctx, current, g, target, h2, hc => by
    rw [CFGSlots.walk, walk, CFG.toSlots_emplaceBack hc]
    rfl
  | .ConstantLit _, ctx, current, g, target, h2, hc => by
    rw [CFGSlots.walk, walk, CFG.toSlots_emplaceBack hc]
    rfl
  | .Ident _, ctx, current, g, target, h2, hc => by
    rw [CFGSlots.walk, walk, CFG.toSlots_emplaceBack hc]
    rfl
  | .Self _, ctx, current, g, target, h2, hc => by
    rw [CFGSlots.walk, walk, CFG.toSlots_emplaceBack hc]
    rfl
  | .Other _, ctx, current, g, target, h2, hc => by
    rw [CFGSlots.walk, walk, CFG.toSlots_emplaceBack hc]
    rfl
  | .Assign lhs rhs, ctx, current, g, target, h2, hc => by
    cases lhs with
    | Ident lhsSymbol =>
      rw [CFGSlots.walk, walk]
      rw [walk_toSlots rhs ctx current g lhsSymbol h2 hc]
      cases hw : walk ctx rhs current g lhsSymbol with
      | none => rfl
      | some res =>
        obtain ⟨rhsCont, g1, ctx1⟩ := res
        obtain ⟨hr, hs⟩ := walk_ret_lt h2 hc hw
        simp only [toSlotsResult]
        rw [CFG.toSlots_emplaceBack hr]
    | _ => simp [CFGSlots.walk, walk, toSlotsResult]
  | .InsSeq stats expr, ctx, current, g, target, h2, hc => by
    rw [CFGSlots.walk, walk]
    rw [walkStats_toSlots stats ctx current g h2 hc]
    cases hw : walkStats ctx stats current g with
    | none => rfl
    | some res =>
      obtain ⟨current1, g1, ctx1⟩ := res
      obtain ⟨hr, hs⟩ := walkStats_ret_lt h2 hc hw
      simp only [toSlotsResult]
      exact walk_toSlots expr ctx1 current1 g1 target (by omega) hr
theorem walkStats_toSlots : ∀ (stats : List Statement) (ctx : GlobalState) (current : Nat)
    (g : CFG), 2 ≤ g.size → current < g.size →
    CFGSlots.walkStats ctx stats current g.toSlots
      = toSlotsResult (walkStats ctx stats current g)
  | [], ctx, current, g, h2, hc => by
    rw [CFGSlots.walkStats, walkStats]
    rfl
  | exp :: rest, ctx, current, g, h2, hc => by
    rw [CFGSlots.walkStats, walkStats]
    rw [walk_toSlots exp ctx.newTemporary.2 current g ctx.newTemporary.1 h2 hc]
    cases hw : walk ctx.newTemporary.2 exp current g ctx.newTemporary.1 with
    | none => rfl
    | some res =>
      obtain ⟨current1, g1, ctx1⟩ := res
      obtain ⟨hr, hs⟩ := walk_ret_lt h2 hc hw
      simp only [toSlotsResult]
      exact walkStats_toSlots rest ctx1 current1 g1 (by omega) hr
end


/-! ## The claims about what `buildFor` returns, on the constructor of the source -/

/-- C13 (the code breaks it): the method bodies `42` and a node of an unsupported kind reach
no `Assign` at all, and `buildFor` returns no CFG for them: the run ends at the store through
the null `entry()` pointer. The body `1; (2 = 3)` reaches an `Assign` whose left-hand side is
not a variable, and the run ends at that same store, before the check of the `Assign`. No
method body at all makes `buildFor` return a CFG. -/
theorem buildFor_returns_no_graph :
    reachesBadAssign (.IntLit 42) = false
      ∧ CFGSlots.buildFor 2 ⟨0, .IntLit 42⟩ = .error .nullDeref
      ∧ reachesBadAssign (.Other 0) = false
      ∧ CFGSlots.buildFor 2 ⟨0, .Other 0⟩ = .error .nullDeref
      ∧ reachesBadAssign (.InsSeq [.IntLit 1] (.Assign (.IntLit 2) (.IntLit 3))) = true
      ∧ CFGSlots.buildFor 2 ⟨0, .InsSeq [.IntLit 1] (.Assign (.IntLit 2) (.IntLit 3))⟩
          = .error .nullDeref
      ∧ ∀ (ctx : GlobalState) (md : MethodDef) (r : CFGSlots × GlobalState),
          CFGSlots.buildFor ctx md ≠ .ok r :=
  ⟨rfl, rfl, rfl, rfl, rfl, rfl, CFGSlots.buildFor_ne_ok⟩

/-- C15 (the code breaks it): the CFG that `CFG::CFG()` constructs has two slots and no
block, neither an entry block nor a dead block; for a method body that is a single integer
literal `buildFor` returns no CFG with two blocks, the run ends at the store
`current->exprs.emplace_back(...)` through the null `entry()` pointer. -/
theorem buildFor_literal_null_deref :
    CFGSlots.new.size = 2
      ∧ CFGSlots.new.block? entry = none
      ∧ CFGSlots.new.block? deadBlock = none
      ∧ ∀ (ctx : GlobalState) (sym : SymbolRef) (value : Int),
          CFGSlots.buildFor ctx ⟨sym, .IntLit value⟩ = .error .nullDeref :=
  ⟨rfl, rfl, rfl, fun _ _ _ => rfl⟩

end cfg

end ruby_typer
